import Mathlib

/-! # Jacky: a static site generator (src/main.go)

A shallow embedding of the parts of `src/main.go` that decide the routing trie,
the permalink model, the post ordering and the pagination, the front-matter parser, the
loading of a post, the markdown pre- and post-processing, the validator and the tag cloud,
the loading of the configuration, of the layouts, the includes and the posts, the template
function `truncate`, the heading strip of `renderPost` and the event handler of the file
watcher, followed by the theorems about them.

Conventions of the embedding.
* A Go `string` is a Lean `String`; the byte-level operations used by the source
  (`strings.Trim`, `strings.Split`, `strings.HasPrefix`, ...) only ever look for ASCII
  separators, so they are embedded on the character list `String.data`.
* A Go pointer `*Post` is an `Option Post` (`none` is `nil`).
* A Go `map[string]*URLNode` is an association list in which a key is looked up at its
  first occurrence; a `nil` map and an empty map are both `[]` (the source reads them alike).
* Library functions whose code is not in the repository (`url.Parse`, `sort.Slice`,
  `yaml.Unmarshal`, `time.Parse`, the word segmenter, and the calls that read the file
  system: `os.Stat`, `os.ReadFile`, `filepath.Abs`, `filepath.Join`, the directory walk) are
  parameters of the functions that call them. The two regular expressions of `extractFromFilename` are embedded as the
  matchers they denote.
-/

namespace Jacky

/-! ## Go string primitives -/

/-- Drop the leading `/` characters: the left half of `strings.Trim(s, "/")`. -/
def trimLeftSlash : List Char → List Char
  | [] => []
  | c :: cs => if c = '/' then trimLeftSlash cs else c :: cs

/-- Go `strings.Trim(s, "/")` on the characters of `s`. -/
def trimSlash (s : List Char) : List Char :=
  (trimLeftSlash (trimLeftSlash s).reverse).reverse

/-- Go `strings.Split(s, "/")` on the characters of `s`: the pieces between the
separators, always at least one piece. -/
def splitSlash : List Char → List (List Char)
  | [] => [[]]
  | c :: cs =>
    if c = '/' then [] :: splitSlash cs
    else
      match splitSlash cs with
      | [] => [[c]]
      | p :: ps => (c :: p) :: ps

/-- The loop variable of `Insert`, `Search` and `SearchPrefix`:
`strings.Split(strings.Trim(path, "/"), "/")`. -/
def pathParts (path : String) : List String :=
  (splitSlash (trimSlash path.data)).map String.mk

/-- The non-empty `/`-separated segments of a path, in order. -/
def pathSegments (path : String) : List String :=
  (pathParts path).filter (fun part => part ≠ "")

/-- Go `strings.HasPrefix`. -/
def hasPrefix (s pre : String) : Bool := pre.data.isPrefixOf s.data

/-- Go `strings.HasSuffix`. -/
def hasSuffix (s suf : String) : Bool := suf.data.reverse.isPrefixOf s.data.reverse

/-- Go `s[:len(s)-1]` for a string that ends in an ASCII character. -/
def dropLastChar (s : String) : String := String.mk s.data.dropLast

/-! ## time.Time -/

/-- The part of a Go `time.Time` that the embedded code reads: the instant (`sec`, `nsec`,
counted from January 1, year 1, 00:00:00 UTC, which is the zero time) and the civil date
that `Year()`, `Month()`, `Day()` and `Format` report in the time's location. Dates of posts
come from parsing and carry no monotonic clock reading, which is left out. -/
structure Time where
  sec : Int := 0
  nsec : Nat := 0
  Year : Int := 1
  Month : Nat := 1
  Day : Nat := 1
  deriving DecidableEq, Repr

namespace Time

/-- Go `Time.IsZero`. -/
def IsZero (t : Time) : Bool := t.sec == 0 && t.nsec == 0

/-- Go `Time.After`: `t` is a later instant than `u`. -/
def After (t u : Time) : Bool := decide (t.sec > u.sec) || (t.sec == u.sec && decide (t.nsec > u.nsec))

/-- Go `Time.Before`: `t` is an earlier instant than `u`. -/
def Before (t u : Time) : Bool := decide (t.sec < u.sec) || (t.sec == u.sec && decide (t.nsec < u.nsec))

end Time

/-- The decimal digit `d` (taken modulo 10) as a character. -/
def digitChar (d : Nat) : Char := Char.ofNat (48 + d % 10)

/-- The decimal digits of a natural number, most significant first. -/
def decimal (n : Nat) : List Char := Nat.toDigits 10 n

/-- Go `time.appendInt(b, x, width)`: `x` in decimal, zero-padded on the left to `width`
digits, with a leading `-` when negative. -/
def appendInt (x : Int) (width : Nat) : List Char :=
  let u := x.natAbs
  let sign := if x < 0 then ['-'] else []
  if width = 2 ∧ u < 100 then
    sign ++ [digitChar (u / 10), digitChar u]
  else if width = 4 ∧ u < 10000 then
    sign ++ [digitChar (u / 1000), digitChar (u / 100), digitChar (u / 10), digitChar u]
  else
    sign ++ List.replicate (width - (decimal u).length) '0' ++ decimal u

/-- Go `fmt.Sprintf("%0<width>d", x)`: zero padding between the sign and the digits up to a
total of `width` characters. -/
def sprintfZeroPad (width : Nat) (x : Int) : List Char :=
  let digits := decimal x.natAbs
  let sign := if x < 0 then ['-'] else []
  sign ++ List.replicate (width - sign.length - digits.length) '0' ++ digits

namespace Time

/-- Go `t.Format("2006")`. -/
def FormatYear (t : Time) : String := String.mk (appendInt t.Year 4)

/-- Go `t.Format("01")`. -/
def FormatMonth (t : Time) : String := String.mk (appendInt t.Month 2)

/-- Go `t.Format("02")`. -/
def FormatDay (t : Time) : String := String.mk (appendInt t.Day 2)

end Time

/-! ## Config and Post -/

/-- The fields of `Config` read by the embedded code. -/
structure Config where
  Source : String := "."
  Destination : String := "_site"
  LayoutsDir : String := "_layouts"
  IncludesDir : String := "_includes"
  Permalink : String := "date"
  Paginate : Int := 0
  URL : String := "http://localhost:4000"
  configPath : String := ""
  deriving DecidableEq, Repr

/-- A value of the header mapping (`interface{}`), as far as the type assertions of the source
tell values apart: a string, a timestamp, or anything else. -/
inductive FMValue where
  | str (s : String)
  | time (t : Time)
  | other
  deriving DecidableEq, Repr

/-- The header mapping `map[string]interface{}`: an association list, a key being looked up
at its first occurrence; the `nil` map and the empty map are both `[]`. -/
abbrev FrontMatter := List (String × FMValue)

/-- The record `Post`. -/
structure Post where
  Path : String := ""
  Title : String := ""
  Layout : String := ""
  Content : String := ""
  RenderedContent : String := ""
  FrontMatter : FrontMatter := []
  URL : String := ""
  Date : Time := {}
  Description : String := ""
  Excerpt : String := ""
  ExcerptSeparator : String := ""
  Slug : String := ""
  Permalink : String := ""
  deriving DecidableEq, Repr

/-! ## The URL trie -/

/-- The record `URLNode`: segment, optional post, children keyed by segment. -/
inductive URLNode where
  | mk (Path : String) (Post : Option Post) (Children : List (String × URLNode))

namespace URLNode

/-- Field `Path`. -/
def Path : URLNode → String
  | mk p _ _ => p

/-- Field `Post`. -/
def Post : URLNode → Option Jacky.Post
  | mk _ p _ => p

/-- Field `Children`. -/
def Children : URLNode → List (String × URLNode)
  | mk _ _ c => c

/-- Assignment `node.Post = post`. -/
def setPost : URLNode → Option Jacky.Post → URLNode
  | mk path _ c, post => mk path post c

/-- Assignment of the field `Children`. -/
def setChildren : URLNode → List (String × URLNode) → URLNode
  | mk path p _, c => mk path p c

end URLNode

/-- Map index `children[part]` with its `exists` flag. -/
def childLookup : List (String × URLNode) → String → Option URLNode
  | [], _ => none
  | (k, n) :: rest, part => if k = part then some n else childLookup rest part

/-- Map assignment `children[part] = node`: the entry of an existing key is replaced, a new
key gets a new entry. -/
def childSet : List (String × URLNode) → String → URLNode → List (String × URLNode)
  | [], part, node => [(part, node)]
  | (k, n) :: rest, part, node =>
    if k = part then (k, node) :: rest else (k, n) :: childSet rest part node

/-- The record `URLTree`. -/
structure URLTree where
  Root : URLNode

/-- Go `NewURLTree`. -/
def NewURLTree : URLTree := ⟨URLNode.mk "/" none []⟩

/-- The loop of `URLTree.Insert` from the node `current` over the remaining `parts`
(the index test `i == len(parts)-1` is `rest = []`); the result is `current` after the
in-place updates. -/
def insertLoop (post : Option Post) : List String → URLNode → URLNode
  | [], current => current
  | part :: rest, current =>
    if part = "" then insertLoop post rest current
    else
      let child :=
        match childLookup current.Children part with
        | some c => c
        | none => URLNode.mk part none []
      let child := if rest.isEmpty then child.setPost post else child
      current.setChildren (childSet current.Children part (insertLoop post rest child))

/-- Go `URLTree.Insert`. -/
def URLTree.Insert (t : URLTree) (path : String) (post : Option Post) : URLTree :=
  ⟨insertLoop post (pathParts path) t.Root⟩

/-- The navigation loop shared verbatim by `URLTree.Search` and `URLTree.SearchPrefix`:
the node reached from `current`, or `none` where the source returns early. -/
def walkLoop : List String → URLNode → Option URLNode
  | [], current => some current
  | part :: rest, current =>
    if part = "" then walkLoop rest current
    else
      match childLookup current.Children part with
      | some child => walkLoop rest child
      | none => none

/-- Go `URLTree.Search`. -/
def URLTree.Search (t : URLTree) (path : String) : Option Post :=
  match walkLoop (pathParts path) t.Root with
  | some current => current.Post
  | none => none

mutual
/-- Go `URLTree.collectPosts`: `results` after visiting `node` and its subtree. The
children are visited in the order of the association list (Go leaves the order of a map
iteration unspecified). -/
def collectPosts : URLNode → List Post → List Post
  | URLNode.mk _ post children, results =>
    collectChildren children
      (match post with
       | some p => results ++ [p]
       | none => results)
/-- The `range node.Children` loop of `collectPosts`. -/
def collectChildren : List (String × URLNode) → List Post → List Post
  | [], results => results
  | (_, child) :: rest, results => collectChildren rest (collectPosts child results)
end

/-- Go `URLTree.SearchPrefix`. -/
def URLTree.SearchPrefix (t : URLTree) (pre : String) : List Post :=
  match walkLoop (pathParts pre) t.Root with
  | some current => collectPosts current []
  | none => []

/-! ## Permalinks -/

/-- Go `Post.makeAbsoluteURL`. -/
def Post.makeAbsoluteURL (relativeURL : String) (cfg : Config) : String :=
  if hasPrefix relativeURL "http://" || hasPrefix relativeURL "https://" then relativeURL
  else
    let relativeURL := if !hasPrefix relativeURL "/" then "/" ++ relativeURL else relativeURL
    let baseURL := cfg.URL
    let baseURL := if hasSuffix baseURL "/" then dropLastChar baseURL else baseURL
    baseURL ++ relativeURL

/-- Go `Post.generateDateURL`. -/
def Post.generateDateURL (p : Post) (cfg : Config) : Post :=
  let relativeURL :=
    if p.Date.IsZero then "/" ++ p.Slug ++ ".html"
    else
      let year := p.Date.FormatYear
      let month := p.Date.FormatMonth
      let day := p.Date.FormatDay
      "/" ++ year ++ "/" ++ month ++ "/" ++ day ++ "/" ++ p.Slug ++ ".html"
  { p with URL := Post.makeAbsoluteURL relativeURL cfg }

/-- Go `Post.generatePrettyURL`. -/
def Post.generatePrettyURL (p : Post) (cfg : Config) : Post :=
  let relativeURL :=
    if p.Date.IsZero then "/" ++ p.Slug ++ "/index.html"
    else
      let year := p.Date.FormatYear
      let month := p.Date.FormatMonth
      let day := p.Date.FormatDay
      "/" ++ year ++ "/" ++ month ++ "/" ++ day ++ "/" ++ p.Slug ++ "/index.html"
  { p with URL := Post.makeAbsoluteURL relativeURL cfg }

/-- Go `Post.generateNoneURL`. -/
def Post.generateNoneURL (p : Post) (cfg : Config) : Post :=
  let relativeURL :=
    if p.Date.IsZero then "/" ++ p.Slug ++ "/index.html"
    else
      let year := p.Date.FormatYear
      let month := p.Date.FormatMonth
      let day := p.Date.FormatDay
      "/" ++ year ++ "/" ++ month ++ "/" ++ day ++ "/" ++ p.Slug ++ "/index.html"
  { p with URL := Post.makeAbsoluteURL relativeURL cfg }

/-- Go `Post.generateURL`. -/
def Post.generateURL (p : Post) (cfg : Config) : Post :=
  if p.Permalink ≠ "" then
    let url := p.Permalink
    let url := if !hasSuffix url ".html" then url ++ ".html" else url
    { p with URL := Post.makeAbsoluteURL url cfg }
  else if cfg.Permalink = "date" then p.generateDateURL cfg
  else if cfg.Permalink = "pretty" then p.generatePrettyURL cfg
  else if cfg.Permalink = "none" then p.generateNoneURL cfg
  else p.generateDateURL cfg

/-- Go `strings.SplitN(s, sep, 2)` when `sep` occurs in `s`: the text before and after
its first occurrence; `none` when `sep` does not occur (and `strings.Contains` is false). -/
def cutOn (sep : List Char) : List Char → Option (List Char × List Char)
  | [] => none
  | c :: cs =>
    if sep.isPrefixOf (c :: cs) then some ([], (c :: cs).drop sep.length)
    else
      match cutOn sep cs with
      | some (a, b) => some (c :: a, b)
      | none => none

/-- Go `Post.extractRelativeURL`. The argument `urlParse` stands for the library call
`url.Parse`: it gives the field `Path` of the parsed URL, or `none` when `url.Parse`
returns an error. -/
def Post.extractRelativeURL (urlParse : String → Option String) (p : Post) : String :=
  if !hasPrefix p.URL "http://" && !hasPrefix p.URL "https://" then p.URL
  else
    match urlParse p.URL with
    | some path => path
    | none =>
      match cutOn "://".data p.URL.data with
      | some (_, rest) =>
        match cutOn "/".data rest with
        | some (_, path1) => "/" ++ String.mk path1
        | none => p.URL
      | none => p.URL

/-- Go `filepath.Base` on a system whose path separator is `/`. -/
def filepathBase (path : String) : String :=
  if path = "" then "."
  else
    let stripped := (trimLeftSlash path.data.reverse).reverse
    let last := (stripped.reverse.takeWhile (fun c => c ≠ '/')).reverse
    if last = [] then "/" else String.mk last

/-! ## Layouts -/

/-- The fields `Name` and `Content` of `Layout` (the parsed template is left out). -/
structure Layout where
  Name : String := ""
  Content : String := ""
  deriving DecidableEq, Repr

/-- Go `NewLayout`. -/
def NewLayout (name content : String) : Layout := { Name := name, Content := content }

/-- The read `m[key]` of a `map[string]*Layout` (`none`: the key is absent). -/
def layoutLookup : List (String × Layout) → String → Option Layout
  | [], _ => none
  | (k, v) :: rest, key => if k = key then some v else layoutLookup rest key

/-- The assignment `m[key] = value` of a `map[string]*Layout`. -/
def layoutSet : List (String × Layout) → String → Layout → List (String × Layout)
  | [], key, value => [(key, value)]
  | (k, v) :: rest, key, value =>
    if k = key then (k, value) :: rest else (k, v) :: layoutSet rest key value

/-- Go `filepath.Ext` on a system whose path separator is `/`: the suffix that begins at the
last dot of the last element of the path, empty when that element has no dot. -/
def filepathExt (path : String) : String :=
  let last := (path.data.reverse.takeWhile (fun c => c ≠ '/')).reverse
  if '.' ∈ last then String.mk ('.' :: (last.reverse.takeWhile (fun c => c ≠ '.')).reverse)
  else ""

/-- Go `strings.TrimSuffix`. -/
def trimSuffix (s suf : String) : String :=
  if hasSuffix s suf then String.mk (s.data.take (s.data.length - suf.data.length)) else s

/-! ## Site -/

/-- The fields of `Site` written or read by the embedded code. `Archives` is a Go map,
here an association list. -/
structure Site where
  Config : Config
  Posts : List Post := []
  Layouts : List (String × Layout) := []
  PagedPosts : List (List Post) := []
  Archives : List (String × List Post) := []
  JiebaTags : List String := []
  URLTree : URLTree := NewURLTree

/-- The expression `fmt.Sprintf("/archives/%04d/%02d/%02d/%s", post.Date.Year(),
post.Date.Month(), post.Date.Day(), filepath.Base(relativeURL))` of `buildURLTree`. -/
def archivePath (post : Post) (relativeURL : String) : String :=
  "/archives/" ++ String.mk (sprintfZeroPad 4 post.Date.Year) ++ "/" ++
    String.mk (sprintfZeroPad 2 post.Date.Month) ++ "/" ++
    String.mk (sprintfZeroPad 2 post.Date.Day) ++ "/" ++ filepathBase relativeURL

/-- One iteration of the loop of `Site.buildURLTree`. -/
def buildURLTreeStep (urlParse : String → Option String) (t : URLTree) (post : Post) : URLTree :=
  let relativeURL := post.extractRelativeURL urlParse
  let t := t.Insert relativeURL (some post)
  t.Insert (archivePath post relativeURL) (some post)

/-- Go `Site.buildURLTree`. -/
def Site.buildURLTree (urlParse : String → Option String) (s : Site) : Site :=
  { s with URLTree := s.Posts.foldl (buildURLTreeStep urlParse) s.URLTree }

/-- Go slice expression `xs[lo:hi]`. -/
def slice (xs : List Post) (lo hi : Nat) : List Post := (xs.take hi).drop lo

/-- The `for` loop of `Site.processPagination` from index `i` with `PagedPosts = acc`;
`fuel` bounds the number of iterations. The index is a natural number: `i + Paginate` is
computed only for `i < len(Posts)`, and past the first iteration `Paginate < len(Posts)` too,
so the sum stays far below the range of a Go `int`. -/
def paginateLoop (Posts : List Post) (Paginate : Nat) : Nat → Nat → List (List Post) → List (List Post)
  | 0, _, acc => acc
  | fuel + 1, i, acc =>
    if i < Posts.length then
      let stop := if i + Paginate > Posts.length then Posts.length else i + Paginate
      paginateLoop Posts Paginate fuel (i + Paginate) (acc ++ [slice Posts i stop])
    else acc

/-- Go `Site.processPagination`. The loop runs at most `len(Posts)` times, since every
iteration adds `Paginate ≥ 1` to `i`. -/
def Site.processPagination (s : Site) : Site :=
  if s.Config.Paginate ≤ 0 then s
  else { s with PagedPosts := paginateLoop s.Posts s.Config.Paginate.toNat s.Posts.length 0 [] }

/-- Statement `m[key] = append(m[key], post)` on the map `Archives`. -/
def archiveAppend : List (String × List Post) → String → Post → List (String × List Post)
  | [], key, post => [(key, [post])]
  | (k, ps) :: rest, key, post =>
    if k = key then (k, ps ++ [post]) :: rest else (k, ps) :: archiveAppend rest key post

/-- Go `Site.processArchives`; the key is `post.Date.Format("2006-01")`. -/
def Site.processArchives (s : Site) : Site :=
  let step := fun (m : List (String × List Post)) (post : Post) =>
    archiveAppend m (post.Date.FormatYear ++ "-" ++ post.Date.FormatMonth) post
  { s with Archives := s.Posts.foldl step [] }

/-- The comparison handed to `sort.Slice` by `processCollections`:
`s.Posts[i].Date.After(s.Posts[j].Date)`. -/
def dateAfter (a b : Post) : Bool := a.Date.After b.Date

/-- Go `Site.processCollections`. The argument `sortSlice` stands for the library call
`sort.Slice(s.Posts, less)`: it gives the slice after the call. -/
def Site.processCollections (sortSlice : (Post → Post → Bool) → List Post → List Post)
    (s : Site) : Site :=
  let s := { s with Posts := sortSlice dateAfter s.Posts }
  let s := s.processPagination
  s.processArchives

/-! ## More Go string primitives -/

/-- Go `unicode.IsSpace`. -/
def isSpace (c : Char) : Bool :=
  let n := c.toNat
  (9 ≤ n && n ≤ 13) || n = 32 || n = 0x85 || n = 0xA0 || n = 0x1680 ||
    (0x2000 ≤ n && n ≤ 0x200A) || n = 0x2028 || n = 0x2029 || n = 0x202F || n = 0x205F ||
    n = 0x3000

/-- Go `strings.TrimSpace` on the characters of a string. -/
def trimSpace (s : List Char) : List Char :=
  ((s.dropWhile isSpace).reverse.dropWhile isSpace).reverse

/-- Go `strings.Split(s, "\n")` on the characters of `s`. -/
def splitLines : List Char → List (List Char)
  | [] => [[]]
  | c :: cs =>
    if c = '\n' then [] :: splitLines cs
    else
      match splitLines cs with
      | [] => [[c]]
      | l :: ls => (c :: l) :: ls

/-- Go `strings.Join(lines, "\n")`. -/
def joinLines : List (List Char) → List Char
  | [] => []
  | [l] => l
  | l :: m :: rest => l ++ '\n' :: joinLines (m :: rest)

/-- The scan of Go `strings.ReplaceAll(s, old, new)` for a non-empty `old`: occurrences are
replaced from the left and do not overlap. `skip` counts the characters of an occurrence
already replaced that are still to be passed over. -/
def replaceAllFrom (old new : List Char) : Nat → List Char → List Char
  | _, [] => []
  | skip + 1, _ :: cs => replaceAllFrom old new skip cs
  | 0, c :: cs =>
    if old.isPrefixOf (c :: cs) then new ++ replaceAllFrom old new (old.length - 1) cs
    else c :: replaceAllFrom old new 0 cs

/-- Go `strings.ReplaceAll(s, old, new)` for a non-empty `old`. -/
def replaceAll (s old new : String) : String :=
  String.mk (replaceAllFrom old.data new.data 0 s.data)

/-- Go `strings.Contains` on characters. -/
def containsChars (sub : List Char) : List Char → Bool
  | [] => sub.isEmpty
  | c :: cs => sub.isPrefixOf (c :: cs) || containsChars sub cs

/-- Go `strings.Contains(s, sub)`. -/
def contains (s sub : String) : Bool := containsChars sub.data s.data

/-- Go `strings.Replace(s, old, new, 1)` on characters, for a non-empty `old`. -/
def replaceFirst (old new : List Char) (s : List Char) : List Char :=
  match cutOn old s with
  | some (a, b) => a ++ new ++ b
  | none => s

/-! ## Front matter -/

/-- The three results of `Parse`: header mapping, body, error (`none` is `nil`). -/
structure ParseResult where
  header : FrontMatter
  body : String
  err : Option String
  deriving DecidableEq, Repr

/-- The test `strings.TrimSpace(line) == "---"`. -/
def isDelimiter (line : List Char) : Bool := trimSpace line == ['-', '-', '-']

/-- The search loop of `Parse` from line index `i`, with the current values of `start` and
`end` (`none` is `-1`). -/
def findDelimiters : List (List Char) → Nat → Option Nat → Option Nat × Option Nat
  | [], _, start => (start, none)
  | line :: rest, i, start =>
    if isDelimiter line then
      match start with
      | none => findDelimiters rest (i + 1) (some i)
      | some st => (some st, some i)
    else findDelimiters rest (i + 1) start

/-- Go `Parse`. The argument `yamlUnmarshal` stands for the library call
`yaml.Unmarshal([]byte(text), &data)` on a `map[string]interface{}`: it gives the mapping
read, or `none` when the call returns an error. -/
def Parse (yamlUnmarshal : String → Option FrontMatter) (content : String) : ParseResult :=
  if trimSpace content.data = [] then { header := [], body := "", err := none }
  else
    let lines := splitLines content.data
    match findDelimiters lines 0 none with
    | (some start, some stop) =>
      if start ≥ stop ∨ start ≥ lines.length ∨ stop ≥ lines.length then
        { header := [], body := content, err := none }
      else
        let frontMatterLines := (lines.take stop).drop (start + 1)
        let frontMatterContent := String.mk (joinLines frontMatterLines)
        let data :=
          match yamlUnmarshal frontMatterContent with
          | some d => d
          | none => []
        let bodyLines := lines.drop (stop + 1)
        { header := data, body := String.mk (joinLines bodyLines), err := none }
    | _ => { header := [], body := content, err := none }

/-! ## Loading a post -/

/-- Map index `FrontMatter[key]`. -/
def fmLookup : FrontMatter → String → Option FMValue
  | [], _ => none
  | (k, v) :: rest, key => if k = key then some v else fmLookup rest key

/-- The type assertion `FrontMatter[key].(string)` with its `ok` flag. -/
def fmString (fm : FrontMatter) (key : String) : Option String :=
  match fmLookup fm key with
  | some (FMValue.str s) => some s
  | _ => none

/-- Go `Post.extractFrontMatter` (it always returns `nil`). The argument `timeParse` stands
for the library call `time.Parse(layout, value)`: the time parsed, or `none` on an error. -/
def Post.extractFrontMatter (timeParse : String → String → Option Time) (p : Post) : Post :=
  let p := match fmString p.FrontMatter "title" with
    | some title => { p with Title := title }
    | none => p
  let p := match fmString p.FrontMatter "layout" with
    | some layout => { p with Layout := layout }
    | none => p
  let p := match fmLookup p.FrontMatter "date" with
    | some (FMValue.time date) => { p with Date := date }
    | some (FMValue.str dateStr) =>
      match timeParse "2006-01-02 15:04:05" dateStr with
      | some parsed => { p with Date := parsed }
      | none =>
        match timeParse "2006-01-02" dateStr with
        | some parsed => { p with Date := parsed }
        | none => p
    | _ => p
  let p := match fmString p.FrontMatter "excerpt_separator" with
    | some separator => { p with ExcerptSeparator := separator }
    | none => p
  match fmString p.FrontMatter "permalink" with
  | some permalink => { p with Permalink := permalink }
  | none => p

/-- The pattern `^[0-9]{4}-[0-9]{2}-[0-9]{2}-` of the Go regular expressions of
`extractFromFilename`, matched at the start of a text: the three digit groups and the text
that follows the match. -/
def matchDatePrefix : List Char → Option (List Char × List Char × List Char × List Char)
  | y1 :: y2 :: y3 :: y4 :: h1 :: m1 :: m2 :: h2 :: d1 :: d2 :: h3 :: rest =>
    if y1.isDigit && y2.isDigit && y3.isDigit && y4.isDigit && h1 = '-' &&
        m1.isDigit && m2.isDigit && h2 = '-' && d1.isDigit && d2.isDigit && h3 = '-' then
      some ([y1, y2, y3, y4], [m1, m2], [d1, d2], rest)
    else none
  | _ => none

/-- The split that the greedy pattern `(.+)\.(.+)$` makes of a text: at the last `.` that
has a character after it. The first group may come out empty here; the caller rejects it. -/
def splitAtLastDot : List Char → Option (List Char × List Char)
  | [] => none
  | c :: cs =>
    match splitAtLastDot cs with
    | some (a, b) => some (c :: a, b)
    | none => if c = '.' ∧ cs ≠ [] then some ([], cs) else none

/-- The call `filenameRegex.FindStringSubmatch(filename)` for the pattern
`^([0-9]{4})-([0-9]{2})-([0-9]{2})-(.+)\.(.+)$`: the five groups, or `none` when the name
does not match. In a Go pattern `.` matches every character but the line feed. -/
def filenameRegexMatch (filename : String) :
    Option (List Char × List Char × List Char × List Char × List Char) :=
  match matchDatePrefix filename.data with
  | some (year, month, day, rest) =>
    if rest.contains '\n' then none
    else
      match splitAtLastDot rest with
      | some (title, ext) => if title = [] then none else some (year, month, day, title, ext)
      | none => none
  | none => none

/-- The call `regexp.MustCompile("^[0-9]{4}-[0-9]{2}-[0-9]{2}-").ReplaceAllString(s, "")`. -/
def stripDatePrefix (titlePart : List Char) : List Char :=
  match matchDatePrefix titlePart with
  | some (_, _, _, rest) => rest
  | none => titlePart

/-- Go `Post.extractFromFilename`. -/
def Post.extractFromFilename (timeParse : String → String → Option Time) (p : Post) : Post :=
  let filename := filepathBase p.Path
  match filenameRegexMatch filename with
  | some (year, month, day, title, _) =>
    let p :=
      if p.Date.IsZero then
        if year ≠ [] ∧ month ≠ [] ∧ day ≠ [] then
          match timeParse "2006-01-02" (String.mk (year ++ '-' :: month ++ '-' :: day)) with
          | some date => { p with Date := date }
          | none => p
        else p
      else p
    let titlePart := stripDatePrefix title
    let p :=
      if p.Title = "" then { p with Title := replaceAll (String.mk titlePart) "-" " " } else p
    { p with Slug := String.mk titlePart }
  | none => p

/-- Go `Post.generateExcerpt`; `parts[0]` of `strings.Split(Content, ExcerptSeparator)` is the
text before the first occurrence of the separator. -/
def Post.generateExcerpt (p : Post) : Post :=
  if p.ExcerptSeparator = "" then p
  else
    let first :=
      match cutOn p.ExcerptSeparator.data p.Content.data with
      | some (a, _) => a
      | none => p.Content.data
    { p with Excerpt := String.mk (trimSpace first) }

/-- Go `NewPost`. The argument `file` stands for `os.ReadFile(path)`: the content of the file,
or `none` when it cannot be read, in which case `NewPost` returns an error (`none`). -/
def NewPost (yamlUnmarshal : String → Option FrontMatter)
    (timeParse : String → String → Option Time) (path : String) (file : Option String)
    (cfg : Config) : Option Post :=
  match file with
  | none => none
  | some content =>
    let parsed := Parse yamlUnmarshal content
    let fm := match parsed.err with
      | some _ => []
      | none => parsed.header
    let post : Post :=
      { Path := path, Content := parsed.body, FrontMatter := fm, ExcerptSeparator := "\n\n" }
    let post := post.extractFrontMatter timeParse
    let post := post.extractFromFilename timeParse
    let post := post.generateURL cfg
    some post.generateExcerpt

/-! ## Markdown converter and validator -/

/-- Go `strings.HasPrefix` on characters. -/
def startsWith (line : List Char) (pre : String) : Bool := pre.data.isPrefixOf line

/-- Go `MarkdownConverter.fixMarkdownLinks`: it returns the line as it is. -/
def fixMarkdownLinks (line : List Char) : List Char := line

/-- Go `MarkdownConverter.fixImageTags`: it returns the text as it is. -/
def fixImageTags (html : String) : String := html

/-- Go `MarkdownConverter.postprocessHTML`. -/
def postprocessHTML (html : String) : String :=
  let html := replaceAll html "<script" "&lt;script"
  let html := replaceAll html "</script>" "&lt;/script&gt;"
  let html := replaceAll html "javascript:" ""
  fixImageTags html

/-- The part of the loop body of `preprocessMarkdown` that handles a line outside a code
block: heading, list and link steps. -/
def preprocessPlainLine (line : List Char) : List Char :=
  let line :=
    if startsWith line "#" then
      if !containsChars " ".data line then replaceFirst "#".data "# ".data line else line
    else line
  let line :=
    if startsWith line "- " || startsWith line "* " || startsWith line "+ " then
      if !startsWith line "- " && !startsWith line "* " && !startsWith line "+ " then
        "- ".data ++ trimSpace line
      else line
    else line
  if containsChars "[".data line && containsChars "]".data line &&
      containsChars "(".data line && containsChars ")".data line then
    fixMarkdownLinks line
  else line

/-- The loop of `preprocessMarkdown` over the remaining lines, with the current values of
`inCodeBlock` and `processedLines`; it gives their final values. -/
def preprocessLoop : List (List Char) → Bool → List (List Char) → List (List Char) × Bool
  | [], inCodeBlock, processedLines => (processedLines, inCodeBlock)
  | line :: rest, inCodeBlock, processedLines =>
    if startsWith line "```" && !inCodeBlock then
      preprocessLoop rest true (processedLines ++ [line])
    else if startsWith line "```" && inCodeBlock then
      preprocessLoop rest false (processedLines ++ [line])
    else if inCodeBlock then
      preprocessLoop rest inCodeBlock (processedLines ++ [line])
    else
      preprocessLoop rest inCodeBlock (processedLines ++ [preprocessPlainLine line])

/-- The line-ending step of `preprocessMarkdown`: `\r\n` and then `\r` become `\n`. -/
def normalizeNewlines (content : String) : String :=
  replaceAll (replaceAll content "\r\n" "\n") "\r" "\n"

/-- Go `MarkdownConverter.preprocessMarkdown`. -/
def preprocessMarkdown (content : String) : String :=
  let content := normalizeNewlines content
  let lines := splitLines content.data
  let (processedLines, inCodeBlock) := preprocessLoop lines false []
  let processedLines := if inCodeBlock then processedLines ++ ["```".data] else processedLines
  String.mk (joinLines processedLines)

/-- The message `fmt.Sprintf("第%d行: 标题格式错误，应在#后加空格", n)`. -/
def headingError (n : Nat) : String :=
  "第" ++ String.mk (decimal n) ++ "行: 标题格式错误，应在#后加空格"

/-- The message `fmt.Sprintf("第%d行: 列表格式错误，应在符号后加空格", n)`. -/
def listError (n : Nat) : String :=
  "第" ++ String.mk (decimal n) ++ "行: 列表格式错误，应在符号后加空格"

/-- The state of the loop of `ValidateMarkdown`. -/
structure ValidateState where
  inCodeBlock : Bool := false
  inFrontMatter : Bool := false
  errors : List String := []
  deriving DecidableEq, Repr

/-- The body of the loop of `ValidateMarkdown` for the line of index `i`. -/
def validateLine (i : Nat) (line : List Char) (st : ValidateState) : ValidateState :=
  let trimmedLine := trimSpace line
  if trimmedLine = "---".data then { st with inFrontMatter := !st.inFrontMatter }
  else if st.inFrontMatter then st
  else
    let st :=
      if startsWith trimmedLine "```" then { st with inCodeBlock := !st.inCodeBlock } else st
    let st :=
      if startsWith line "#" then
        if !containsChars " ".data line then
          { st with errors := st.errors ++ [headingError (i + 1)] }
        else st
      else st
    if startsWith line "-" || startsWith line "*" || startsWith line "+" then
      if !startsWith line "- " && !startsWith line "* " && !startsWith line "+ " then
        { st with errors := st.errors ++ [listError (i + 1)] }
      else st
    else st

/-- The loop of `ValidateMarkdown` from the line of index `i`. -/
def validateLoop : List (List Char) → Nat → ValidateState → ValidateState
  | [], _, st => st
  | line :: rest, i, st => validateLoop rest (i + 1) (validateLine i line st)

/-- Go `ValidateMarkdown`: the flag `valid` and the list of errors. -/
def ValidateMarkdown (content : String) : Bool × List String :=
  if trimSpace content.data = [] then (false, ["内容为空"])
  else
    let st := validateLoop (splitLines content.data) 0 {}
    let errors := if st.inCodeBlock then st.errors ++ ["代码块未正确闭合"] else st.errors
    (errors.isEmpty, errors)

/-! ## Tag cloud -/

/-- The statement `freq[w]++` on the map `freq`. -/
def freqIncrement : List (String × Nat) → String → List (String × Nat)
  | [], w => [(w, 1)]
  | (k, v) :: rest, w => if k = w then (k, v + 1) :: rest else (k, v) :: freqIncrement rest w

/-- The inner loop of `buildJiebaTags` over the words of one title; `len([]rune(w))` is the
number of characters of `w`. -/
def countWords (freq : List (String × Nat)) (words : List String) : List (String × Nat) :=
  words.foldl (fun freq w => if w.data.length < 2 then freq else freqIncrement freq w) freq

/-- The comparison handed to `sort.Slice` by `buildJiebaTags`: `arr[i].V > arr[j].V`. -/
def tagLess (a b : String × Nat) : Bool := decide (a.2 > b.2)

/-- Go `Site.buildJiebaTags`. The arguments stand for library behaviour: `cutForSearch` for
the segmenter call `x.CutForSearch(title, true)`, `rangeOrder` for the order in which
`range freq` visits the map, `sortSlice` for `sort.Slice(arr, less)`. -/
def Site.buildJiebaTags (cutForSearch : String → List String)
    (rangeOrder : List (String × Nat) → List (String × Nat))
    (sortSlice : (String × Nat → String × Nat → Bool) → List (String × Nat) →
      List (String × Nat))
    (s : Site) : Site :=
  let freq := s.Posts.foldl (fun freq post => countWords freq (cutForSearch post.Title)) []
  let arr := rangeOrder freq
  let arr := sortSlice tagLess arr
  let tags := (arr.take 20).map Prod.fst
  let tags := if tags.length = 0 then tags ++ ["无标签"] else tags
  { s with JiebaTags := tags }

/-! ## Loading the layouts, the includes and the posts -/

/-- One call that `filepath.Walk` makes of its callback: for an entry that it could not visit
(the callback receives a non-nil `err`), for a directory, or for a regular file. A file
comes with the result of `os.ReadFile` on its path, an error with the text of the library
error. -/
inductive WalkEntry where
  | failed (path : String) (err : String)
  | dir (path : String)
  | file (path : String) (content : Except String String)

/-- The callback of `Site.loadLayouts` over the calls that `filepath.Walk` makes, in their
order; the walk stops at the first error that the callback returns and returns it. -/
def walkLayouts : List WalkEntry → Site → Except String Site
  | [], s => Except.ok s
  | WalkEntry.failed _ err :: _, _ => Except.error err
  | WalkEntry.dir _ :: rest, s => walkLayouts rest s
  | WalkEntry.file path file :: rest, s =>
    if filepathExt path ≠ ".html" ∧ filepathExt path ≠ ".htm" then walkLayouts rest s
    else
      match file with
      | Except.error err => Except.error ("读取布局文件 " ++ path ++ " 失败: " ++ err)
      | Except.ok content =>
        let layoutName := trimSuffix (filepathBase path) (filepathExt path)
        walkLayouts rest
          { s with Layouts := layoutSet s.Layouts layoutName (NewLayout layoutName content) }

/-- Go `Site.loadLayouts`. `join` stands for `filepath.Join`, `isNotExist path` for
`os.IsNotExist(err)` on the error of `os.Stat(path)`, and `walk dir` for the calls that
`filepath.Walk(dir, ...)` makes of its callback. -/
def Site.loadLayouts (join : String → String → String) (isNotExist : String → Bool)
    (walk : String → List WalkEntry) (s : Site) : Except String Site :=
  let layoutsDir := join s.Config.Source s.Config.LayoutsDir
  if isNotExist layoutsDir then
    Except.error ("布局目录不存在: " ++ layoutsDir ++ "，请手动补充布局文件")
  else walkLayouts (walk layoutsDir) s

/-- The callback of `Site.loadIncludes` over the calls that `filepath.Walk` makes, in their
order. The arguments `stripStart` and `stripEnd` stand for
`defineStartRegex.ReplaceAllString(content, "")` and
`defineEndRegex.ReplaceAllString(content, "")`. -/
def walkIncludes (stripStart stripEnd : String → String) :
    List WalkEntry → Site → Except String Site
  | [], s => Except.ok s
  | WalkEntry.failed _ err :: _, _ => Except.error err
  | WalkEntry.dir _ :: rest, s => walkIncludes stripStart stripEnd rest s
  | WalkEntry.file path file :: rest, s =>
    if filepathExt path ≠ ".html" ∧ filepathExt path ≠ ".htm" then
      walkIncludes stripStart stripEnd rest s
    else
      match file with
      | Except.error err => Except.error ("读取包含文件 " ++ path ++ " 失败: " ++ err)
      | Except.ok content =>
        let content := stripEnd (stripStart content)
        let includeName := trimSuffix (filepathBase path) (filepathExt path)
        walkIncludes stripStart stripEnd rest
          { s with Layouts := layoutSet s.Layouts includeName (NewLayout includeName content) }

/-- Go `Site.loadIncludes`. `join` stands for `filepath.Join`, `isNotExist path` for
`os.IsNotExist(err)` on the error of `os.Stat(path)`, and `walk dir` for the calls that
`filepath.Walk(dir, ...)` makes of its callback. -/
def Site.loadIncludes (join : String → String → String) (isNotExist : String → Bool)
    (stripStart stripEnd : String → String) (walk : String → List WalkEntry) (s : Site) :
    Except String Site :=
  let includesDir := join s.Config.Source s.Config.IncludesDir
  if isNotExist includesDir then Except.ok s
  else walkIncludes stripStart stripEnd (walk includesDir) s

/-- Go `Site.loadPosts`. `files` lists, in the order of `filepath.Walk`, the regular files
below the posts directory for which `Config.IsMarkdownFile` holds, each with the result of
`os.ReadFile`; it is empty when the directory does not exist. A file for which `NewPost`
fails is skipped. -/
def Site.loadPosts (yamlUnmarshal : String → Option FrontMatter)
    (timeParse : String → String → Option Time) (files : List (String × Option String))
    (s : Site) : Site :=
  let step := fun (s : Site) (f : String × Option String) =>
    match NewPost yamlUnmarshal timeParse f.1 f.2 s.Config with
    | some p => { s with Posts := s.Posts ++ [p] }
    | none => s
  files.foldl step s

/-! ## Configuration -/

/-- Go `Defaults`, on the fields embedded. -/
def Defaults : Config := {}

/-- Go `Config.validate`. `isNotExist path` stands for `os.IsNotExist(err)` on the error of
`os.Stat(path)`, `abs` for `filepath.Abs` (the source drops its error). The result is the
error message, `none` for `nil`. -/
def Config.validate (isNotExist : String → Bool) (abs : String → String) (c : Config) :
    Option String :=
  if isNotExist c.Source then some ("源目录不存在: " ++ c.Source)
  else
    let absSource := abs c.Source
    let absDest := abs c.Destination
    if hasPrefix absDest absSource && absSource ≠ absDest then
      if filepathBase absDest ≠ "_site" then some "目标目录不能是源目录的子目录" else none
    else none

/-- The search loop of `Config.loadFromFile` over the extensions: the first path
`filepath.Join(c.Source, "_config" + ext)` that `os.Stat` finds, or the empty string.
`statOK` stands for `os.Stat` returning no error, `join` for `filepath.Join`. -/
def findConfigFile (statOK : String → Bool) (join : String → String → String)
    (source : String) : List String → String
  | [] => ""
  | ext :: rest =>
    if statOK (join source ("_config" ++ ext)) then join source ("_config" ++ ext)
    else findConfigFile statOK join source rest

/-- Go `Config.loadFromFile`. `readFile` stands for `os.ReadFile` (`none`: an error), and
`yamlUnmarshal data c` for `yaml.Unmarshal(data, c)`: the configuration with the keys of the
file written over `c`, or `none` when the call fails. -/
def Config.loadFromFile (statOK : String → Bool) (join : String → String → String)
    (readFile : String → Option String) (yamlUnmarshal : String → Config → Option Config)
    (c : Config) : Except String Config :=
  let found := findConfigFile statOK join c.Source [".yml", ".yaml", ".toml"]
  if found = "" ∧ c.configPath = "" then Except.ok c
  else
    let configFile := if found = "" then c.configPath else found
    match readFile configFile with
    | none => Except.error ("读取配置文件 " ++ configFile ++ " 失败")
    | some data =>
      match yamlUnmarshal data c with
      | none => Except.error "解析配置文件失败"
      | some c => Except.ok c

/-- Go `Load`. -/
def Load (statOK : String → Bool) (join : String → String → String)
    (readFile : String → Option String) (yamlUnmarshal : String → Config → Option Config)
    (isNotExist : String → Bool) (abs : String → String)
    (configPath source destination : String) : Except String Config :=
  let config := Defaults
  let config := if source ≠ "." then { config with Source := source } else config
  let config :=
    if destination ≠ "_site" then { config with Destination := destination } else config
  let loaded :=
    if configPath ≠ "" then
      match ({ config with configPath := configPath } : Config).loadFromFile statOK join
        readFile yamlUnmarshal with
      | Except.error e => Except.error ("加载配置文件失败: " ++ e)
      | Except.ok c => Except.ok c
    else Except.ok config
  match loaded with
  | Except.error e => Except.error e
  | Except.ok config =>
    match config.validate isNotExist abs with
    | some e => Except.error ("配置验证失败: " ++ e)
    | none => Except.ok config

/-! ## Template functions -/

/-- The bytes of the UTF-8 encoding of a string: what Go's `len` counts and what a slice
expression `s[:n]` cuts. -/
def utf8Bytes (s : String) : List Nat :=
  s.data.flatMap (fun c => (String.utf8EncodeChar c).map UInt8.toNat)

/-- Go `Engine.truncate` on the bytes of its argument, for a `length` that is not negative:
`len(s)` is the number of bytes and `s[:length]` the first `length` bytes. -/
def truncate (s : List Nat) (length : Nat) : List Nat :=
  if s.length ≤ length then s else s.take length ++ utf8Bytes "..."

/-! ## File watcher -/

/-- The bits of `fsnotify.Op`. -/
def opCreate : Nat := 1

/-- The bit `fsnotify.Write`. -/
def opWrite : Nat := 2

/-- The bit `fsnotify.Remove`. -/
def opRemove : Nat := 4

/-- The bit `fsnotify.Rename`. -/
def opRename : Nat := 8

/-- The bit `fsnotify.Chmod`. -/
def opChmod : Nat := 16

/-- An `fsnotify.Event`: the path and the bit set of operations. -/
structure Event where
  Name : String
  Op : Nat
  deriving DecidableEq, Repr

/-- The fields of `FileWatcher` written by the event handler. `fileHashes` is a Go map, here
an association list. `timer` names the timer object held by the watcher (`none` is `nil`):
the timers created by `time.AfterFunc` are numbered in the order of their creation, and
`timersCreated` counts them. The channel `rebuildCh` is written only by the function that a
timer runs when it fires, never by the handler, and is not part of this state. -/
structure FileWatcher where
  fileHashes : List (String × String) := []
  timer : Option Nat := none
  timersCreated : Nat := 0
  deriving DecidableEq, Repr

/-- The read `m[key]` of a `map[string]string` (`none`: the key is absent). -/
def hashLookup : List (String × String) → String → Option String
  | [], _ => none
  | (k, v) :: rest, key => if k = key then some v else hashLookup rest key

/-- The assignment `m[key] = value` of a `map[string]string`. -/
def hashSet : List (String × String) → String → String → List (String × String)
  | [], key, value => [(key, value)]
  | (k, v) :: rest, key, value =>
    if k = key then (k, value) :: rest else (k, v) :: hashSet rest key value

/-- The statement `delete(m, key)` of a `map[string]string`. -/
def hashDelete (m : List (String × String)) (key : String) : List (String × String) :=
  m.filter (fun kv => kv.1 ≠ key)

/-- Go `FileWatcher.hasFileChanged`. The argument `calculateFileHash` stands for the method of
that name, which reads the file system: it gives the SHA-256 digest of the file in
hexadecimal, or `none` when the file cannot be read. The result is the watcher and the pair
`(changed, err)`: `none` stands for a non-nil error. -/
def FileWatcher.hasFileChanged (calculateFileHash : String → Option String)
    (filePath : String) (fw : FileWatcher) : FileWatcher × Option Bool :=
  match calculateFileHash filePath with
  | none => (fw, none)
  | some newHash =>
    match hashLookup fw.fileHashes filePath with
    | none => ({ fw with fileHashes := hashSet fw.fileHashes filePath newHash }, some true)
    | some oldHash =>
      if oldHash ≠ newHash then
        ({ fw with fileHashes := hashSet fw.fileHashes filePath newHash }, some true)
      else (fw, some false)

/-- Go `FileWatcher.removeFileHash`. -/
def FileWatcher.removeFileHash (filePath : String) (fw : FileWatcher) : FileWatcher :=
  { fw with fileHashes := hashDelete fw.fileHashes filePath }

/-- Go `FileWatcher.debouncedRebuild`: the timer held is stopped and a new timer is created
by `time.AfterFunc`, which will offer one token to `rebuildCh` when it fires. -/
def FileWatcher.debouncedRebuild (fw : FileWatcher) : FileWatcher :=
  { fw with timer := some fw.timersCreated, timersCreated := fw.timersCreated + 1 }

/-- The test by which `handleFileEvent` returns at once: a hidden file, or a path that
contains `_site`. -/
def isIgnored (event : Event) : Bool :=
  hasPrefix (filepathBase event.Name) "." || contains event.Name "_site"

/-- Go `FileWatcher.handleFileEvent` (the messages printed are left out). -/
def FileWatcher.handleFileEvent (calculateFileHash : String → Option String) (event : Event)
    (fw : FileWatcher) : FileWatcher :=
  if isIgnored event then fw
  else if event.Op &&& opWrite = opWrite then
    match fw.hasFileChanged calculateFileHash event.Name with
    | (fw, none) => fw
    | (fw, some changed) => if changed then fw.debouncedRebuild else fw
  else if event.Op &&& opCreate = opCreate then
    if !hasPrefix (filepathBase event.Name) "." then fw.debouncedRebuild else fw
  else if event.Op &&& opRemove = opRemove then
    (fw.removeFileHash event.Name).debouncedRebuild
  else if event.Op &&& opRename = opRename then
    (fw.removeFileHash event.Name).debouncedRebuild
  else fw

/-- The event branch of the loop of `FileWatcher.Start` over a finite sequence of events, each
with the file system as it is when the event is handled. -/
def FileWatcher.handleFileEvents (steps : List ((String → Option String) × Event))
    (fw : FileWatcher) : FileWatcher :=
  steps.foldl (fun fw step => fw.handleFileEvent step.1 step.2) fw

/-! ## Library stand-ins used to evaluate concrete inputs -/

/-- The inner loop of the Go library's `insertionSortLessFunc`: the new element moves left
past every element it is less than. The sorted part is held in reverse. -/
def insertLeft (less : Post → Post → Bool) (x : Post) : List Post → List Post
  | [] => [x]
  | y :: ys => if less x y then y :: insertLeft less x ys else x :: y :: ys

/-- The Go library's `insertionSortLessFunc`, the branch that `sort.Slice` takes on a slice
of at most 12 elements. -/
def insertionSort (less : Post → Post → Bool) (xs : List Post) : List Post :=
  (xs.foldl (fun sortedRev x => insertLeft less x sortedRev) []).reverse

/-- Characters of a host name or port, and of a path, that `url.Parse` copies unchanged. -/
def plainURLChar (c : Char) : Bool :=
  c.isAlphanum || c = '-' || c = '.' || c = '_' || c = '/'

/-- The `Path` that `url.Parse` gives for a URL `http://host/path` or `http://host:port/path`
(or `https`) written with letters, digits and `-._/` only: the text from the first `/`
after the host. Every other string is answered `none`; the theorems quantify over the
parser and use this one only on URLs of that shape. -/
def plainURLPath (s : String) : Option String :=
  let body :=
    if hasPrefix s "http://" then some (s.data.drop 7)
    else if hasPrefix s "https://" then some (s.data.drop 8)
    else none
  match body with
  | none => none
  | some b =>
    let host := b.takeWhile (fun c => c ≠ '/')
    let path := b.dropWhile (fun c => c ≠ '/')
    let name := host.takeWhile (fun c => c ≠ ':')
    let port := (host.dropWhile (fun c => c ≠ ':')).drop 1
    if name ≠ [] ∧ name.all plainURLChar ∧ port.all Char.isDigit ∧ path.all plainURLChar
    then some (String.mk path) else none

/-- Whether `y` is a leap year of the proleptic Gregorian calendar. -/
def isLeapYear (y : Nat) : Bool := y % 4 = 0 && (y % 100 ≠ 0 || y % 400 = 0)

/-- The number of days of month `m` in year `y`; `0` when `m` is no month. -/
def daysInMonth (y m : Nat) : Nat :=
  if m = 2 then (if isLeapYear y then 29 else 28)
  else if m = 4 ∨ m = 6 ∨ m = 9 ∨ m = 11 then 30
  else if 1 ≤ m ∧ m ≤ 12 then 31
  else 0

/-- The number of days of year `y` before its month `m`. -/
def daysBeforeMonth (y m : Nat) : Nat :=
  ((List.range (m - 1)).map (fun i => daysInMonth y (i + 1))).sum

/-- The value of a string of decimal digits. -/
def digitsValue (ds : List Char) : Nat :=
  ds.foldl (fun n c => 10 * n + (c.toNat - 48)) 0

/-- The result of `time.Parse("2006-01-02", value)` on a value `YYYY-MM-DD` of digits:
midnight UTC of that day when it is a day of the calendar, an error otherwise. For every
other layout or value this stand-in answers `none`; the theorems quantify over the parser
and use this one only on such values. -/
def parseDateOnly (layout value : String) : Option Time :=
  if layout = "2006-01-02" then
    match matchDatePrefix (value.data ++ ['-']) with
    | some (ys, ms, ds, []) =>
      let y := digitsValue ys
      let m := digitsValue ms
      let d := digitsValue ds
      if 1 ≤ m ∧ m ≤ 12 ∧ 1 ≤ d ∧ d ≤ daysInMonth y m then
        let y1 : Int := (y : Int) - 1
        let days : Int := 365 * y1 + y1 / 4 - y1 / 100 + y1 / 400 + daysBeforeMonth y m + (d - 1 : Nat)
        some { sec := days * 86400, nsec := 0, Year := y, Month := m, Day := d }
      else none
    | _ => none
  else none

/-- The result of `yaml.Unmarshal` on the one-line document `title: <word>`, the word in
lower-case letters and not one of `true`, `false`, `null`: the mapping of `title` to the
word. Every other text is answered `none`; the theorems quantify over the parser and use
this one only on a document of that shape or on a malformed one. -/
def yamlTitleOnly (text : String) : Option FrontMatter :=
  match cutOn "title: ".data text.data with
  | some ([], word) =>
    if word ≠ [] ∧ word.all Char.isLower ∧ word ≠ "true".data ∧ word ≠ "false".data ∧
        word ≠ "null".data then
      some [("title", FMValue.str (String.mk word))]
    else none
  | _ => none

/-- A segmenter that cuts a title at its spaces. -/
def cutAtSpaces (title : String) : List String :=
  ((splitLines (title.data.map (fun c => if c = ' ' then '\n' else c))).map String.mk)

/-- The inner loop of the Go library's `insertionSortLessFunc` on the pairs of the tag
count, the sorted part held in reverse. -/
def insertLeftTag (less : String × Nat → String × Nat → Bool) (x : String × Nat) :
    List (String × Nat) → List (String × Nat)
  | [] => [x]
  | y :: ys => if less x y then y :: insertLeftTag less x ys else x :: y :: ys

/-- The Go library's `insertionSortLessFunc` on the pairs of the tag count. -/
def insertionSortTags (less : String × Nat → String × Nat → Bool) (xs : List (String × Nat)) :
    List (String × Nat) :=
  (xs.foldl (fun sortedRev x => insertLeftTag less x sortedRev) []).reverse

/-- A file system in which every file read has the digest `digest`. -/
def constantDigest (digest : String) : String → Option String := fun _ => some digest

/-- The function `filepath.Join` on a clean relative directory other than `.` and a file
name. -/
def joinPath (dir name : String) : String := dir ++ "/" ++ name

/-- A file system in which `os.Stat` finds the path `path` and no other. -/
def onlyFile (path : String) : String → Bool := fun p => p = path

/-- A file system in which `os.ReadFile` reads `content` at `path` and fails elsewhere. -/
def fileWith (path content : String) : String → Option String :=
  fun p => if p = path then some content else none

/-- The function `yaml.Unmarshal` into a `Config` on the one-line documents
`destination: word`, `word` made of lower-case letters: the key `destination` is written
over the field `Destination`, and the other fields keep their values. -/
def yamlDestinationOnly (data : String) (c : Config) : Option Config :=
  match cutOn "destination: ".data data.data with
  | some ([], word) =>
    if word ≠ [] ∧ word.all Char.isLower ∧ word ≠ "true".data ∧ word ≠ "false".data ∧
        word ≠ "null".data then
      some { c with Destination := String.mk word }
    else none
  | _ => none

/-- A file system in which every path exists: `os.IsNotExist` is false for every path. -/
def allExist : String → Bool := fun _ => false

/-- The function `filepath.Abs` on clean paths, with the working directory `cwd`. -/
def absUnder (cwd : String) : String → String :=
  fun p => if hasPrefix p "/" then p else cwd ++ "/" ++ p

/-- The two replacements of `loadIncludes` on a text in which neither regular expression
matches: the text is returned as it is. -/
def keepText : String → String := fun text => text

/-- A directory walk that makes the calls `entries` whatever the directory. -/
def walkOf (entries : List WalkEntry) : String → List WalkEntry := fun _ => entries

/-! ## Vocabulary of the statements -/

/-- The name and the layout under which an entry of the includes directory is registered: a
regular file that can be read and whose extension is `.html` or `.htm` is registered under
its base name without the extension; no other entry is registered. -/
def includeOf (stripStart stripEnd : String → String) : WalkEntry → Option (String × Layout)
  | WalkEntry.file path (Except.ok content) =>
    if filepathExt path = ".html" ∨ filepathExt path = ".htm" then
      some (trimSuffix (filepathBase path) (filepathExt path),
        NewLayout (trimSuffix (filepathBase path) (filepathExt path))
          (stripEnd (stripStart content)))
    else none
  | _ => none

/-- The layout of the last entry of `entries` that is registered under `name`, if any. -/
def lastInclude (stripStart stripEnd : String → String) :
    List WalkEntry → String → Option Layout
  | [], _ => none
  | e :: rest, name =>
    match lastInclude stripStart stripEnd rest name with
    | some l => some l
    | none =>
      match includeOf stripStart stripEnd e with
      | some (n, l) => if n = name then some l else none
      | none => none

/-- An entry that the walk of `loadIncludes` passes without an error: not an entry that
could not be visited, and not a file with the extension `.html` or `.htm` that cannot be
read. -/
def entryReadable : WalkEntry → Bool
  | WalkEntry.failed _ _ => false
  | WalkEntry.dir _ => true
  | WalkEntry.file _ (Except.ok _) => true
  | WalkEntry.file path (Except.error _) =>
    filepathExt path ≠ ".html" ∧ filepathExt path ≠ ".htm"

/-- The post recorded at the node reached from `n` along `segs`; `none` when there is no
such node or the node records no post. -/
def postAt (n : URLNode) (segs : List String) : Option Post :=
  match walkLoop segs n with
  | some current => current.Post
  | none => none

/-- The trie after inserting the entries of `ins` in order, each with a non-nil post. -/
def insertAll (t : URLTree) (ins : List (String × Post)) : URLTree :=
  ins.foldl (fun t e => t.Insert e.1 (some e.2)) t

/-- The post of the last entry of `ins` whose path has the segment list `segs`. -/
def lastInserted (ins : List (String × Post)) (segs : List String) : Option Post :=
  (ins.reverse.find? (fun e => pathSegments e.1 = segs)).map Prod.snd

/-- Go `Time.Equal`: the same instant. -/
def Time.Equal (t u : Time) : Bool := t.sec == u.sec && t.nsec == u.nsec

/-- Go's `<=` on strings, on the characters: the order of the first place where the two
strings differ, a proper prefix coming first. -/
def charsLE : List Char → List Char → Bool
  | [], _ => true
  | _ :: _, [] => false
  | a :: as, b :: bs =>
    if a.toNat < b.toNat then true
    else if b.toNat < a.toNat then false
    else charsLE as bs

/-- The comparison `a <= b` of two Go strings. -/
def stringLE (a b : String) : Bool := charsLE a.data b.data

/-- The requirements that the documentation of `sort.Interface` puts on `Less`: a transitive
ordering in which being unordered is transitive as well (and nothing is less than itself). -/
structure LessRequirements (less : Post → Post → Bool) : Prop where
  irrefl : ∀ a, less a a = false
  trans : ∀ a b c, less a b = true → less b c = true → less a c = true
  incomparable_trans : ∀ a b c, less a b = false → less b c = false → less a c = false

/-- What the documentation of `sort.Slice` promises of `sort.Slice(x, less)` for a `less`
that meets the requirements: the slice is rearranged (no element is lost or added) and is
in ascending order as determined by `less`, which is to say no element is less than one
standing before it. The sort is not promised to be stable. -/
structure SortSliceContract (sortSlice : (Post → Post → Bool) → List Post → List Post) :
    Prop where
  perm : ∀ less xs, LessRequirements less → List.Perm (sortSlice less xs) xs
  sorted : ∀ less xs, LessRequirements less →
    List.Pairwise (fun a b => less b a = false) (sortSlice less xs)

mutual
/-- The terminal nodes below `node` (itself included): for each node that records a post,
the list of segments that leads to it from `node`, and the post. -/
def nodeEntries : URLNode → List (List String × Post)
  | URLNode.mk _ post children =>
    (match post with
     | some p => [([], p)]
     | none => []) ++ childrenEntries children
/-- The terminal nodes below the children of a node. -/
def childrenEntries : List (String × URLNode) → List (List String × Post)
  | [] => []
  | (k, child) :: rest =>
    (nodeEntries child).map (fun e => (k :: e.1, e.2)) ++ childrenEntries rest
end

mutual
/-- The shape of a trie made by `Insert`: in every children map the keys are non-empty
segments and no key occurs twice. -/
def nodeOK : URLNode → Prop
  | URLNode.mk _ _ children => childrenOK children
/-- The shape of a children map made by `Insert`. -/
def childrenOK : List (String × URLNode) → Prop
  | [] => True
  | (k, child) :: rest => k ≠ "" ∧ childLookup rest k = none ∧ nodeOK child ∧ childrenOK rest
end

/-- The terminal nodes of the trie built from the empty trie by the inserts `ins`: one entry
for each distinct non-empty segment list inserted, with the post inserted there last. -/
def terminals (ins : List (String × Post)) : List (List String × Post) :=
  (((ins.map (fun e => pathSegments e.1)).dedup).filter (fun segs => segs ≠ [])).filterMap
    (fun segs => (lastInserted ins segs).map (fun p => (segs, p)))

/-- A line that begins with three backquotes, the test by which `preprocessMarkdown` opens
and closes a code block. -/
def isFence (line : List Char) : Bool := startsWith line "```"

/-- The number of lines that begin with three backquotes. -/
def fenceCount (lines : List (List Char)) : Nat := lines.countP isFence

/-- The lines that the loop of `preprocessMarkdown` appends to `processedLines` when it reads
`lines` from the state `inCodeBlock`. -/
def processedFrom : List (List Char) → Bool → List (List Char)
  | [], _ => []
  | line :: rest, inCodeBlock =>
    if isFence line then line :: processedFrom rest (!inCodeBlock)
    else if inCodeBlock then line :: processedFrom rest inCodeBlock
    else preprocessPlainLine line :: processedFrom rest inCodeBlock

/-- The value of `inCodeBlock` after the loop of `preprocessMarkdown` has read `lines` from
the state `inCodeBlock`. -/
def inCodeAfter : List (List Char) → Bool → Bool
  | [], inCodeBlock => inCodeBlock
  | line :: rest, inCodeBlock =>
    if isFence line then inCodeAfter rest (!inCodeBlock) else inCodeAfter rest inCodeBlock

/-- The lines joined by `preprocessMarkdown` for the lines `lines` of its normalised input. -/
def closedLines (lines : List (List Char)) : List (List Char) :=
  processedFrom lines false ++ (if inCodeAfter lines false then ["```".data] else [])

/-- Four, two and two decimal digits: the groups of a date `YYYY-MM-DD`. -/
def isDateGroups (year month day : List Char) : Bool :=
  year.length = 4 && month.length = 2 && day.length = 2 &&
    (year ++ month ++ day).all Char.isDigit

/-! ## Concrete inputs -/

/-- The instant and civil date of 2024-01-15 00:00:00 UTC. -/
def jan15 : Time := { sec := 63840873600, nsec := 0, Year := 2024, Month := 1, Day := 15 }

/-- The instant and civil date of 2024-01-16 00:00:00 UTC. -/
def jan16 : Time := { sec := 63840960000, nsec := 0, Year := 2024, Month := 1, Day := 16 }

/-- A post loaded from `_posts/2024-01-15-a.md`. -/
def postA : Post :=
  { Path := "_posts/2024-01-15-a.md", Title := "a", Date := jan15, Slug := "a",
    ExcerptSeparator := "\n\n" }

/-- A post loaded from `_posts/2024-01-16-b.md`. -/
def postB : Post :=
  { Path := "_posts/2024-01-16-b.md", Title := "b", Date := jan16, Slug := "b",
    ExcerptSeparator := "\n\n" }

/-- The configuration that `Defaults()` gives for the fields embedded here. -/
def defaultConfig : Config := { Permalink := "date", Paginate := 0, URL := "http://localhost:4000" }

/-- The post `postA` after `generateURL` under the default configuration. -/
def postAWithURL : Post := postA.generateURL defaultConfig

/-- The post `postB` after `generateURL` under the default configuration. -/
def postBWithURL : Post := postB.generateURL defaultConfig

/-- A second source file of the same day and slug as `postA`, with another markdown
extension, after `generateURL` under the default configuration. -/
def postATwinWithURL : Post :=
  ({ postA with Path := "_posts/2024-01-15-a.markdown" } : Post).generateURL defaultConfig

/-- A post of 2024-01-15 with slug `b`, loaded from a first subdirectory of `_posts`. -/
def postSlugB : Post :=
  { Path := "_posts/x/2024-01-15-b.md", Title := "b", Date := jan15, Slug := "b",
    ExcerptSeparator := "\n\n" }

/-- A post of 2024-01-15 with slug `a`, loaded from a second subdirectory of `_posts`. -/
def postSlugA : Post :=
  { Path := "_posts/y/2024-01-15-a.md", Title := "a", Date := jan15, Slug := "a",
    ExcerptSeparator := "\n\n" }

/-- The post of scenario S1, loaded from `_posts/2024-01-15-hello-world.md`. -/
def postHello : Post :=
  { Path := "_posts/2024-01-15-hello-world.md", Title := "Hello", Layout := "post",
    Date := jan15, Slug := "hello-world", ExcerptSeparator := "\n\n" }

/-- Seven posts of seven different days, numbered by the second of their instant. -/
def sevenPosts : List Post :=
  (List.range 7).map (fun i =>
    { Path := "_posts/p", Date := { sec := 63840873600 - 86400 * (i : Int) }, Slug := "p" })

/-- The default configuration with the permalink policy `pretty`. -/
def prettyConfig : Config := { Permalink := "pretty", Paginate := 0, URL := "http://localhost:4000" }

/-- A page that opens with a paragraph and holds a block between two `---` lines below it. -/
def docBlockBelow : String := "Intro\n---\ntitle: x\n---\nbody"

/-- The document of scenario S5: a header block whose payload is malformed YAML. -/
def docMalformedHeader : String := "---\ntitle: \"x\ndate: [invalid\n---\nBody\n"

/-- A document without header block that holds one horizontal rule. -/
def docOneRule : String := "# Title\n\ntext\n---\nmore"

/-- The post that `NewPost` makes of the file `_posts/2024-01-15-hello-world.md` with the
content `---\ntitle: hi\n---\nBody text\n\nMore` under the default configuration. -/
def postHelloLoaded : Post :=
  { Path := "_posts/2024-01-15-hello-world.md", Title := "hi", Layout := "",
    Content := "Body text\n\nMore", RenderedContent := "",
    FrontMatter := [("title", FMValue.str "hi")],
    URL := "http://localhost:4000/2024/01/15/hello-world.html", Date := jan15,
    Description := "", Excerpt := "Body text", ExcerptSeparator := "\n\n",
    Slug := "hello-world", Permalink := "" }

/-- A markdown text with one fence that is never closed. -/
def docOpenFence : String := "intro\n```go\ncode"

/-- The input of the self-test case `格式错误的标题` of `testMarkdownRobustness`. -/
def docSelfTestHeadings : String :=
  "---\ntitle: \"测试\"\n---\n\n#标题1\n##标题2\n\n正常内容\n"

/-- Three posts with titles in words separated by spaces. -/
def titledPosts : List Post :=
  [{ Path := "_posts/2024-01-15-a.md", Title := "hello world go", Date := jan15, Slug := "a" },
   { Path := "_posts/2024-01-16-b.md", Title := "hello go a", Date := jan16, Slug := "b" },
   { Path := "_posts/2024-01-16-c.md", Title := "go", Date := jan16, Slug := "c" }]

/-- A watcher that holds the digest `abc` for `_posts/a.md`. -/
def watcherA : FileWatcher := { fileHashes := [("_posts/a.md", "abc")] }

/-- A write event on `_posts/a.md`. -/
def writeA : Event := { Name := "_posts/a.md", Op := opWrite }

/-- A site that has loaded nothing yet, with five posts to a page. -/
def paginatedSite : Site := { Config := { Paginate := 5 } }

/-- The posts directory with the one file `_posts/2024-01-15-hello-world.md`. -/
def helloFiles : List (String × Option String) :=
  [("_posts/2024-01-15-hello-world.md", some "---\ntitle: hi\n---\nBody text\n\nMore")]

/-- A site whose layouts hold `header`, as loaded from `_layouts/header.html`. -/
def siteWithHeader : Site :=
  { Config := {}, Layouts := [("header", NewLayout "header" "<header>layout</header>")] }

/-- The walk of a layouts directory that holds `header.html`. -/
def layoutEntries : List WalkEntry :=
  [WalkEntry.dir "_layouts",
    WalkEntry.file "_layouts/header.html" (Except.ok "<header>layout</header>")]

/-- The walk of an includes directory that holds `header.html`, a text file that cannot be
read, and `header.htm`. -/
def includeEntries : List WalkEntry :=
  [WalkEntry.dir "_includes",
    WalkEntry.file "_includes/header.html" (Except.ok "<p>include</p>"),
    WalkEntry.file "_includes/notes.txt" (Except.error "permission denied"),
    WalkEntry.file "_includes/header.htm" (Except.ok "<p>second</p>")]

/-- The post that `NewPost` returns for `_posts/hello.md` with the content `Hello` and a
line feed, under the default configuration. -/
def postUndated : Post :=
  { Path := "_posts/hello.md", Content := "Hello\n", URL := "http://localhost:4000/.html",
    Excerpt := "Hello", ExcerptSeparator := "\n\n" }

/-- The post that `NewPost` returns for `_posts/2024-01-15-2024-01-16-notes.md` with the
content `Hello` and a line feed, under the default configuration. -/
def postNotes : Post :=
  { Path := "_posts/2024-01-15-2024-01-16-notes.md", Title := "notes", Content := "Hello\n",
    URL := "http://localhost:4000/2024/01/15/notes.html", Date := jan15, Excerpt := "Hello",
    ExcerptSeparator := "\n\n", Slug := "notes" }

/-! ## Rendering a post -/

/-- The test of `renderPost` on a line: `strings.HasPrefix(trimmed, "# ") ||
strings.HasPrefix(trimmed, "#\t")` with `trimmed := strings.TrimSpace(line)`. -/
def isH1Line (line : List Char) : Bool :=
  startsWith (trimSpace line) "# " || startsWith (trimSpace line) "#\t"

/-- The loop of `renderPost` over the lines of the body, from the current value of `removed`;
the result is the slice `newLines` of the lines appended from here on. -/
def stripH1Loop : List (List Char) → Bool → List (List Char)
  | [], _ => []
  | line :: rest, removed =>
    if !removed && isH1Line line then stripH1Loop rest true
    else line :: stripH1Loop rest removed

/-- The value `contentNoH1` of `renderPost` for the body `content`:
`strings.Join(newLines, "\n")` over the lines of `strings.Split(p.Content, "\n")`. -/
def contentNoH1 (content : String) : String :=
  String.mk (joinLines (stripH1Loop (splitLines content.data) false))

/-! # Theorems -/

/-! ## Path parts -/

theorem string_mk_ne_empty {l : List Char} (h : l ≠ []) : String.mk l ≠ "" := by
  intro hEq
  apply h
  have : (String.mk l).data = ("" : String).data := by rw [hEq]
  simpa using this

theorem trimLeftSlash_head (s : List Char) :
    trimLeftSlash s = [] ∨ ∃ c t, trimLeftSlash s = c :: t ∧ c ≠ '/' := by
  induction s with
  | nil => left; rfl
  | cons c cs ih =>
    by_cases hc : c = '/'
    · simpa [trimLeftSlash, hc] using ih
    · right; exact ⟨c, cs, by simp [trimLeftSlash, hc], hc⟩

theorem trimSlash_shape (s : List Char) :
    trimSlash s = [] ∨ ∃ t c, trimSlash s = t ++ [c] ∧ c ≠ '/' := by
  unfold trimSlash
  rcases trimLeftSlash_head (trimLeftSlash s).reverse with h | ⟨c, t, h, hc⟩
  · left; simp [h]
  · right; exact ⟨t.reverse, c, by simp [h], hc⟩

theorem splitSlash_last (l : List Char) (c : Char) (hc : c ≠ '/') :
    ∃ pre last, splitSlash (l ++ [c]) = pre ++ [last] ∧ last ≠ [] := by
  induction l with
  | nil => exact ⟨[], [c], by simp [splitSlash, hc], by simp⟩
  | cons d l ih =>
    obtain ⟨pre, last, h, hl⟩ := ih
    by_cases hd : d = '/'
    · exact ⟨[] :: pre, last, by simp [splitSlash, hd, h], hl⟩
    · cases pre with
      | nil => exact ⟨[], d :: last, by simp [splitSlash, hd, h], by simp⟩
      | cons p pre => exact ⟨(d :: p) :: pre, last, by simp [splitSlash, hd, h], hl⟩

/-- The parts of a path are the single empty part, or end in a non-empty part. -/
theorem pathParts_shape (path : String) :
    pathParts path = [""] ∨ ∃ pre last, pathParts path = pre ++ [last] ∧ last ≠ "" := by
  unfold pathParts
  rcases trimSlash_shape path.data with h | ⟨t, c, h, hc⟩
  · left; rw [h]; rfl
  · right
    obtain ⟨pre, last, h2, hl⟩ := splitSlash_last t c hc
    exact ⟨pre.map String.mk, String.mk last, by rw [h, h2]; simp, string_mk_ne_empty hl⟩

/-! ## Children maps -/

theorem childLookup_childSet_same (cs : List (String × URLNode)) (part : String) (node : URLNode) :
    childLookup (childSet cs part node) part = some node := by
  induction cs with
  | nil => simp [childSet, childLookup]
  | cons e cs ih =>
    obtain ⟨k, n⟩ := e
    by_cases h : k = part
    · simp [childSet, childLookup, h]
    · simp [childSet, childLookup, h, ih]

theorem childLookup_childSet_other (cs : List (String × URLNode)) (part k : String)
    (node : URLNode) (h : k ≠ part) :
    childLookup (childSet cs part node) k = childLookup cs k := by
  induction cs with
  | nil => simp [childSet, childLookup, Ne.symm h]
  | cons e cs ih =>
    obtain ⟨k', n⟩ := e
    by_cases h' : k' = part
    · subst h'
      simp [childSet, childLookup, Ne.symm h]
    · by_cases h'' : k' = k
      · subst h''
        simp [childSet, childLookup, h']
      · simp [childSet, childLookup, h', h'', ih]

@[simp] theorem post_setChildren (n : URLNode) (c : List (String × URLNode)) :
    (n.setChildren c).Post = n.Post := by
  cases n; rfl

@[simp] theorem children_setChildren (n : URLNode) (c : List (String × URLNode)) :
    (n.setChildren c).Children = c := by
  cases n; rfl

@[simp] theorem post_setPost (n : URLNode) (p : Option Post) :
    (n.setPost p).Post = p := by
  cases n; rfl

@[simp] theorem children_setPost (n : URLNode) (p : Option Post) :
    (n.setPost p).Children = n.Children := by
  cases n; rfl

/-! ## Walking and inserting -/

theorem walkLoop_filter (parts : List String) (n : URLNode) :
    walkLoop (parts.filter (fun part => part ≠ "")) n = walkLoop parts n := by
  induction parts generalizing n with
  | nil => rfl
  | cons part rest ih =>
    by_cases h : part = ""
    · rw [List.filter_cons_of_neg (by simpa using h)]
      simp only [walkLoop, h, if_true]
      exact ih n
    · rw [List.filter_cons_of_pos (by simpa using h)]
      simp only [walkLoop, h, if_false]
      cases childLookup n.Children part with
      | none => rfl
      | some child => exact ih child

theorem search_eq_postAt (t : URLTree) (path : String) :
    t.Search path = postAt t.Root (pathSegments path) := by
  unfold URLTree.Search postAt pathSegments
  rw [walkLoop_filter]

theorem postAt_nil (n : URLNode) : postAt n [] = n.Post := rfl

theorem postAt_cons (n : URLNode) (s : String) (rest : List String) (hs : s ≠ "") :
    postAt n (s :: rest) =
      match childLookup n.Children s with
      | some child => postAt child rest
      | none => none := by
  unfold postAt
  simp only [walkLoop, hs, if_false]
  cases childLookup n.Children s <;> rfl

theorem postAt_fresh (part : String) (segs : List String) (h : ∀ s ∈ segs, s ≠ "") :
    postAt (URLNode.mk part none []) segs = none := by
  cases segs with
  | nil => rfl
  | cons s rest =>
    rw [postAt_cons _ _ _ (h s (by simp))]
    rfl

theorem postAt_setPost_cons (n : URLNode) (p : Option Post) (s : String) (rest : List String)
    (hs : s ≠ "") : postAt (n.setPost p) (s :: rest) = postAt n (s :: rest) := by
  rw [postAt_cons _ _ _ hs, postAt_cons _ _ _ hs, children_setPost]


/-- The child that `Insert` descends into: the existing one, or a new node. -/
theorem postAt_child_or_fresh (cs : List (String × URLNode)) (s : String) (segs : List String)
    (h : ∀ x ∈ segs, x ≠ "") :
    postAt (match childLookup cs s with
            | some c => c
            | none => URLNode.mk s none []) segs =
      match childLookup cs s with
      | some child => postAt child segs
      | none => none := by
  cases childLookup cs s with
  | some c => rfl
  | none => exact postAt_fresh s segs h

theorem filter_ne_nil_of_last (part : String) (rest : List String) (hpart : part ≠ "")
    (hparts : (part :: rest).getLast? = some "" → ∀ p ∈ part :: rest, p = "") (hne : rest ≠ []) :
    rest.filter (fun x => x ≠ "") ≠ [] := by
  intro hfil
  rcases List.eq_nil_or_concat rest with h | ⟨pre, l, h⟩
  · exact hne h
  · rw [List.concat_eq_append] at h
    subst h
    have hl : l ≠ "" := by
      intro hl
      apply hpart
      apply hparts _ part (by simp)
      rw [← List.cons_append, List.getLast?_append]
      simp [hl]
    have hmem : l ∈ (pre ++ [l]).filter (fun x => x ≠ "") :=
      List.mem_filter.2 ⟨by simp, by simpa using hl⟩
    rw [hfil] at hmem
    simp at hmem

/-- What a lookup finds after one run of the insertion loop: the inserted post at the
inserted segment list, and what it found before everywhere else. -/
theorem postAt_insertLoop (post : Option Post) (parts : List String)
    (hparts : parts.getLast? = some "" → ∀ p ∈ parts, p = "")
    (n : URLNode) (segs : List String) (hsegs : ∀ s ∈ segs, s ≠ "") :
    postAt (insertLoop post parts n) segs =
      if segs = parts.filter (fun part => part ≠ "") ∧ segs ≠ [] then post else postAt n segs := by
  induction parts generalizing n segs with
  | nil =>
    have hno : ¬ (segs = [] ∧ segs ≠ []) := fun h => h.2 h.1
    simp [insertLoop, hno]
  | cons part rest ih =>
    have hrest : rest.getLast? = some "" → ∀ p ∈ rest, p = "" := by
      intro h p hp
      cases rest with
      | nil => simp at hp
      | cons r rs =>
        exact hparts (by simpa [List.getLast?_cons_cons] using h) p (List.mem_cons_of_mem _ hp)
    by_cases hpart : part = ""
    · rw [List.filter_cons_of_neg (by simpa using hpart)]
      simp only [insertLoop, hpart, if_true]
      exact ih hrest n segs hsegs
    · rw [List.filter_cons_of_pos (by simpa using hpart)]
      simp only [insertLoop, hpart, if_false]
      cases segs with
      | nil => simp [postAt_nil]
      | cons s segs' =>
        have hs : s ≠ "" := hsegs s (by simp)
        have hsegs' : ∀ x ∈ segs', x ≠ "" := fun x hx => hsegs x (List.mem_cons_of_mem _ hx)
        rw [postAt_cons _ _ _ hs, postAt_cons n _ _ hs, children_setChildren]
        by_cases hsp : s = part
        · subst hsp
          rw [childLookup_childSet_same]
          simp only
          rw [ih hrest _ _ hsegs']
          cases rest with
          | nil =>
            cases segs' with
            | nil => simp [postAt_nil]
            | cons x xs =>
              have hx : x ≠ "" := hsegs' x (by simp)
              simp only [List.isEmpty_nil, if_true, List.filter_nil]
              rw [postAt_setPost_cons _ _ _ _ hx, postAt_child_or_fresh _ _ _ hsegs']
              simp
          | cons r rs =>
            have hfil := filter_ne_nil_of_last s (r :: rs) hpart hparts (by simp)
            simp only [List.isEmpty_cons, Bool.false_eq_true, if_false]
            rw [postAt_child_or_fresh _ _ _ hsegs']
            by_cases hEq : segs' = (r :: rs).filter (fun part => part ≠ "")
            · have hne : segs' ≠ [] := hEq ▸ hfil
              simp [hEq.symm, hne]
            · have hno : ¬ (s :: segs' = s :: (r :: rs).filter (fun part => part ≠ "") ∧
                  s :: segs' ≠ []) := fun h => hEq (List.cons.inj h.1).2
              rw [if_neg (fun h => hEq h.1), if_neg hno]
        · rw [childLookup_childSet_other _ _ _ _ hsp]
          have hno : ¬ (s :: segs' = part :: rest.filter (fun part => part ≠ "") ∧
              s :: segs' ≠ []) := fun h => hsp (List.cons.inj h.1).1
          simp only [hno, if_false]

theorem pathParts_ends (path : String) :
    (pathParts path).getLast? = some "" → ∀ p ∈ pathParts path, p = "" := by
  rcases pathParts_shape path with h | ⟨pre, last, h, hl⟩
  · rw [h]; simp
  · rw [h]
    intro hlast
    simp at hlast
    exact absurd hlast hl

theorem pathSegments_ne_empty (path : String) : ∀ s ∈ pathSegments path, s ≠ "" := by
  intro s hs
  simpa using (List.mem_filter.1 hs).2

/-- Lookup of the segment list `segs` after `Insert(path, post)`. -/
theorem postAt_Insert (t : URLTree) (path : String) (post : Option Post) (segs : List String)
    (hsegs : ∀ s ∈ segs, s ≠ "") :
    postAt (t.Insert path post).Root segs =
      if segs = pathSegments path ∧ segs ≠ [] then post else postAt t.Root segs :=
  postAt_insertLoop post (pathParts path) (pathParts_ends path) t.Root segs hsegs

/-- Lookup of a path `q` after `Insert(path, post)`. -/
theorem search_Insert (t : URLTree) (path q : String) (post : Option Post) :
    (t.Insert path post).Search q =
      if pathSegments q = pathSegments path ∧ pathSegments q ≠ [] then post else t.Search q := by
  rw [search_eq_postAt, search_eq_postAt]
  exact postAt_Insert t path post _ (pathSegments_ne_empty q)

theorem insertAll_append (t : URLTree) (ins : List (String × Post)) (e : String × Post) :
    insertAll t (ins ++ [e]) = (insertAll t ins).Insert e.1 (some e.2) := by
  simp [insertAll, List.foldl_append]

/-- A run of inserts leaves a lookup alone when none of the inserted paths has the
segment list looked up. -/
theorem search_insertAll_frame (t : URLTree) (ins : List (String × Post)) (q : String)
    (h : ∀ e ∈ ins, pathSegments e.1 ≠ pathSegments q) :
    (insertAll t ins).Search q = t.Search q := by
  induction ins generalizing t with
  | nil => rfl
  | cons e rest ih =>
    have h1 : pathSegments e.1 ≠ pathSegments q := h e (by simp)
    have hstep : insertAll t (e :: rest) = insertAll (t.Insert e.1 (some e.2)) rest := rfl
    rw [hstep, ih _ (fun e' he' => h e' (List.mem_cons_of_mem _ he')), search_Insert]
    rw [if_neg (fun hc => h1 hc.1.symm)]

theorem search_NewURLTree (q : String) : NewURLTree.Search q = none := by
  rw [search_eq_postAt]
  exact postAt_fresh "/" _ (pathSegments_ne_empty q)

/-! ## The routing trie: claims C3, C4, C6 -/

/-- C3: for every trie `t`, every path with at least one non-empty `/`-separated segment and
every post `p`, `Search(path)` on the trie obtained by `Insert(path, p)` returns `p`. -/
theorem search_after_insert (t : URLTree) (path : String) (p : Post)
    (hseg : pathSegments path ≠ []) :
    (t.Insert path (some p)).Search path = some p := by
  rw [search_Insert, if_pos ⟨rfl, hseg⟩]

theorem search_after_insert_witness :
    pathSegments "/2024/01/15/a.html" ≠ [] ∧
      (NewURLTree.Insert "/2024/01/15/a.html" (some postA)).Search "/2024/01/15/a.html" =
        some postA :=
  ⟨by decide, search_after_insert NewURLTree "/2024/01/15/a.html" postA (by decide)⟩

/-- C4: an insert at a path `p` leaves `Search(q)` as it was for every path `q` whose list of
non-empty segments differs from that of `p`; and on a trie built from the empty trie by
inserts, `Search` returns no post for a path whose segment list was never inserted. -/
theorem insert_leaves_other_paths :
    (∀ (t : URLTree) (x : Post) (p q : String), pathSegments p ≠ pathSegments q →
        (t.Insert p (some x)).Search q = t.Search q) ∧
    (∀ (ins : List (String × Post)) (q : String),
        (∀ e ∈ ins, pathSegments e.1 ≠ pathSegments q) →
        (insertAll NewURLTree ins).Search q = none) := by
  constructor
  · intro t x p q h
    rw [search_Insert, if_neg (fun hc => h hc.1.symm)]
  · intro ins q h
    rw [search_insertAll_frame _ _ _ h, search_NewURLTree]

theorem insert_leaves_other_paths_witness :
    pathSegments "/2024/01/16/b.html" ≠ pathSegments "/2024/01/15/a.html" ∧
      ((NewURLTree.Insert "/2024/01/15/a.html" (some postA)).Insert "/2024/01/16/b.html"
          (some postB)).Search "/2024/01/15/a.html" =
        (NewURLTree.Insert "/2024/01/15/a.html" (some postA)).Search "/2024/01/15/a.html" ∧
      (insertAll NewURLTree
          [("/2024/01/15/a.html", postA), ("/2024/01/16/b.html", postB)]).Search "/nope" =
        none :=
  ⟨by decide,
   insert_leaves_other_paths.1 _ postB "/2024/01/16/b.html" "/2024/01/15/a.html" (by decide),
   insert_leaves_other_paths.2 [("/2024/01/15/a.html", postA), ("/2024/01/16/b.html", postB)]
     "/nope" (by decide)⟩

/-- C6: a second insert at the same terminal overwrites: after `Insert(path, p1)` followed by
`Insert(path, p2)`, with `path` holding at least one non-empty segment, `Search(path)`
returns `p2`; `Insert` is total and has no error result. -/
theorem second_insert_overwrites (t : URLTree) (path : String) (p1 p2 : Post)
    (hseg : pathSegments path ≠ []) :
    ((t.Insert path (some p1)).Insert path (some p2)).Search path = some p2 := by
  rw [search_Insert, if_pos ⟨rfl, hseg⟩]

theorem second_insert_overwrites_witness :
    pathSegments "/2024/01/15/a.html" ≠ [] ∧
      ((NewURLTree.Insert "/2024/01/15/a.html" (some postA)).Insert "/2024/01/15/a.html"
          (some postB)).Search "/2024/01/15/a.html" = some postB :=
  ⟨by decide, second_insert_overwrites NewURLTree "/2024/01/15/a.html" postA postB (by decide)⟩

/-! ## Building the trie from the posts: claims C1, C2 -/

theorem mem_trimLeftSlash (l : List Char) (c : Char) (hc : c ∈ l) (hne : c ≠ '/') :
    c ∈ trimLeftSlash l := by
  induction l with
  | nil => simp at hc
  | cons d l ih =>
    by_cases hd : d = '/'
    · simp only [trimLeftSlash, hd, if_true]
      rcases List.mem_cons.1 hc with h | h
      · exact absurd (h.trans hd) hne
      · exact ih h
    · simpa [trimLeftSlash, hd] using hc

/-- A path that holds a character other than `/` has a non-empty segment. -/
theorem pathSegments_ne_nil_of_char (path : String) (c : Char) (hc : c ∈ path.data)
    (hne : c ≠ '/') : pathSegments path ≠ [] := by
  have hmem : c ∈ trimSlash path.data := by
    unfold trimSlash
    exact List.mem_reverse.2 (mem_trimLeftSlash _ c
      (List.mem_reverse.2 (mem_trimLeftSlash _ c hc hne)) hne)
  rcases trimSlash_shape path.data with h | ⟨t, d, h, hd⟩
  · rw [h] at hmem; simp at hmem
  · obtain ⟨pre, last, h2, hl⟩ := splitSlash_last t d hd
    have hparts : pathParts path = pre.map String.mk ++ [String.mk last] := by
      unfold pathParts; rw [h, h2]; simp
    have hin : String.mk last ∈ pathSegments path := by
      unfold pathSegments
      rw [hparts]
      exact List.mem_filter.2 ⟨by simp, by simpa using string_mk_ne_empty hl⟩
    intro hnil
    rw [hnil] at hin
    simp at hin

theorem archivePath_segments_ne_nil (post : Post) (relativeURL : String) :
    pathSegments (archivePath post relativeURL) ≠ [] := by
  apply pathSegments_ne_nil_of_char _ 'a' _ (by decide)
  unfold archivePath
  simp only [String.data_append]
  have h : 'a' ∈ ("/archives/" : String).data := by decide
  simp [h]

/-- The loop of `buildURLTree` leaves a lookup alone when none of the posts is inserted under
the segment list looked up, neither by its canonical path nor by its archive path. -/
theorem search_buildLoop_frame (urlParse : String → Option String) (t : URLTree)
    (posts : List Post) (q : String)
    (h : ∀ Q ∈ posts, pathSegments (Q.extractRelativeURL urlParse) ≠ pathSegments q ∧
      pathSegments (archivePath Q (Q.extractRelativeURL urlParse)) ≠ pathSegments q) :
    (posts.foldl (buildURLTreeStep urlParse) t).Search q = t.Search q := by
  induction posts generalizing t with
  | nil => rfl
  | cons Q rest ih =>
    obtain ⟨h1, h2⟩ := h Q (by simp)
    rw [List.foldl_cons, ih _ (fun Q' hQ' => h Q' (List.mem_cons_of_mem _ hQ'))]
    unfold buildURLTreeStep
    simp only
    rw [search_Insert, if_neg (fun hc => h2 hc.1.symm), search_Insert,
      if_neg (fun hc => h1 hc.1.symm)]

/-- C1 (amended): after `buildURLTree`, for every post `P` of the site the lookup of the
path that `buildURLTree` inserts for it, `P.extractRelativeURL()` (not the absolute `P.URL`),
returns `P`, provided that path has at least one non-empty segment and no post later in
`Posts` is inserted under a canonical or archive path with the same segment list. -/
theorem search_relative_url_after_build (urlParse : String → Option String) (s : Site)
    (before after : List Post) (P : Post) (hposts : s.Posts = before ++ P :: after)
    (hseg : pathSegments (P.extractRelativeURL urlParse) ≠ [])
    (hlater : ∀ Q ∈ after,
      pathSegments (Q.extractRelativeURL urlParse) ≠
        pathSegments (P.extractRelativeURL urlParse) ∧
      pathSegments (archivePath Q (Q.extractRelativeURL urlParse)) ≠
        pathSegments (P.extractRelativeURL urlParse)) :
    (s.buildURLTree urlParse).URLTree.Search (P.extractRelativeURL urlParse) = some P := by
  unfold Site.buildURLTree
  simp only
  rw [hposts, List.foldl_append, List.foldl_cons, search_buildLoop_frame _ _ _ _ hlater]
  unfold buildURLTreeStep
  simp only
  rw [search_Insert]
  split
  · rfl
  · rw [search_Insert, if_pos ⟨rfl, hseg⟩]

theorem search_relative_url_after_build_witness :
    (Site.buildURLTree plainURLPath
        { Config := defaultConfig, Posts := [postAWithURL, postBWithURL] }).URLTree.Search
      (postAWithURL.extractRelativeURL plainURLPath) = some postAWithURL :=
  search_relative_url_after_build plainURLPath
    { Config := defaultConfig, Posts := [postAWithURL, postBWithURL] } [] [postBWithURL]
    postAWithURL rfl (by decide) (by decide)

/-- C1 (as stated) fails under the default configuration: the site URL is
`http://localhost:4000`, the post of 2024-01-15 with slug `a` gets the URL
`http://localhost:4000/2024/01/15/a.html`, the trie is keyed by `/2024/01/15/a.html`, and
`Search` of the URL finds no post. -/
theorem search_by_url_counterexample :
    postAWithURL.URL = "http://localhost:4000/2024/01/15/a.html" ∧
    postAWithURL.extractRelativeURL plainURLPath = "/2024/01/15/a.html" ∧
    (Site.buildURLTree plainURLPath
        { Config := defaultConfig, Posts := [postAWithURL], URLTree := NewURLTree }).URLTree.Search
      postAWithURL.URL = none ∧
    (Site.buildURLTree plainURLPath
        { Config := defaultConfig, Posts := [postAWithURL], URLTree := NewURLTree }).URLTree.Search
      postAWithURL.URL ≠ some postAWithURL := by
  decide

/-- C2 (amended): after `buildURLTree`, for every post `P` with date Y-M-D the lookup of
`/archives/Y/M/D/` followed by the base name of `P`'s relative URL returns `P`, provided no
post later in `Posts` is inserted under a canonical or archive path with the same segment
list. -/
theorem search_archive_path_after_build (urlParse : String → Option String) (s : Site)
    (before after : List Post) (P : Post) (hposts : s.Posts = before ++ P :: after)
    (hlater : ∀ Q ∈ after,
      pathSegments (Q.extractRelativeURL urlParse) ≠
        pathSegments (archivePath P (P.extractRelativeURL urlParse)) ∧
      pathSegments (archivePath Q (Q.extractRelativeURL urlParse)) ≠
        pathSegments (archivePath P (P.extractRelativeURL urlParse))) :
    (s.buildURLTree urlParse).URLTree.Search
      ("/archives/" ++ String.mk (sprintfZeroPad 4 P.Date.Year) ++ "/" ++
        String.mk (sprintfZeroPad 2 P.Date.Month) ++ "/" ++
        String.mk (sprintfZeroPad 2 P.Date.Day) ++ "/" ++
        filepathBase (P.extractRelativeURL urlParse)) = some P := by
  show (s.buildURLTree urlParse).URLTree.Search
    (archivePath P (P.extractRelativeURL urlParse)) = some P
  unfold Site.buildURLTree
  simp only
  rw [hposts, List.foldl_append, List.foldl_cons, search_buildLoop_frame _ _ _ _ hlater]
  unfold buildURLTreeStep
  simp only
  rw [search_Insert, if_pos ⟨rfl, archivePath_segments_ne_nil _ _⟩]

theorem search_archive_path_after_build_witness :
    (Site.buildURLTree plainURLPath
        { Config := defaultConfig, Posts := [postAWithURL, postBWithURL] }).URLTree.Search
      "/archives/2024/01/15/a.html" = some postAWithURL :=
  search_archive_path_after_build plainURLPath
    { Config := defaultConfig, Posts := [postAWithURL, postBWithURL] } [] [postBWithURL]
    postAWithURL rfl (by decide)

/-- C2 (as stated) fails when two source files share date and slug (here
`2024-01-15-a.markdown` and `2024-01-15-a.md`, loaded in this order): both are inserted under
`/archives/2024/01/15/a.html`, the second insert overwrites the first, and the lookup of the
first post's archive path returns the second post. -/
theorem search_archive_path_counterexample :
    postATwinWithURL.Date = jan15 ∧
    filepathBase (postATwinWithURL.extractRelativeURL plainURLPath) = "a.html" ∧
    (Site.buildURLTree plainURLPath
        { Config := defaultConfig, Posts := [postATwinWithURL, postAWithURL],
          URLTree := NewURLTree }).URLTree.Search
      "/archives/2024/01/15/a.html" = some postAWithURL ∧
    postAWithURL ≠ postATwinWithURL := by
  decide

/-- Under the policy `pretty` the base name of every relative URL is `index.html`, so two
posts of one day with different slugs (`b` and `a`) meet at `/archives/2024/01/15/index.html`
and the lookup returns the one inserted last. -/
theorem archive_path_pretty_same_day :
    filepathBase ((postSlugB.generateURL prettyConfig).extractRelativeURL plainURLPath) =
      "index.html" ∧
    (Site.buildURLTree plainURLPath
        { Config := prettyConfig,
          Posts := [postSlugB.generateURL prettyConfig, postSlugA.generateURL prettyConfig],
          URLTree := NewURLTree }).URLTree.Search
      "/archives/2024/01/15/index.html" = some (postSlugA.generateURL prettyConfig) := by
  decide

/-! ## Ordering of the posts: claims C7, C8 -/

theorem after_iff (t u : Time) :
    t.After u = true ↔ u.sec < t.sec ∨ (t.sec = u.sec ∧ u.nsec < t.nsec) := by
  simp [Time.After]

theorem before_iff (t u : Time) :
    t.Before u = true ↔ t.sec < u.sec ∨ (t.sec = u.sec ∧ t.nsec < u.nsec) := by
  simp [Time.Before]

theorem equal_iff (t u : Time) : t.Equal u = true ↔ t.sec = u.sec ∧ t.nsec = u.nsec := by
  simp [Time.Equal]

theorem bool_eq_false_iff_not {b : Bool} : b = false ↔ ¬ (b = true) := by
  cases b <;> simp

/-- The comparison of `processCollections` meets the requirements of `sort.Slice`. -/
theorem dateAfter_requirements : LessRequirements dateAfter := by
  constructor
  · intro a
    rw [bool_eq_false_iff_not]
    unfold dateAfter
    rw [after_iff]
    omega
  · intro a b c h1 h2
    unfold dateAfter at *
    rw [after_iff] at *
    omega
  · intro a b c h1 h2
    rw [bool_eq_false_iff_not] at *
    unfold dateAfter at *
    rw [after_iff] at *
    omega

theorem insertLeft_perm (less : Post → Post → Bool) (x : Post) (ys : List Post) :
    List.Perm (insertLeft less x ys) (x :: ys) := by
  induction ys with
  | nil => exact List.Perm.refl _
  | cons y ys ih =>
    unfold insertLeft
    split
    · exact (List.Perm.cons y ih).trans (List.Perm.swap x y ys)
    · exact List.Perm.refl _

theorem mem_insertLeft (less : Post → Post → Bool) (x : Post) (ys : List Post) (z : Post) :
    z ∈ insertLeft less x ys ↔ z = x ∨ z ∈ ys := by
  rw [(insertLeft_perm less x ys).mem_iff, List.mem_cons]

/-- The sorted part, held in reverse, stays sorted when an element is moved into it. -/
theorem insertLeft_sorted (less : Post → Post → Bool) (hless : LessRequirements less)
    (x : Post) (ys : List Post) (h : List.Pairwise (fun a b => less a b = false) ys) :
    List.Pairwise (fun a b => less a b = false) (insertLeft less x ys) := by
  induction ys with
  | nil => simp [insertLeft]
  | cons y ys ih =>
    rw [List.pairwise_cons] at h
    unfold insertLeft
    split
    · rename_i hxy
      rw [List.pairwise_cons]
      refine ⟨?_, ih h.2⟩
      intro z hz
      rcases (mem_insertLeft less x ys z).1 hz with hzx | hzy
      · subst hzx
        rw [bool_eq_false_iff_not]
        intro hyz
        have := hless.trans _ _ _ hxy hyz
        rw [hless.irrefl] at this
        exact Bool.false_ne_true this
      · exact h.1 z hzy
    · rename_i hxy
      have hxy' : less x y = false := by simpa using hxy
      rw [List.pairwise_cons]
      refine ⟨?_, List.pairwise_cons.2 h⟩
      intro z hz
      rcases List.mem_cons.1 hz with hzy | hzy
      · subst hzy; exact hxy'
      · exact hless.incomparable_trans _ _ _ hxy' (h.1 z hzy)

theorem insertionSort_foldl_perm (less : Post → Post → Bool) (xs acc : List Post) :
    List.Perm (xs.foldl (fun sortedRev x => insertLeft less x sortedRev) acc)
      (xs.reverse ++ acc) := by
  induction xs generalizing acc with
  | nil => exact List.Perm.refl _
  | cons x xs ih =>
    rw [List.foldl_cons, List.reverse_cons, List.append_assoc]
    exact (ih _).trans (List.Perm.append_left _ (insertLeft_perm less x acc))

theorem insertionSort_foldl_sorted (less : Post → Post → Bool) (hless : LessRequirements less)
    (xs acc : List Post) (h : List.Pairwise (fun a b => less a b = false) acc) :
    List.Pairwise (fun a b => less a b = false)
      (xs.foldl (fun sortedRev x => insertLeft less x sortedRev) acc) := by
  induction xs generalizing acc with
  | nil => exact h
  | cons x xs ih => exact ih _ (insertLeft_sorted less hless x acc h)

/-- The insertion sort of the Go library keeps the promise of `sort.Slice`. -/
theorem insertionSort_contract : SortSliceContract insertionSort := by
  constructor
  · intro less xs _
    unfold insertionSort
    refine (List.reverse_perm _).trans ((insertionSort_foldl_perm less xs []).trans ?_)
    rw [List.append_nil]
    exact List.reverse_perm _
  · intro less xs hless
    unfold insertionSort
    rw [List.pairwise_reverse]
    exact insertionSort_foldl_sorted less hless xs [] List.Pairwise.nil

theorem processPagination_Posts (s : Site) : s.processPagination.Posts = s.Posts := by
  unfold Site.processPagination
  split <;> rfl

theorem processCollections_Posts (sortSlice : (Post → Post → Bool) → List Post → List Post)
    (s : Site) : (s.processCollections sortSlice).Posts = sortSlice dateAfter s.Posts := by
  unfold Site.processCollections Site.processArchives
  simp only
  rw [processPagination_Posts]

/-- The posts after `processCollections` are in descending order of date. -/
theorem processCollections_pairwise (sortSlice : (Post → Post → Bool) → List Post → List Post)
    (hsort : SortSliceContract sortSlice) (s : Site) :
    List.Pairwise (fun a b => a.Date.Before b.Date = false)
      (s.processCollections sortSlice).Posts := by
  rw [processCollections_Posts]
  refine (hsort.sorted dateAfter s.Posts dateAfter_requirements).imp ?_
  intro a b h
  rw [bool_eq_false_iff_not] at *
  unfold dateAfter at h
  rw [after_iff] at h
  rw [before_iff]
  omega

theorem pairwise_getElem? {R : Post → Post → Prop} {l : List Post} (h : List.Pairwise R l)
    (i j : Nat) (a b : Post) (hij : i < j) (ha : l[i]? = some a) (hb : l[j]? = some b) :
    R a b := by
  obtain ⟨hi, rfl⟩ := List.getElem?_eq_some.1 ha
  obtain ⟨hj, rfl⟩ := List.getElem?_eq_some.1 hb
  exact List.pairwise_iff_getElem.1 h i j hi hj hij

/-- C7: after `processCollections`, for all indices `i < j` of `Posts` the date of `Posts[i]`
is not earlier than the date of `Posts[j]`, and `Posts` is a permutation of the post sequence
before the call (`sort.Slice` being any function that keeps its documented promise). -/
theorem posts_sorted_by_date_descending
    (sortSlice : (Post → Post → Bool) → List Post → List Post)
    (hsort : SortSliceContract sortSlice) (s : Site) :
    (∀ (i j : Nat) (a b : Post), i < j →
        (s.processCollections sortSlice).Posts[i]? = some a →
        (s.processCollections sortSlice).Posts[j]? = some b →
        a.Date.Before b.Date = false) ∧
      List.Perm (s.processCollections sortSlice).Posts s.Posts := by
  constructor
  · intro i j a b hij ha hb
    exact pairwise_getElem? (processCollections_pairwise sortSlice hsort s) i j a b hij ha hb
  · rw [processCollections_Posts]
    exact hsort.perm dateAfter s.Posts dateAfter_requirements

theorem posts_sorted_by_date_descending_witness :
    SortSliceContract insertionSort ∧
    (∀ (i j : Nat) (a b : Post), i < j →
        (Site.processCollections insertionSort
          { Config := defaultConfig, Posts := [postA, postB] }).Posts[i]? = some a →
        (Site.processCollections insertionSort
          { Config := defaultConfig, Posts := [postA, postB] }).Posts[j]? = some b →
        a.Date.Before b.Date = false) ∧
      List.Perm
        (Site.processCollections insertionSort
          { Config := defaultConfig, Posts := [postA, postB] }).Posts [postA, postB] :=
  ⟨insertionSort_contract,
   posts_sorted_by_date_descending insertionSort insertionSort_contract
     { Config := defaultConfig, Posts := [postA, postB] }⟩

/-- C8 (amended): after `processCollections`, any two posts `Posts[i]`, `Posts[j]` with
`i < j` and equal dates stand in one run of posts of that date: every post between them has
the same date. Their order inside the run is the one `sort.Slice` leaves, from a comparison
that reads the dates only; the slugs are not compared. -/
theorem equal_dates_form_a_run
    (sortSlice : (Post → Post → Bool) → List Post → List Post)
    (hsort : SortSliceContract sortSlice) (s : Site) (i k j : Nat) (a c b : Post)
    (hik : i < k) (hkj : k < j)
    (ha : (s.processCollections sortSlice).Posts[i]? = some a)
    (hc : (s.processCollections sortSlice).Posts[k]? = some c)
    (hb : (s.processCollections sortSlice).Posts[j]? = some b)
    (hdate : a.Date.Equal b.Date = true) :
    c.Date.Equal a.Date = true := by
  have hp := processCollections_pairwise sortSlice hsort s
  have h1 := pairwise_getElem? hp i k a c hik ha hc
  have h2 := pairwise_getElem? hp k j c b hkj hc hb
  rw [bool_eq_false_iff_not, before_iff] at h1 h2
  rw [equal_iff] at *
  omega

theorem equal_dates_form_a_run_witness :
    SortSliceContract insertionSort ∧ postSlugB.Date.Equal postATwinWithURL.Date = true ∧
      postSlugA.Date.Equal postSlugB.Date = true :=
  ⟨insertionSort_contract, by decide,
   equal_dates_form_a_run insertionSort insertionSort_contract
     { Config := defaultConfig, Posts := [postSlugB, postSlugA, postATwinWithURL] }
     0 1 2 postSlugB postSlugA postATwinWithURL (by decide) (by decide) (by decide) (by decide)
     (by decide) (by decide)⟩

/-- C8 (as stated) fails: two posts of the same date loaded in the order slug `b`, slug `a`
stay in that order, since the comparison of `processCollections` reads the dates only. -/
theorem slug_tie_break_counterexample :
    (Site.processCollections insertionSort
        { Config := defaultConfig, Posts := [postSlugB, postSlugA] }).Posts =
      [postSlugB, postSlugA] ∧
    postSlugB.Date = postSlugA.Date ∧
    stringLE postSlugB.Slug postSlugA.Slug = false := by
  decide

/-! ## Pagination: claim C9 -/

theorem slice_group (xs : List Post) (i k : Nat) :
    slice xs i (if i + k > xs.length then xs.length else i + k) = (xs.drop i).take k := by
  unfold slice
  split
  · rename_i h
    rw [List.take_length, List.take_of_length_le]
    rw [List.length_drop]
    omega
  · rw [List.drop_take]
    congr 1
    omega

theorem div_zero_of_done (n k : Nat) (hk : 0 < k) (h : n = 0) : (n + k - 1) / k = 0 := by
  subst h
  exact Nat.div_eq_of_lt (by omega)

theorem div_step (n k : Nat) (hk : 0 < k) (h : 0 < n) :
    (n + k - 1) / k = (n - k + k - 1) / k + 1 := by
  by_cases hnk : k ≤ n
  · have : n + k - 1 = (n - k + k - 1) + k := by omega
    rw [this, Nat.add_div_right _ hk]
  · have h0 : n - k = 0 := by omega
    rw [div_zero_of_done (n - k) k hk h0]
    exact Nat.div_eq_of_lt_le (by omega) (by omega)

/-- The loop of `processPagination` appends to `PagedPosts` the posts from index `i` on, cut
into groups of `k`, the last one possibly shorter. -/
theorem paginateLoop_spec (Posts : List Post) (k : Nat) (hk : 0 < k) :
    ∀ (fuel i : Nat) (acc : List (List Post)), Posts.length - i ≤ fuel →
      ∃ tail, paginateLoop Posts k fuel i acc = acc ++ tail ∧
        tail.flatten = Posts.drop i ∧
        tail.length = (Posts.length - i + k - 1) / k ∧
        (∀ grp ∈ tail.dropLast, grp.length = k) ∧
        (∀ grp, tail.getLast? = some grp → 1 ≤ grp.length ∧ grp.length ≤ k) := by
  intro fuel
  induction fuel with
  | zero =>
    intro i acc hfuel
    refine ⟨[], by simp [paginateLoop], ?_, ?_, by simp, by simp⟩
    · rw [List.drop_eq_nil_of_le (by omega)]; rfl
    · rw [div_zero_of_done _ k hk (by omega)]; rfl
  | succ fuel ih =>
    intro i acc hfuel
    by_cases hi : i < Posts.length
    · obtain ⟨tail, heq, hflat, hlen, hfull, hlast⟩ :=
        ih (i + k) (acc ++ [(Posts.drop i).take k]) (by omega)
      have hgrp : ((Posts.drop i).take k).length = min k (Posts.length - i) := by
        rw [List.length_take, List.length_drop]
      refine ⟨(Posts.drop i).take k :: tail, ?_, ?_, ?_, ?_, ?_⟩
      · simp only [paginateLoop, hi, if_true]
        rw [slice_group, heq]
        simp
      · rw [List.flatten_cons, hflat, ← List.drop_drop, List.take_append_drop]
      · rw [List.length_cons, hlen, div_step (Posts.length - i) k hk (by omega)]
        congr 3
        omega
      · cases tail with
        | nil => simp
        | cons t ts =>
          rw [List.dropLast_cons_of_ne_nil (by simp)]
          intro grp hmem
          rcases List.mem_cons.1 hmem with h | h
          · subst h
            have hpos : 0 < (Posts.length - (i + k) + k - 1) / k := by
              rw [← hlen]; simp
            have hmore : 0 < Posts.length - (i + k) := by
              by_contra hc
              rw [div_zero_of_done _ k hk (by omega)] at hpos
              exact Nat.lt_irrefl 0 hpos
            rw [hgrp]
            omega
          · exact hfull grp h
      · cases tail with
        | nil =>
          intro grp hg
          simp at hg
          subst hg
          rw [hgrp]
          omega
        | cons t ts =>
          intro grp hg
          rw [List.getLast?_cons_cons] at hg
          exact hlast grp hg
    · refine ⟨[], by simp [paginateLoop, hi], ?_, ?_, by simp, by simp⟩
      · rw [List.drop_eq_nil_of_le (by omega)]; rfl
      · rw [div_zero_of_done _ k hk (by omega)]; rfl

theorem processPagination_PagedPosts (s : Site) (k : Nat) (hk : 0 < k)
    (hcfg : s.Config.Paginate = (k : Int)) :
    s.processPagination.PagedPosts = paginateLoop s.Posts k s.Posts.length 0 [] := by
  unfold Site.processPagination
  have hpos : ¬ (s.Config.Paginate ≤ 0) := by rw [hcfg]; omega
  rw [if_neg hpos]
  simp [hcfg]

/-- C9: when `Config.Paginate = k > 0` and the site has `N` posts, `processPagination` sets
`PagedPosts` to exactly `ceil(N/k)` groups whose concatenation in order is `Posts`; every
group except the last holds exactly `k` posts and the last holds between 1 and `k` posts. -/
theorem pagination_groups (s : Site) (k : Nat) (hk : 0 < k)
    (hcfg : s.Config.Paginate = (k : Int)) :
    s.processPagination.PagedPosts.length = (s.Posts.length + k - 1) / k ∧
    s.processPagination.PagedPosts.flatten = s.Posts ∧
    (∀ (i : Nat) (grp : List Post), i + 1 < s.processPagination.PagedPosts.length →
        s.processPagination.PagedPosts[i]? = some grp → grp.length = k) ∧
    (∀ grp : List Post, s.processPagination.PagedPosts.getLast? = some grp →
        1 ≤ grp.length ∧ grp.length ≤ k) := by
  rw [processPagination_PagedPosts s k hk hcfg]
  obtain ⟨tail, heq, hflat, hlen, hfull, hlast⟩ :=
    paginateLoop_spec s.Posts k hk s.Posts.length 0 [] (by omega)
  rw [heq, List.nil_append]
  refine ⟨by rw [hlen]; simp, by rw [hflat]; simp, ?_, hlast⟩
  intro i grp hi hget
  apply hfull
  rw [List.dropLast_eq_take, List.mem_iff_getElem?]
  exact ⟨i, by rw [List.getElem?_take_of_lt (by omega)]; exact hget⟩

theorem pagination_groups_witness :
    (Site.processPagination
        { Config := { defaultConfig with Paginate := 3 }, Posts := sevenPosts }).PagedPosts.map
      List.length = [3, 3, 1] ∧
    (Site.processPagination
        { Config := { defaultConfig with Paginate := 3 }, Posts := sevenPosts }).PagedPosts.length =
      (sevenPosts.length + 3 - 1) / 3 ∧
    (Site.processPagination
        { Config := { defaultConfig with Paginate := 3 },
          Posts := sevenPosts }).PagedPosts.flatten = sevenPosts :=
  ⟨by decide,
   (pagination_groups { Config := { defaultConfig with Paginate := 3 }, Posts := sevenPosts } 3
     (by decide) rfl).1,
   (pagination_groups { Config := { defaultConfig with Paginate := 3 }, Posts := sevenPosts } 3
     (by decide) rfl).2.1⟩

/-! ## Permalinks: claim C10 -/

theorem hasPrefix_head_ne (s pre : String) (c d : Char) (ts tp : List Char)
    (hs : s.data = c :: ts) (hp : pre.data = d :: tp) (hcd : d ≠ c) : hasPrefix s pre = false := by
  unfold hasPrefix
  rw [hs, hp]
  simp [List.isPrefixOf, hcd]

theorem hasPrefix_slash (s : String) (ts : List Char) (hs : s.data = '/' :: ts) :
    hasPrefix s "/" = true := by
  unfold hasPrefix
  rw [hs]
  show List.isPrefixOf ['/'] ('/' :: ts) = true
  simp [List.isPrefixOf]

theorem hasSuffix_slash_iff (s : String) : hasSuffix s "/" = true ↔ ∃ b : String, s = b ++ "/" := by
  unfold hasSuffix
  constructor
  · intro h
    cases hrev : s.data.reverse with
    | nil =>
      rw [hrev] at h
      exact absurd h (by decide)
    | cons c t =>
      rw [hrev] at h
      have hc : c = '/' := by
        have h' : ('/' == c) = true := by simpa [List.isPrefixOf] using h
        exact (beq_iff_eq.1 h').symm
      refine ⟨String.mk t.reverse, ?_⟩
      apply String.ext
      rw [String.data_append]
      have hdata : s.data = (c :: t).reverse := by rw [← hrev, List.reverse_reverse]
      rw [hdata, hc]
      simp
  · rintro ⟨b, rfl⟩
    rw [String.data_append]
    simp [List.isPrefixOf]

theorem dropLastChar_append_slash (b : String) : dropLastChar (b ++ "/") = b := by
  unfold dropLastChar
  apply String.ext
  rw [String.data_append]
  simp

/-- The absolute URL of a relative URL that begins with `/`: the site URL without one
trailing slash, followed by the relative URL. -/
theorem makeAbsoluteURL_of_slash (cfg : Config) (rel base : String) (ts : List Char)
    (hrel : rel.data = '/' :: ts)
    (hbase : cfg.URL = base ++ "/" ∨ (cfg.URL = base ∧ ∀ b : String, cfg.URL ≠ b ++ "/")) :
    Post.makeAbsoluteURL rel cfg = base ++ rel := by
  unfold Post.makeAbsoluteURL
  rw [hasPrefix_head_ne rel "http://" '/' 'h' ts _ hrel rfl (by decide),
    hasPrefix_head_ne rel "https://" '/' 'h' ts _ hrel rfl (by decide),
    hasPrefix_slash rel ts hrel]
  simp only [Bool.or_self, Bool.false_eq_true, if_false, Bool.not_true]
  rcases hbase with h | ⟨h, hno⟩
  · rw [if_pos ((hasSuffix_slash_iff _).2 ⟨base, h⟩), h, dropLastChar_append_slash]
  · have hsuf : ¬ (hasSuffix cfg.URL "/" = true) := by
      intro hc
      obtain ⟨b, hb⟩ := (hasSuffix_slash_iff _).1 hc
      exact hno b hb
    rw [if_neg hsuf, h]

theorem formatYear_digits (t : Time) (y : Nat) (hy : t.Year = (y : Int)) (hy4 : y ≤ 9999) :
    t.FormatYear =
      String.mk [digitChar (y / 1000), digitChar (y / 100), digitChar (y / 10), digitChar y] := by
  unfold Time.FormatYear appendInt
  rw [hy]
  have h1 : ¬ ((y : Int) < 0) := by omega
  have h2 : y < 10000 := by omega
  simp [h1, h2]

theorem formatMonth_digits (t : Time) (hm : t.Month ≤ 12) :
    t.FormatMonth = String.mk [digitChar (t.Month / 10), digitChar t.Month] := by
  unfold Time.FormatMonth appendInt
  have h1 : ¬ ((t.Month : Int) < 0) := by omega
  have h2 : t.Month < 100 := by omega
  simp [h1, h2]

theorem formatDay_digits (t : Time) (hd : t.Day ≤ 31) :
    t.FormatDay = String.mk [digitChar (t.Day / 10), digitChar t.Day] := by
  unfold Time.FormatDay appendInt
  have h1 : ¬ ((t.Day : Int) < 0) := by omega
  have h2 : t.Day < 100 := by omega
  simp [h1, h2]

/-- C10: for every post with a non-zero date (year `y` of at most four digits, month at most
12, day at most 31), slug `S` and no permalink override, `generateURL` sets `URL` to the
site URL without its trailing slash, followed by `/Y/M/D/S.html` under the policy `date` and
by `/Y/M/D/S/index.html` under the policies `pretty` and `none`, where `Y` is the year in
four digits and `M`, `D` are the month and the day in two digits. -/
theorem generateURL_by_policy (p : Post) (cfg : Config) (base : String) (y : Nat)
    (hzero : p.Date.IsZero = false) (hperm : p.Permalink = "")
    (hy : p.Date.Year = (y : Int)) (hy4 : y ≤ 9999) (hm : p.Date.Month ≤ 12)
    (hd : p.Date.Day ≤ 31)
    (hbase : cfg.URL = base ++ "/" ∨ (cfg.URL = base ∧ ∀ b : String, cfg.URL ≠ b ++ "/")) :
    (cfg.Permalink = "date" →
      (p.generateURL cfg).URL =
        base ++ "/" ++
          String.mk [digitChar (y / 1000), digitChar (y / 100), digitChar (y / 10), digitChar y] ++
          "/" ++ String.mk [digitChar (p.Date.Month / 10), digitChar p.Date.Month] ++
          "/" ++ String.mk [digitChar (p.Date.Day / 10), digitChar p.Date.Day] ++
          "/" ++ p.Slug ++ ".html") ∧
    (cfg.Permalink = "pretty" ∨ cfg.Permalink = "none" →
      (p.generateURL cfg).URL =
        base ++ "/" ++
          String.mk [digitChar (y / 1000), digitChar (y / 100), digitChar (y / 10), digitChar y] ++
          "/" ++ String.mk [digitChar (p.Date.Month / 10), digitChar p.Date.Month] ++
          "/" ++ String.mk [digitChar (p.Date.Day / 10), digitChar p.Date.Day] ++
          "/" ++ p.Slug ++ "/index.html") := by
  have hY := formatYear_digits p.Date y hy hy4
  have hM := formatMonth_digits p.Date hm
  have hD := formatDay_digits p.Date hd
  constructor
  · intro hpol
    unfold Post.generateURL
    simp only [hperm, ne_eq, not_true_eq_false, if_false, hpol, if_true]
    unfold Post.generateDateURL
    simp only [hzero, Bool.false_eq_true, if_false]
    rw [makeAbsoluteURL_of_slash cfg _ base _ (by simp [String.data_append]; rfl) hbase, hY, hM, hD]
    simp only [String.append_assoc]
  · intro hpol
    unfold Post.generateURL
    rcases hpol with hpol | hpol
    · simp only [hperm, ne_eq, not_true_eq_false, if_false, hpol, if_true]
      have hne : ¬ ("pretty" = "date") := by decide
      simp only [hne, if_false]
      unfold Post.generatePrettyURL
      simp only [hzero, Bool.false_eq_true, if_false]
      rw [makeAbsoluteURL_of_slash cfg _ base _ (by simp [String.data_append]; rfl) hbase, hY, hM,
        hD]
      simp only [String.append_assoc]
    · simp only [hperm, ne_eq, not_true_eq_false, if_false, hpol, if_true]
      have hne : ¬ ("none" = "date") := by decide
      have hne2 : ¬ ("none" = "pretty") := by decide
      simp only [hne, hne2, if_false]
      unfold Post.generateNoneURL
      simp only [hzero, Bool.false_eq_true, if_false]
      rw [makeAbsoluteURL_of_slash cfg _ base _ (by simp [String.data_append]; rfl) hbase, hY, hM,
        hD]
      simp only [String.append_assoc]

theorem generateURL_by_policy_witness :
    (postHello.generateURL { defaultConfig with URL := "http://example.com" }).URL =
        "http://example.com/2024/01/15/hello-world.html" ∧
      (postHello.generateURL
          { Permalink := "pretty", Paginate := 0, URL := "http://example.com/" }).URL =
        "http://example.com/2024/01/15/hello-world/index.html" :=
  ⟨(generateURL_by_policy postHello { defaultConfig with URL := "http://example.com" }
      "http://example.com" 2024 (by decide) rfl rfl (by decide) (by decide) (by decide)
      (Or.inr ⟨rfl, fun b hb => by
        have h := congrArg (fun s : String => hasSuffix s "/") hb
        simp only [(hasSuffix_slash_iff (b ++ "/")).2 ⟨b, rfl⟩] at h
        exact absurd h (by decide)⟩)).1 rfl,
   (generateURL_by_policy postHello
      { Permalink := "pretty", Paginate := 0, URL := "http://example.com/" }
      "http://example.com" 2024 (by decide) rfl rfl (by decide) (by decide) (by decide)
      (Or.inl rfl)).2 (Or.inl rfl)⟩

/-! ## Prefix search: claim C5 -/

mutual
theorem collectPosts_eq : ∀ (n : URLNode) (results : List Post),
    collectPosts n results = results ++ (nodeEntries n).map Prod.snd
  | URLNode.mk _ post children, results => by
    unfold collectPosts nodeEntries
    rw [collectChildren_eq children]
    cases post <;> simp
theorem collectChildren_eq : ∀ (cs : List (String × URLNode)) (results : List Post),
    collectChildren cs results = results ++ (childrenEntries cs).map Prod.snd
  | [], results => by simp [collectChildren, childrenEntries]
  | (k, child) :: rest, results => by
    unfold collectChildren childrenEntries
    rw [collectChildren_eq rest, collectPosts_eq child]
    simp [List.map_map, Function.comp_def]
end

theorem childLookup_cons (k : String) (child : URLNode) (rest : List (String × URLNode))
    (s : String) :
    childLookup ((k, child) :: rest) s = if k = s then some child else childLookup rest s := rfl

mutual
theorem mem_nodeEntries : ∀ (n : URLNode), nodeOK n → ∀ (segs : List String) (p : Post),
    ((segs, p) ∈ nodeEntries n ↔ (∀ s ∈ segs, s ≠ "") ∧ postAt n segs = some p)
  | URLNode.mk path post children, hok, segs, p => by
    have hcs : childrenOK children := by
      unfold nodeOK at hok
      exact hok
    unfold nodeEntries
    rw [List.mem_append, mem_childrenEntries children hcs]
    cases segs with
    | nil =>
      have hpost : postAt (URLNode.mk path post children) [] = post := rfl
      rw [hpost]
      cases post with
      | none => simp
      | some p' =>
        simp only [List.mem_singleton, Prod.mk.injEq, true_and, List.not_mem_nil,
          IsEmpty.forall_iff, implies_true, Option.some.injEq]
        constructor
        · rintro (h | ⟨s, rest, child, h, _⟩)
          · exact h.symm
          · exact absurd h (by simp)
        · intro h
          exact Or.inl h.symm
    | cons s rest =>
      constructor
      · rintro (h | ⟨s', rest', child, heq, hs, hrest, hlook, hp⟩)
        · cases post with
          | none => simp at h
          | some p' => simp at h
        · obtain ⟨rfl, rfl⟩ := List.cons.inj heq
          refine ⟨?_, ?_⟩
          · intro x hx
            rcases List.mem_cons.1 hx with h | h
            · rw [h]; exact hs
            · exact hrest x h
          · rw [postAt_cons _ _ _ hs]
            show (match childLookup children s with
              | some child => postAt child rest
              | none => none) = some p
            rw [hlook]
            exact hp
      · rintro ⟨hall, hp⟩
        have hs : s ≠ "" := hall s (by simp)
        rw [postAt_cons _ _ _ hs] at hp
        have hp' : (match childLookup children s with
              | some child => postAt child rest
              | none => none) = some p := hp
        right
        cases hlook : childLookup children s with
        | none => rw [hlook] at hp'; exact absurd hp' (by simp)
        | some child =>
          rw [hlook] at hp'
          exact ⟨s, rest, child, rfl, hs, fun x hx => hall x (List.mem_cons_of_mem _ hx), hlook, hp'⟩
theorem mem_childrenEntries : ∀ (cs : List (String × URLNode)), childrenOK cs →
    ∀ (segs : List String) (p : Post),
    ((segs, p) ∈ childrenEntries cs ↔
      ∃ s rest child, segs = s :: rest ∧ s ≠ "" ∧ (∀ x ∈ rest, x ≠ "") ∧
        childLookup cs s = some child ∧ postAt child rest = some p)
  | [], _, segs, p => by simp [childrenEntries, childLookup]
  | (k, child) :: rest, hok, segs, p => by
    unfold childrenOK at hok
    obtain ⟨hk, hfresh, hchild, hrest⟩ := hok
    unfold childrenEntries
    rw [List.mem_append, mem_childrenEntries rest hrest, List.mem_map]
    constructor
    · rintro (⟨e, he, heq⟩ | ⟨s, tl, c, hsegs, hs, htl, hlook, hp⟩)
      · obtain ⟨rfl, rfl⟩ := Prod.mk.inj heq
        have := (mem_nodeEntries child hchild e.1 e.2).1 he
        exact ⟨k, e.1, child, rfl, hk, this.1, by simp [childLookup_cons], this.2⟩
      · refine ⟨s, tl, c, hsegs, hs, htl, ?_, hp⟩
        rw [childLookup_cons]
        have hks : k ≠ s := by
          intro h
          rw [← h, hfresh] at hlook
          exact absurd hlook (by simp)
        rw [if_neg hks]
        exact hlook
    · rintro ⟨s, tl, c, hsegs, hs, htl, hlook, hp⟩
      rw [childLookup_cons] at hlook
      by_cases hks : k = s
      · rw [if_pos hks] at hlook
        obtain rfl := Option.some.inj hlook
        left
        refine ⟨(tl, p), (mem_nodeEntries child hchild tl p).2 ⟨htl, hp⟩, ?_⟩
        rw [hsegs, hks]
      · rw [if_neg hks] at hlook
        exact Or.inr ⟨s, tl, c, hsegs, hs, htl, hlook, hp⟩
end

mutual
theorem nodup_nodeEntries : ∀ (n : URLNode), nodeOK n →
    ((nodeEntries n).map Prod.fst).Nodup
  | URLNode.mk path post children, hok => by
    have hcs : childrenOK children := by
      unfold nodeOK at hok
      exact hok
    unfold nodeEntries
    rw [List.map_append, List.nodup_append]
    refine ⟨?_, nodup_childrenEntries children hcs, ?_⟩
    · cases post <;> simp
    · intro a ha hb
      obtain ⟨⟨segs, p⟩, hmem, rfl⟩ := List.mem_map.1 hb
      obtain ⟨s, rest, _, hsegs, _⟩ := (mem_childrenEntries children hcs segs p).1 hmem
      cases post with
      | none => simp at ha
      | some p' =>
        simp at ha
        rw [hsegs] at ha
        exact absurd ha (by simp)
theorem nodup_childrenEntries : ∀ (cs : List (String × URLNode)), childrenOK cs →
    ((childrenEntries cs).map Prod.fst).Nodup
  | [], _ => by simp [childrenEntries]
  | (k, child) :: rest, hok => by
    unfold childrenOK at hok
    obtain ⟨hk, hfresh, hchild, hrest⟩ := hok
    unfold childrenEntries
    rw [List.map_append, List.nodup_append]
    refine ⟨?_, nodup_childrenEntries rest hrest, ?_⟩
    · rw [List.map_map]
      have hfun : (Prod.fst ∘ fun e : List String × Post => (k :: e.1, e.2)) =
          (fun segs => k :: segs) ∘ Prod.fst := rfl
      rw [hfun, ← List.map_map]
      exact (nodup_nodeEntries child hchild).map (fun a b h => (List.cons.inj h).2)
    · intro a ha hb
      obtain ⟨⟨segs, p⟩, hmem, rfl⟩ := List.mem_map.1 hb
      obtain ⟨s, tl, c, hsegs, _, _, hlook, _⟩ := (mem_childrenEntries rest hrest segs p).1 hmem
      obtain ⟨e, _, he⟩ := List.mem_map.1 ha
      obtain ⟨e', _, rfl⟩ := List.mem_map.1 ‹e ∈ _›
      simp only at he
      rw [hsegs] at he
      obtain ⟨hks, _⟩ := List.cons.inj he
      rw [← hks, hfresh] at hlook
      exact absurd hlook (by simp)
end

theorem nodeOK_iff_children (n : URLNode) : nodeOK n ↔ childrenOK n.Children := by
  cases n
  unfold nodeOK
  exact Iff.rfl

theorem nodeOK_of_lookup (cs : List (String × URLNode)) (hok : childrenOK cs) (k : String)
    (c : URLNode) (h : childLookup cs k = some c) : nodeOK c := by
  induction cs with
  | nil => simp [childLookup] at h
  | cons e rest ih =>
    obtain ⟨k', n⟩ := e
    unfold childrenOK at hok
    rw [childLookup_cons] at h
    by_cases hk : k' = k
    · rw [if_pos hk] at h
      obtain rfl := Option.some.inj h
      exact hok.2.2.1
    · rw [if_neg hk] at h
      exact ih hok.2.2.2 h

theorem childrenOK_childSet (cs : List (String × URLNode)) (hok : childrenOK cs) (part : String)
    (x : URLNode) (hpart : part ≠ "") (hx : nodeOK x) : childrenOK (childSet cs part x) := by
  induction cs with
  | nil =>
    unfold childSet childrenOK
    exact ⟨hpart, rfl, hx, hok⟩
  | cons e rest ih =>
    obtain ⟨k, n⟩ := e
    unfold childrenOK at hok
    obtain ⟨hk, hfresh, hn, hrest⟩ := hok
    unfold childSet
    by_cases hkp : k = part
    · rw [if_pos hkp]
      unfold childrenOK
      exact ⟨hk, hfresh, hx, hrest⟩
    · rw [if_neg hkp]
      unfold childrenOK
      exact ⟨hk, by rw [childLookup_childSet_other _ _ _ _ hkp]; exact hfresh, hn, ih hrest⟩

theorem nodeOK_insertLoop (post : Option Post) (parts : List String) (n : URLNode)
    (hok : nodeOK n) : nodeOK (insertLoop post parts n) := by
  induction parts generalizing n with
  | nil => exact hok
  | cons part rest ih =>
    unfold insertLoop
    by_cases hpart : part = ""
    · rw [if_pos hpart]
      exact ih n hok
    · rw [if_neg hpart]
      simp only
      rw [nodeOK_iff_children, children_setChildren]
      have hcs := (nodeOK_iff_children n).1 hok
      apply childrenOK_childSet _ hcs _ _ hpart
      apply ih
      have hchild : nodeOK (match childLookup n.Children part with
          | some c => c
          | none => URLNode.mk part none []) := by
        cases hlook : childLookup n.Children part with
        | none =>
          simp only
          unfold nodeOK childrenOK
          trivial
        | some c => exact nodeOK_of_lookup _ hcs _ _ hlook
      split
      · rw [nodeOK_iff_children, children_setPost]
        exact (nodeOK_iff_children _).1 hchild
      · exact hchild

theorem nodeOK_walkLoop (parts : List String) (n sub : URLNode) (hok : nodeOK n)
    (h : walkLoop parts n = some sub) : nodeOK sub := by
  induction parts generalizing n with
  | nil =>
    obtain rfl := Option.some.inj h
    exact hok
  | cons part rest ih =>
    unfold walkLoop at h
    by_cases hpart : part = ""
    · rw [if_pos hpart] at h
      exact ih n hok h
    · rw [if_neg hpart] at h
      cases hlook : childLookup n.Children part with
      | none => rw [hlook] at h; exact absurd h (by simp)
      | some c =>
        rw [hlook] at h
        exact ih c (nodeOK_of_lookup _ ((nodeOK_iff_children n).1 hok) _ _ hlook) h

theorem nodeOK_insertAll (ins : List (String × Post)) : nodeOK (insertAll NewURLTree ins).Root := by
  induction ins using List.reverseRecOn with
  | nil =>
    show nodeOK (URLNode.mk "/" none [])
    unfold nodeOK childrenOK
    trivial
  | append_singleton l e ih =>
    rw [insertAll_append]
    exact nodeOK_insertLoop _ _ _ ih

theorem walkLoop_cons (part : String) (rest : List String) (n : URLNode) :
    walkLoop (part :: rest) n =
      if part = "" then walkLoop rest n
      else
        match childLookup n.Children part with
        | some child => walkLoop rest child
        | none => none := rfl

theorem walkLoop_append (a b : List String) (n : URLNode) :
    walkLoop (a ++ b) n =
      match walkLoop a n with
      | some m => walkLoop b m
      | none => none := by
  induction a generalizing n with
  | nil => rfl
  | cons part rest ih =>
    rw [List.cons_append, walkLoop_cons, walkLoop_cons]
    by_cases hpart : part = ""
    · rw [if_pos hpart, if_pos hpart]
      exact ih n
    · rw [if_neg hpart, if_neg hpart]
      cases childLookup n.Children part with
      | none => rfl
      | some c => exact ih c

theorem lastInserted_append (ins : List (String × Post)) (e : String × Post)
    (segs : List String) :
    lastInserted (ins ++ [e]) segs =
      if pathSegments e.1 = segs then some e.2 else lastInserted ins segs := by
  unfold lastInserted
  rw [List.reverse_append, List.reverse_singleton, List.singleton_append, List.find?_cons]
  by_cases h : pathSegments e.1 = segs
  · simp [h]
  · simp [h]

/-- What the trie built from the empty trie records under a segment list: the post
inserted there last. -/
theorem postAt_insertAll (ins : List (String × Post)) (segs : List String)
    (hsegs : ∀ s ∈ segs, s ≠ "") :
    postAt (insertAll NewURLTree ins).Root segs =
      if segs = [] then none else lastInserted ins segs := by
  induction ins using List.reverseRecOn with
  | nil =>
    have h0 : insertAll NewURLTree [] = NewURLTree := rfl
    have h1 : lastInserted [] segs = none := rfl
    rw [h0, h1]
    show postAt (URLNode.mk "/" none []) segs = _
    rw [postAt_fresh "/" segs hsegs]
    simp
  | append_singleton l e ih =>
    rw [insertAll_append, postAt_Insert _ _ _ _ hsegs, ih, lastInserted_append]
    by_cases hnil : segs = []
    · rw [if_neg (fun h => h.2 hnil), if_pos hnil, if_pos hnil]
    · by_cases heq : segs = pathSegments e.1
      · rw [if_pos ⟨heq, hnil⟩, if_neg hnil, if_pos heq.symm]
      · have heq' : ¬ (pathSegments e.1 = segs) := fun h => heq h.symm
        rw [if_neg (fun h => heq h.1), if_neg hnil, if_neg hnil, if_neg heq']

theorem lastInserted_some (ins : List (String × Post)) (segs : List String) (p : Post)
    (h : lastInserted ins segs = some p) : ∃ e ∈ ins, pathSegments e.1 = segs ∧ e.2 = p := by
  unfold lastInserted at h
  cases hfind : ins.reverse.find? (fun e => pathSegments e.1 = segs) with
  | none => rw [hfind] at h; exact absurd h (by simp)
  | some e =>
    rw [hfind] at h
    refine ⟨e, List.mem_reverse.1 (List.mem_of_find?_eq_some hfind), ?_, Option.some.inj h⟩
    simpa using List.find?_some hfind

theorem mem_terminals (ins : List (String × Post)) (segs : List String) (p : Post) :
    (segs, p) ∈ terminals ins ↔ segs ≠ [] ∧ lastInserted ins segs = some p := by
  unfold terminals
  rw [List.mem_filterMap]
  constructor
  · rintro ⟨a, ha, hf⟩
    cases hl : lastInserted ins a with
    | none => rw [hl] at hf; exact absurd hf (by simp)
    | some q =>
      rw [hl] at hf
      obtain ⟨rfl, rfl⟩ := Prod.mk.inj (Option.some.inj hf)
      exact ⟨by simpa using (List.mem_filter.1 ha).2, hl⟩
  · rintro ⟨hne, hl⟩
    obtain ⟨e, he, hseg, _⟩ := lastInserted_some ins segs p hl
    refine ⟨segs, List.mem_filter.2 ⟨List.mem_dedup.2 (List.mem_map.2 ⟨e, he, hseg⟩), by simpa using hne⟩, ?_⟩
    rw [hl]
    rfl

theorem nodup_terminals (ins : List (String × Post)) : (terminals ins).Nodup := by
  unfold terminals
  apply List.Nodup.filterMap
  · intro a a' b hb hb'
    cases hl : lastInserted ins a with
    | none => rw [hl] at hb; exact absurd hb (by simp)
    | some q =>
      cases hl' : lastInserted ins a' with
      | none => rw [hl'] at hb'; exact absurd hb' (by simp)
      | some q' =>
        rw [hl] at hb
        rw [hl'] at hb'
        have h1 : (a, q) = b := by simpa using hb
        have h2 : (a', q') = b := by simpa using hb'
        exact (Prod.mk.inj (h1.trans h2.symm)).1
  · exact (List.nodup_dedup _).filter _

theorem postAt_built_iff (ins : List (String × Post)) (segs : List String) (p : Post)
    (hsegs : ∀ s ∈ segs, s ≠ "") :
    postAt (insertAll NewURLTree ins).Root segs = some p ↔
      segs ≠ [] ∧ lastInserted ins segs = some p := by
  rw [postAt_insertAll ins segs hsegs]
  by_cases hnil : segs = []
  · rw [if_pos hnil]
    simp [hnil]
  · rw [if_neg hnil]
    simp [hnil]

theorem postAt_below (pre k : List String) (root sub : URLNode)
    (hw : walkLoop pre root = some sub) : postAt root (pre ++ k) = postAt sub k := by
  unfold postAt
  rw [walkLoop_append, hw]

theorem postAt_below_none (pre k : List String) (root : URLNode)
    (hw : walkLoop pre root = none) : postAt root (pre ++ k) = none := by
  unfold postAt
  rw [walkLoop_append, hw]

/-- The terminal nodes below the node that the prefix leads to, named by their full segment
lists, are the terminal nodes of the trie whose segment lists begin with the prefix. -/
theorem entries_below_perm (ins : List (String × Post)) (pre : List String)
    (hpre : ∀ s ∈ pre, s ≠ "") (sub : URLNode)
    (hw : walkLoop pre (insertAll NewURLTree ins).Root = some sub) :
    List.Perm ((nodeEntries sub).map (fun e => (pre ++ e.1, e.2)))
      ((terminals ins).filter (fun e => pre.isPrefixOf e.1)) := by
  have hsub : nodeOK sub := nodeOK_walkLoop pre _ sub (nodeOK_insertAll ins) hw
  have hE : ((nodeEntries sub).map (fun e => (pre ++ e.1, e.2))).Nodup := by
    apply List.Nodup.of_map Prod.fst
    rw [List.map_map]
    have hfun : (Prod.fst ∘ fun e : List String × Post => (pre ++ e.1, e.2)) =
        (fun segs => pre ++ segs) ∘ Prod.fst := rfl
    rw [hfun, ← List.map_map]
    exact (nodup_nodeEntries sub hsub).map (fun a b h => List.append_cancel_left h)
  have hF : ((terminals ins).filter (fun e => pre.isPrefixOf e.1)).Nodup :=
    (nodup_terminals ins).filter _
  rw [List.perm_ext_iff_of_nodup hE hF]
  rintro ⟨s, p⟩
  rw [List.mem_map, List.mem_filter, mem_terminals, List.isPrefixOf_iff_prefix]
  constructor
  · rintro ⟨e, he, heq⟩
    obtain ⟨rfl, rfl⟩ := Prod.mk.inj heq
    obtain ⟨hk, hp⟩ := (mem_nodeEntries sub hsub e.1 e.2).1 he
    rw [← postAt_below pre e.1 _ sub hw] at hp
    have hall : ∀ x ∈ pre ++ e.1, x ≠ "" := by
      intro x hx
      rcases List.mem_append.1 hx with h | h
      · exact hpre x h
      · exact hk x h
    exact ⟨(postAt_built_iff ins _ _ hall).1 hp, List.prefix_append _ _⟩
  · rintro ⟨⟨hne, hl⟩, k, rfl⟩
    obtain ⟨e, _, hseg, _⟩ := lastInserted_some ins _ p hl
    have hall : ∀ x ∈ pre ++ k, x ≠ "" := by
      rw [← hseg]
      exact pathSegments_ne_empty e.1
    have hp := (postAt_built_iff ins _ p hall).2 ⟨hne, hl⟩
    rw [postAt_below pre k _ sub hw] at hp
    exact ⟨(k, p), (mem_nodeEntries sub hsub k p).2
      ⟨fun x hx => hall x (List.mem_append_right _ hx), hp⟩, rfl⟩

theorem terminals_below_nil (ins : List (String × Post)) (pre : List String)
    (hw : walkLoop pre (insertAll NewURLTree ins).Root = none) :
    (terminals ins).filter (fun e => pre.isPrefixOf e.1) = [] := by
  rw [List.eq_nil_iff_forall_not_mem]
  rintro ⟨s, p⟩ hmem
  rw [List.mem_filter, mem_terminals, List.isPrefixOf_iff_prefix] at hmem
  obtain ⟨⟨hne, hl⟩, k, rfl⟩ := hmem
  obtain ⟨e, _, hseg, _⟩ := lastInserted_some ins _ p hl
  have hall : ∀ x ∈ pre ++ k, x ≠ "" := by
    rw [← hseg]
    exact pathSegments_ne_empty e.1
  have hp := (postAt_built_iff ins _ p hall).2 ⟨hne, hl⟩
  rw [postAt_below_none pre k _ hw] at hp
  exact absurd hp (by simp)

/-- C5: on a trie built from the empty trie by inserts, `SearchPrefix(prefix)` returns, up to
order, exactly one entry for each terminal node whose segment list begins with the segment
list of the prefix (the prefix node itself included), namely the post recorded there last,
and nothing else; the terminal nodes and their posts are what `Search` finds in the trie; and
`SearchPrefix` returns the empty list when no inserted path has those leading segments. -/
theorem searchPrefix_terminals (ins : List (String × Post)) (pre : String) :
    List.Perm ((insertAll NewURLTree ins).SearchPrefix pre)
      (((terminals ins).filter (fun e => (pathSegments pre).isPrefixOf e.1)).map Prod.snd) ∧
    (∀ (q : String) (p : Post),
      (pathSegments q, p) ∈ terminals ins ↔ (insertAll NewURLTree ins).Search q = some p) ∧
    ((∀ e ∈ ins, ¬ (pathSegments pre <+: pathSegments e.1)) →
      (insertAll NewURLTree ins).SearchPrefix pre = []) := by
  have hperm : List.Perm ((insertAll NewURLTree ins).SearchPrefix pre)
      (((terminals ins).filter (fun e => (pathSegments pre).isPrefixOf e.1)).map Prod.snd) := by
    unfold URLTree.SearchPrefix
    rw [← walkLoop_filter]
    show List.Perm (match walkLoop (pathSegments pre) (insertAll NewURLTree ins).Root with
      | some current => collectPosts current []
      | none => []) _
    cases hw : walkLoop (pathSegments pre) (insertAll NewURLTree ins).Root with
    | none =>
      rw [terminals_below_nil ins _ hw]
      exact List.Perm.refl _
    | some sub =>
      simp only
      rw [collectPosts_eq, List.nil_append]
      have h := (entries_below_perm ins _ (pathSegments_ne_empty pre) sub hw).map Prod.snd
      rw [List.map_map] at h
      exact h
  refine ⟨hperm, ?_, ?_⟩
  · intro q p
    rw [mem_terminals, search_eq_postAt, postAt_built_iff ins _ p (pathSegments_ne_empty q)]
  intro hnone
  have hnil : (terminals ins).filter (fun e => (pathSegments pre).isPrefixOf e.1) = [] := by
    rw [List.eq_nil_iff_forall_not_mem]
    rintro ⟨s, p⟩ hmem
    rw [List.mem_filter, mem_terminals, List.isPrefixOf_iff_prefix] at hmem
    obtain ⟨⟨_, hl⟩, hpre⟩ := hmem
    obtain ⟨e, he, hseg, _⟩ := lastInserted_some ins _ p hl
    exact hnone e he (hseg ▸ hpre)
  rw [hnil] at hperm
  exact List.Perm.eq_nil hperm

theorem searchPrefix_terminals_witness :
    List.Perm
      ((insertAll NewURLTree
        [("/2024/01/15/a.html", postA), ("/2024/01/16/b.html", postB)]).SearchPrefix "/2024/01")
      [postA, postB] ∧
    (insertAll NewURLTree
        [("/2024/01/15/a.html", postA), ("/2024/01/16/b.html", postB)]).SearchPrefix "/2023" =
      [] :=
  ⟨(searchPrefix_terminals [("/2024/01/15/a.html", postA), ("/2024/01/16/b.html", postB)]
      "/2024/01").1,
   (searchPrefix_terminals [("/2024/01/15/a.html", postA), ("/2024/01/16/b.html", postB)]
      "/2023").2.2 (by decide)⟩

/-! ## Front matter: claims C12, C13, C14 -/

theorem mem_dropWhile_of_not {p : Char → Bool} (l : List Char) (c : Char) (hc : c ∈ l)
    (hp : p c = false) : c ∈ l.dropWhile p := by
  induction l with
  | nil => simp at hc
  | cons d l ih =>
    rw [List.dropWhile_cons]
    split
    · rename_i hd
      rcases List.mem_cons.1 hc with h | h
      · rw [h, hd] at hp
        exact absurd hp (by simp)
      · exact ih h
    · exact hc

theorem mem_trimSpace (l : List Char) (c : Char) (hc : c ∈ l) (hp : isSpace c = false) :
    c ∈ trimSpace l := by
  unfold trimSpace
  exact List.mem_reverse.2 (mem_dropWhile_of_not _ c
    (List.mem_reverse.2 (mem_dropWhile_of_not _ c hc hp)) hp)

theorem mem_of_mem_trimSpace (l : List Char) (c : Char) (hc : c ∈ trimSpace l) : c ∈ l := by
  unfold trimSpace at hc
  have h1 := (List.dropWhile_suffix isSpace).subset (List.mem_reverse.1 hc)
  exact (List.dropWhile_suffix isSpace).subset (List.mem_reverse.1 h1)

theorem dash_mem_of_isDelimiter (line : List Char) (h : isDelimiter line = true) :
    '-' ∈ line := by
  apply mem_of_mem_trimSpace
  unfold isDelimiter at h
  rw [beq_iff_eq.1 h]
  simp

theorem mem_of_mem_splitLines (l : List Char) (line : List Char) (c : Char)
    (hline : line ∈ splitLines l) (hc : c ∈ line) : c ∈ l := by
  induction l generalizing line with
  | nil =>
    simp [splitLines] at hline
    rw [hline] at hc
    simp at hc
  | cons d l ih =>
    unfold splitLines at hline
    by_cases hd : d = '\n'
    · rw [if_pos hd] at hline
      rcases List.mem_cons.1 hline with h | h
      · rw [h] at hc; simp at hc
      · exact List.mem_cons_of_mem _ (ih line h hc)
    · rw [if_neg hd] at hline
      cases hs : splitLines l with
      | nil =>
        rw [hs] at hline
        simp at hline
        rw [hline] at hc
        simp at hc
        rw [hc]
        simp
      | cons first others =>
        rw [hs] at hline ih
        rcases List.mem_cons.1 hline with h | h
        · rw [h] at hc
          rcases List.mem_cons.1 hc with h' | h'
          · rw [h']; simp
          · exact List.mem_cons_of_mem _ (ih first (by simp) h')
        · exact List.mem_cons_of_mem _ (ih line (List.mem_cons_of_mem _ h) hc)

/-- A document with a delimiter line is not made of white space only. -/
theorem trimSpace_ne_nil_of_delimiter (content : String) (line : List Char)
    (hline : line ∈ splitLines content.data) (hd : isDelimiter line = true) :
    trimSpace content.data ≠ [] := by
  have hmem : '-' ∈ trimSpace content.data :=
    mem_trimSpace _ '-' (mem_of_mem_splitLines _ line _ hline (dash_mem_of_isDelimiter line hd))
      (by decide)
  intro h
  rw [h] at hmem
  simp at hmem

theorem findDelimiters_cons (line : List Char) (rest : List (List Char)) (i : Nat)
    (start : Option Nat) :
    findDelimiters (line :: rest) i start =
      if isDelimiter line then
        match start with
        | none => findDelimiters rest (i + 1) (some i)
        | some st => (some st, some i)
      else findDelimiters rest (i + 1) start := rfl

theorem findDelimiters_skip (pre tail : List (List Char)) (i : Nat) (start : Option Nat)
    (hpre : ∀ l ∈ pre, isDelimiter l = false) :
    findDelimiters (pre ++ tail) i start = findDelimiters tail (i + pre.length) start := by
  induction pre generalizing i with
  | nil => rfl
  | cons l pre ih =>
    rw [List.cons_append, findDelimiters_cons, if_neg (by simp [hpre l (by simp)]),
      ih (i + 1) (fun l' hl' => hpre l' (List.mem_cons_of_mem _ hl'))]
    congr 1
    simp only [List.length_cons]
    omega

theorem findDelimiters_no_delimiter (lines : List (List Char)) (i : Nat) (start : Option Nat)
    (h : ∀ l ∈ lines, isDelimiter l = false) :
    findDelimiters lines i start = (start, none) := by
  have := findDelimiters_skip lines [] i start h
  rw [List.append_nil] at this
  rw [this]
  rfl

/-- The search finds no closing delimiter among fewer than two delimiter lines. -/
theorem findDelimiters_few (lines : List (List Char)) (i : Nat)
    (h : (lines.filter isDelimiter).length < 2) :
    (findDelimiters lines i none).2 = none := by
  induction lines generalizing i with
  | nil => rfl
  | cons l lines ih =>
    rw [findDelimiters_cons]
    by_cases hl : isDelimiter l = true
    · rw [if_pos hl]
      simp only
      rw [List.filter_cons_of_pos hl, List.length_cons] at h
      have hnone : ∀ l' ∈ lines, isDelimiter l' = false := by
        intro l' hl'
        by_contra hc
        have hmem : l' ∈ lines.filter isDelimiter := List.mem_filter.2 ⟨hl', by simpa using hc⟩
        have hpos := List.length_pos_of_mem hmem
        omega
      rw [findDelimiters_no_delimiter lines _ _ hnone]
    · rw [if_neg hl]
      rw [List.filter_cons_of_neg hl] at h
      exact ih (i + 1) h

/-- The search finds the first two delimiter lines, wherever they stand. -/
theorem findDelimiters_block (before between after : List (List Char)) (d1 d2 : List Char)
    (hbefore : ∀ l ∈ before, isDelimiter l = false) (hd1 : isDelimiter d1 = true)
    (hbetween : ∀ l ∈ between, isDelimiter l = false) (hd2 : isDelimiter d2 = true) :
    findDelimiters (before ++ d1 :: (between ++ d2 :: after)) 0 none =
      (some before.length, some (before.length + 1 + between.length)) := by
  rw [findDelimiters_skip _ _ _ _ hbefore, findDelimiters_cons, if_pos hd1]
  simp only
  rw [findDelimiters_skip _ _ _ _ hbetween, findDelimiters_cons, if_pos hd2]
  simp only [Nat.zero_add]

/-- A document with fewer than two delimiter lines comes back unchanged with an empty header
mapping, unless it is made of white space only, in which case the body is empty. -/
theorem parse_few_delimiters (yamlUnmarshal : String → Option FrontMatter) (content : String)
    (h : ((splitLines content.data).filter isDelimiter).length < 2) :
    Parse yamlUnmarshal content =
      { header := [], body := if trimSpace content.data = [] then "" else content,
        err := none } := by
  unfold Parse
  by_cases hblank : trimSpace content.data = []
  · rw [if_pos hblank, if_pos hblank]
  · rw [if_neg hblank, if_neg hblank]
    have hfind := findDelimiters_few (splitLines content.data) 0 h
    simp only
    cases hres : findDelimiters (splitLines content.data) 0 none with
    | mk st en =>
      rw [hres] at hfind
      simp only at hfind
      subst hfind
      cases st <;> rfl

/-- A document whose first two delimiter lines enclose the lines `between`: the header is
read from those lines and the body is the text after the second delimiter line. -/
theorem parse_block (yamlUnmarshal : String → Option FrontMatter) (content : String)
    (before between after : List (List Char)) (d1 d2 : List Char)
    (hsplit : splitLines content.data = before ++ d1 :: (between ++ d2 :: after))
    (hbefore : ∀ l ∈ before, isDelimiter l = false) (hd1 : isDelimiter d1 = true)
    (hbetween : ∀ l ∈ between, isDelimiter l = false) (hd2 : isDelimiter d2 = true) :
    Parse yamlUnmarshal content =
      { header :=
          match yamlUnmarshal (String.mk (joinLines between)) with
          | some d => d
          | none => [],
        body := String.mk (joinLines after), err := none } := by
  have hblank : trimSpace content.data ≠ [] :=
    trimSpace_ne_nil_of_delimiter content d1 (by rw [hsplit]; simp) hd1
  unfold Parse
  rw [if_neg hblank]
  simp only
  rw [hsplit, findDelimiters_block before between after d1 d2 hbefore hd1 hbetween hd2]
  simp only
  have hguard : ¬ (before.length ≥ before.length + 1 + between.length ∨
      before.length ≥ (before ++ d1 :: (between ++ d2 :: after)).length ∨
      before.length + 1 + between.length ≥
        (before ++ d1 :: (between ++ d2 :: after)).length) := by
    simp only [List.length_append, List.length_cons]
    omega
  rw [if_neg hguard]
  have htake : ((before ++ d1 :: (between ++ d2 :: after)).take
      (before.length + 1 + between.length)).drop (before.length + 1) = between := by
    have h1 : before ++ d1 :: (between ++ d2 :: after) =
        (before ++ [d1] ++ between) ++ (d2 :: after) := by simp
    have h2 : before.length + 1 + between.length = (before ++ [d1] ++ between).length := by
      simp only [List.length_append, List.length_cons, List.length_nil]
    rw [h1, h2, List.take_left']
    · have h3 : before.length + 1 = (before ++ [d1]).length := by simp
      rw [h3, List.drop_left']
      rfl
    · rfl
  have hdrop : (before ++ d1 :: (between ++ d2 :: after)).drop
      (before.length + 1 + between.length + 1) = after := by
    have h1 : before ++ d1 :: (between ++ d2 :: after) =
        (before ++ [d1] ++ between ++ [d2]) ++ after := by simp
    have h2 : before.length + 1 + between.length + 1 =
        (before ++ [d1] ++ between ++ [d2]).length := by
      simp only [List.length_append, List.length_cons, List.length_nil]
    rw [h1, h2, List.drop_left']
    rfl
  rw [htake, hdrop]

/-- C12 (amended): for every document that does not contain two lines whose trimmed content
is exactly `---`, `Parse` returns an empty header mapping and, as body, the document
unchanged, except that for a document made of white space only the body is the empty
string. -/
theorem parse_without_two_delimiters (yamlUnmarshal : String → Option FrontMatter)
    (content : String) (h : ((splitLines content.data).filter isDelimiter).length < 2) :
    Parse yamlUnmarshal content =
      { header := [], body := if trimSpace content.data = [] then "" else content,
        err := none } :=
  parse_few_delimiters yamlUnmarshal content h

theorem parse_without_two_delimiters_witness :
    ((splitLines docOneRule.data).filter isDelimiter).length < 2 ∧
      Parse yamlTitleOnly docOneRule = { header := [], body := docOneRule, err := none } :=
  ⟨by decide, parse_without_two_delimiters yamlTitleOnly docOneRule (by decide)⟩

/-- C12 (as stated) fails on a document made of white space only: the document ` \n` has no
delimiter line, and the body returned is the empty string, not the document. -/
theorem parse_blank_counterexample :
    ((splitLines " \n".data).filter isDelimiter).length < 2 ∧
    Parse yamlTitleOnly " \n" = { header := [], body := "", err := none } ∧
    (Parse yamlTitleOnly " \n").body ≠ " \n" := by
  decide

/-- C13 (amended): a front-matter block is recognised wherever its delimiter lines stand, at
the top of the file or below: the header mapping is what `yaml.Unmarshal` reads from the
lines between the first two lines whose trimmed content is `---` (the empty mapping when it
fails); and a document whose first line is no delimiter line is returned unchanged with an
empty header mapping when fewer than two delimiter lines follow and the document is not made
of white space only. -/
theorem parse_block_anywhere :
    (∀ (yamlUnmarshal : String → Option FrontMatter) (content : String)
        (before between after : List (List Char)) (d1 d2 : List Char),
        splitLines content.data = before ++ d1 :: (between ++ d2 :: after) →
        (∀ l ∈ before, isDelimiter l = false) → isDelimiter d1 = true →
        (∀ l ∈ between, isDelimiter l = false) → isDelimiter d2 = true →
        (Parse yamlUnmarshal content).header =
          match yamlUnmarshal (String.mk (joinLines between)) with
          | some d => d
          | none => []) ∧
    (∀ (yamlUnmarshal : String → Option FrontMatter) (content : String)
        (first : List Char) (rest : List (List Char)),
        splitLines content.data = first :: rest → isDelimiter first = false →
        (rest.filter isDelimiter).length < 2 → trimSpace content.data ≠ [] →
        Parse yamlUnmarshal content = { header := [], body := content, err := none }) := by
  constructor
  · intro y content before between after d1 d2 hsplit hbefore hd1 hbetween hd2
    rw [parse_block y content before between after d1 d2 hsplit hbefore hd1 hbetween hd2]
  · intro y content first rest hsplit hfirst hrest hblank
    have hcount : ((splitLines content.data).filter isDelimiter).length < 2 := by
      rw [hsplit, List.filter_cons_of_neg (by simp [hfirst])]
      exact hrest
    rw [parse_few_delimiters y content hcount, if_neg hblank]

theorem parse_block_anywhere_witness :
    (Parse yamlTitleOnly docBlockBelow).header = [("title", FMValue.str "x")] ∧
      Parse yamlTitleOnly docOneRule = { header := [], body := docOneRule, err := none } :=
  ⟨parse_block_anywhere.1 yamlTitleOnly docBlockBelow ["Intro".data] ["title: x".data]
      ["body".data] "---".data "---".data (by decide) (by decide) (by decide) (by decide)
      (by decide),
   parse_block_anywhere.2 yamlTitleOnly docOneRule "# Title".data
      ["".data, "text".data, "---".data, "more".data] (by decide) (by decide) (by decide)
      (by decide)⟩

/-- C13 (as stated) fails on a document whose block stands below a first paragraph: the
first line `Intro` is no delimiter line, yet the header mapping is read from between the two
`---` lines and the body returned is `body`, not the document. -/
theorem parse_block_below_counterexample :
    (splitLines docBlockBelow.data).head? = some "Intro".data ∧
    isDelimiter "Intro".data = false ∧
    Parse yamlTitleOnly docBlockBelow =
      { header := [("title", FMValue.str "x")], body := "body", err := none } ∧
    (Parse yamlTitleOnly docBlockBelow).body ≠ docBlockBelow := by
  decide

/-- C14: `Parse` never fails, its error result is `nil` for every input; and when
`yaml.Unmarshal` rejects the text between the two delimiter lines, the header mapping
returned is empty and the body returned is the text that follows the closing delimiter
line. -/
theorem parse_never_fails :
    (∀ (yamlUnmarshal : String → Option FrontMatter) (content : String),
        (Parse yamlUnmarshal content).err = none) ∧
    (∀ (yamlUnmarshal : String → Option FrontMatter) (content : String)
        (before between after : List (List Char)) (d1 d2 : List Char),
        splitLines content.data = before ++ d1 :: (between ++ d2 :: after) →
        (∀ l ∈ before, isDelimiter l = false) → isDelimiter d1 = true →
        (∀ l ∈ between, isDelimiter l = false) → isDelimiter d2 = true →
        yamlUnmarshal (String.mk (joinLines between)) = none →
        Parse yamlUnmarshal content =
          { header := [], body := String.mk (joinLines after), err := none }) := by
  constructor
  · intro y content
    unfold Parse
    split
    · rfl
    · simp only
      split
      · split <;> rfl
      · rfl
  · intro y content before between after d1 d2 hsplit hbefore hd1 hbetween hd2 hyaml
    rw [parse_block y content before between after d1 d2 hsplit hbefore hd1 hbetween hd2, hyaml]

theorem parse_never_fails_witness :
    (Parse yamlTitleOnly docMalformedHeader).err = none ∧
      Parse yamlTitleOnly docMalformedHeader = { header := [], body := "Body\n", err := none } :=
  ⟨parse_never_fails.1 yamlTitleOnly docMalformedHeader,
   parse_never_fails.2 yamlTitleOnly docMalformedHeader [] ["title: \"x".data,
      "date: [invalid".data] ["Body".data, "".data] "---".data "---".data (by decide)
      (by decide) (by decide) (by decide) (by decide) (by decide)⟩

/-! ## Loading a post: claim C11 -/

@[simp] theorem generateURL_Slug (p : Post) (cfg : Config) : (p.generateURL cfg).Slug = p.Slug := by
  unfold Post.generateURL Post.generateDateURL Post.generatePrettyURL Post.generateNoneURL
  split
  · rfl
  · split
    · rfl
    · split
      · rfl
      · split <;> rfl

@[simp] theorem generateURL_Date (p : Post) (cfg : Config) : (p.generateURL cfg).Date = p.Date := by
  unfold Post.generateURL Post.generateDateURL Post.generatePrettyURL Post.generateNoneURL
  split
  · rfl
  · split
    · rfl
    · split
      · rfl
      · split <;> rfl

@[simp] theorem generateExcerpt_Slug (p : Post) : p.generateExcerpt.Slug = p.Slug := by
  unfold Post.generateExcerpt
  split <;> rfl

@[simp] theorem generateExcerpt_Date (p : Post) : p.generateExcerpt.Date = p.Date := by
  unfold Post.generateExcerpt
  split <;> rfl

theorem matchDatePrefix_groups (l year month day rest : List Char)
    (h : matchDatePrefix l = some (year, month, day, rest)) :
    year ≠ [] ∧ month ≠ [] ∧ day ≠ [] := by
  unfold matchDatePrefix at h
  split at h
  · split at h
    · simp only [Option.some.injEq, Prod.mk.injEq] at h
      obtain ⟨rfl, rfl, rfl, _⟩ := h
      simp
    · exact absurd h (by simp)
  · exact absurd h (by simp)

theorem filenameRegexMatch_groups (filename : String) (year month day title ext : List Char)
    (h : filenameRegexMatch filename = some (year, month, day, title, ext)) :
    year ≠ [] ∧ month ≠ [] ∧ day ≠ [] ∧ title ≠ [] := by
  unfold filenameRegexMatch at h
  cases hm : matchDatePrefix filename.data with
  | none => rw [hm] at h; exact absurd h (by simp)
  | some g =>
    obtain ⟨y, m, d, rest⟩ := g
    rw [hm] at h
    simp only at h
    split at h
    · exact absurd h (by simp)
    · cases hs : splitAtLastDot rest with
      | none => rw [hs] at h; exact absurd h (by simp)
      | some te =>
        obtain ⟨t, e⟩ := te
        rw [hs] at h
        simp only at h
        split at h
        · exact absurd h (by simp)
        · rename_i ht
          simp only [Option.some.injEq, Prod.mk.injEq] at h
          obtain ⟨rfl, rfl, rfl, rfl, _⟩ := h
          obtain ⟨h1, h2, h3⟩ := matchDatePrefix_groups _ _ _ _ _ hm
          exact ⟨h1, h2, h3, ht⟩

/-- The slug and the date that `extractFromFilename` leaves on a post whose file name
matches the pattern. -/
theorem extractFromFilename_match (timeParse : String → String → Option Time) (p : Post)
    (year month day title ext : List Char)
    (h : filenameRegexMatch (filepathBase p.Path) = some (year, month, day, title, ext)) :
    (p.extractFromFilename timeParse).Slug = String.mk (stripDatePrefix title) ∧
    (p.extractFromFilename timeParse).Date =
      if p.Date.IsZero then
        match timeParse "2006-01-02" (String.mk (year ++ '-' :: month ++ '-' :: day)) with
        | some date => date
        | none => p.Date
      else p.Date := by
  obtain ⟨hy, hm, hd, _⟩ := filenameRegexMatch_groups _ _ _ _ _ _ h
  have hcond : year ≠ [] ∧ month ≠ [] ∧ day ≠ [] := ⟨hy, hm, hd⟩
  unfold Post.extractFromFilename
  dsimp only
  rw [h]
  dsimp only
  rw [if_pos hcond]
  constructor
  · rfl
  · by_cases hz : p.Date.IsZero = true
    · rw [if_pos hz, if_pos hz]
      cases timeParse "2006-01-02" (String.mk (year ++ '-' :: month ++ '-' :: day)) with
      | none => dsimp only; split <;> rfl
      | some t => dsimp only; split <;> rfl
    · rw [if_neg hz, if_neg hz]
      split <;> rfl

theorem extractFromFilename_no_match (timeParse : String → String → Option Time) (p : Post)
    (h : filenameRegexMatch (filepathBase p.Path) = none) :
    p.extractFromFilename timeParse = p := by
  unfold Post.extractFromFilename
  dsimp only
  rw [h]

theorem extractFrontMatter_Path (timeParse : String → String → Option Time) (p : Post) :
    (p.extractFrontMatter timeParse).Path = p.Path ∧
      (p.extractFrontMatter timeParse).Slug = p.Slug := by
  unfold Post.extractFrontMatter
  simp only
  repeat' split
  all_goals exact ⟨rfl, rfl⟩

theorem matchDatePrefix_of_groups (y m d rest : List Char) (h : isDateGroups y m d = true) :
    matchDatePrefix (y ++ '-' :: (m ++ '-' :: (d ++ '-' :: rest))) = some (y, m, d, rest) := by
  unfold isDateGroups at h
  simp only [Bool.and_eq_true, decide_eq_true_eq] at h
  obtain ⟨⟨⟨hy, hm⟩, hd⟩, hall⟩ := h
  rcases y with _ | ⟨y1, _ | ⟨y2, _ | ⟨y3, _ | ⟨y4, _ | ⟨y5, yt⟩⟩⟩⟩⟩ <;>
    simp only [List.length_cons, List.length_nil] at hy <;> try omega
  rcases m with _ | ⟨m1, _ | ⟨m2, _ | ⟨m3, mt⟩⟩⟩ <;>
    simp only [List.length_cons, List.length_nil] at hm <;> try omega
  rcases d with _ | ⟨d1, _ | ⟨d2, _ | ⟨d3, dt⟩⟩⟩ <;>
    simp only [List.length_cons, List.length_nil] at hd <;> try omega
  simp only [List.cons_append, List.nil_append, List.all_cons, List.all_nil, Bool.and_true,
    Bool.and_eq_true] at hall
  obtain ⟨h1, h2, h3, h4, h5, h6, h7, h8⟩ := hall
  simp [matchDatePrefix, h1, h2, h3, h4, h5, h6, h7, h8]

theorem matchDatePrefix_shape (l y m d rest : List Char)
    (h : matchDatePrefix l = some (y, m, d, rest)) :
    isDateGroups y m d = true ∧ l = y ++ '-' :: (m ++ '-' :: (d ++ '-' :: rest)) := by
  unfold matchDatePrefix at h
  split at h
  · split at h
    · rename_i hcond
      simp only [Option.some.injEq, Prod.mk.injEq] at h
      obtain ⟨rfl, rfl, rfl, rfl⟩ := h
      simp only [Bool.and_eq_true, decide_eq_true_eq] at hcond
      obtain ⟨⟨⟨⟨⟨⟨⟨⟨⟨⟨h1, h2⟩, h3⟩, h4⟩, h5⟩, h6⟩, h7⟩, h8⟩, h9⟩, h10⟩, h11⟩ := hcond
      subst h5 h8 h11
      refine ⟨?_, rfl⟩
      simp [isDateGroups, h1, h2, h3, h4, h6, h7, h9, h10]
    · exact absurd h (by simp)
  · exact absurd h (by simp)

theorem splitAtLastDot_cons (c : Char) (cs : List Char) :
    splitAtLastDot (c :: cs) =
      match splitAtLastDot cs with
      | some (a, b) => some (c :: a, b)
      | none => if c = '.' ∧ cs ≠ [] then some ([], cs) else none := rfl

theorem splitAtLastDot_no_dot (l : List Char) (h : '.' ∉ l) : splitAtLastDot l = none := by
  induction l with
  | nil => rfl
  | cons c cs ih =>
    rw [splitAtLastDot_cons, ih (fun hm => h (List.mem_cons_of_mem _ hm))]
    simp only
    rw [if_neg]
    intro hc
    exact h (by rw [hc.1]; exact List.mem_cons_self _ _)

/-- The greedy split cuts at the dot before an extension that holds no dot. -/
theorem splitAtLastDot_ext (title ext : List Char) (hext : ext ≠ []) (hdot : '.' ∉ ext) :
    splitAtLastDot (title ++ '.' :: ext) = some (title, ext) := by
  induction title with
  | nil =>
    rw [List.nil_append, splitAtLastDot_cons, splitAtLastDot_no_dot ext hdot]
    simp [hext]
  | cons c t ih =>
    rw [List.cons_append, splitAtLastDot_cons, ih]

theorem splitAtLastDot_some (title ext : List Char) (hext : ext ≠ []) :
    ∃ a b, splitAtLastDot (title ++ '.' :: ext) = some (a, b) ∧ (title ≠ [] → a ≠ []) := by
  induction title with
  | nil =>
    rw [List.nil_append, splitAtLastDot_cons]
    cases splitAtLastDot ext with
    | none => exact ⟨[], ext, by simp [hext], fun h => absurd rfl h⟩
    | some ab => exact ⟨'.' :: ab.1, ab.2, rfl, fun h => absurd rfl h⟩
  | cons c t ih =>
    obtain ⟨a, b, hab, _⟩ := ih
    rw [List.cons_append, splitAtLastDot_cons, hab]
    exact ⟨c :: a, b, rfl, fun _ => by simp⟩

theorem splitAtLastDot_shape (l a b : List Char) (h : splitAtLastDot l = some (a, b)) :
    l = a ++ '.' :: b ∧ b ≠ [] := by
  induction l generalizing a with
  | nil => exact absurd h (by simp [splitAtLastDot])
  | cons c cs ih =>
    rw [splitAtLastDot_cons] at h
    cases hs : splitAtLastDot cs with
    | some ab =>
      obtain ⟨a', b'⟩ := ab
      rw [hs] at h
      simp only [Option.some.injEq, Prod.mk.injEq] at h
      obtain ⟨rfl, rfl⟩ := h
      obtain ⟨h1, h2⟩ := ih a' hs
      exact ⟨by rw [h1]; rfl, h2⟩
    | none =>
      rw [hs] at h
      simp only at h
      split at h
      · rename_i hc
        simp only [Option.some.injEq, Prod.mk.injEq] at h
        obtain ⟨rfl, rfl⟩ := h
        exact ⟨by rw [hc.1]; rfl, hc.2⟩
      · exact absurd h (by simp)

theorem contains_newline_false (title ext : List Char) (h1 : '\n' ∉ title) (h2 : '\n' ∉ ext) :
    (title ++ '.' :: ext).contains '\n' = false := by
  rw [Bool.eq_false_iff]
  intro hc
  have hmem : '\n' ∈ title ++ '.' :: ext := by simpa using hc
  rcases List.mem_append.1 hmem with h | h
  · exact h1 h
  · rcases List.mem_cons.1 h with h | h
    · exact absurd h (by decide)
    · exact h2 h

/-- A base name `YYYY-MM-DD-<title>.<ext>` whose extension holds no dot matches the pattern
of `extractFromFilename`, with these groups. -/
theorem filenameRegexMatch_of_name (filename : String) (year month day title ext : List Char)
    (hgroups : isDateGroups year month day = true) (htitle : title ≠ []) (hext : ext ≠ [])
    (hdot : '.' ∉ ext) (hnl1 : '\n' ∉ title) (hnl2 : '\n' ∉ ext)
    (hname : filename.data =
      year ++ '-' :: (month ++ '-' :: (day ++ '-' :: (title ++ '.' :: ext)))) :
    filenameRegexMatch filename = some (year, month, day, title, ext) := by
  unfold filenameRegexMatch
  rw [hname, matchDatePrefix_of_groups year month day _ hgroups]
  simp only
  rw [contains_newline_false title ext hnl1 hnl2]
  simp only [Bool.false_eq_true, if_false]
  rw [splitAtLastDot_ext title ext hext hdot]
  simp only
  rw [if_neg htitle]

/-- A base name matches the pattern of `extractFromFilename` exactly when it is
`YYYY-MM-DD-<title>.<ext>` for some non-empty title and extension without a line feed. -/
theorem filenameRegexMatch_none_iff (filename : String) :
    filenameRegexMatch filename = none ↔
      ∀ year month day title ext : List Char, isDateGroups year month day = true →
        title ≠ [] → ext ≠ [] → '\n' ∉ title → '\n' ∉ ext →
        filename.data ≠ year ++ '-' :: (month ++ '-' :: (day ++ '-' :: (title ++ '.' :: ext))) := by
  constructor
  · intro hnone year month day title ext hgroups htitle hext hnl1 hnl2 hname
    unfold filenameRegexMatch at hnone
    rw [hname, matchDatePrefix_of_groups year month day _ hgroups] at hnone
    simp only at hnone
    rw [contains_newline_false title ext hnl1 hnl2] at hnone
    simp only [Bool.false_eq_true, if_false] at hnone
    obtain ⟨a, b, hab, ha⟩ := splitAtLastDot_some title ext hext
    rw [hab] at hnone
    simp only at hnone
    rw [if_neg (ha htitle)] at hnone
    exact absurd hnone (by simp)
  · intro hall
    cases hres : filenameRegexMatch filename with
    | none => rfl
    | some g =>
      exfalso
      obtain ⟨year, month, day, title, ext⟩ := g
      unfold filenameRegexMatch at hres
      cases hm : matchDatePrefix filename.data with
      | none => rw [hm] at hres; exact absurd hres (by simp)
      | some q =>
        obtain ⟨y, m, d, rest⟩ := q
        rw [hm] at hres
        simp only at hres
        split at hres
        · exact absurd hres (by simp)
        · rename_i hnl
          cases hs : splitAtLastDot rest with
          | none => rw [hs] at hres; exact absurd hres (by simp)
          | some te =>
            obtain ⟨t, e⟩ := te
            rw [hs] at hres
            simp only at hres
            split at hres
            · exact absurd hres (by simp)
            · rename_i ht
              obtain ⟨hgroups, hshape⟩ := matchDatePrefix_shape _ _ _ _ _ hm
              obtain ⟨hrest, he⟩ := splitAtLastDot_shape _ _ _ hs
              have hnot : '\n' ∉ rest := by
                intro hmem
                apply hnl
                simpa using hmem
              rw [hrest] at hshape hnot
              exact hall y m d t e hgroups ht he
                (fun h => hnot (List.mem_append_left _ h))
                (fun h => hnot (List.mem_append_right _ (List.mem_cons_of_mem _ h))) hshape

theorem extractFrontMatter_FrontMatter (timeParse : String → String → Option Time) (p : Post) :
    (p.extractFrontMatter timeParse).FrontMatter = p.FrontMatter := by
  unfold Post.extractFrontMatter
  simp only
  repeat' split
  all_goals rfl

/-- The date that `extractFrontMatter` leaves on a post: the `date` entry of the front matter
when it is a time, the time that `time.Parse` reads from it when it is a string (first with
the layout of date and time of day, then with the layout of the date alone), and the date
that the post had otherwise. -/
theorem extractFrontMatter_Date (timeParse : String → String → Option Time) (p : Post) :
    (p.extractFrontMatter timeParse).Date =
      match fmLookup p.FrontMatter "date" with
      | some (FMValue.time date) => date
      | some (FMValue.str dateStr) =>
        match timeParse "2006-01-02 15:04:05" dateStr with
        | some parsed => parsed
        | none =>
          match timeParse "2006-01-02" dateStr with
          | some parsed => parsed
          | none => p.Date
      | _ => p.Date := by
  unfold Post.extractFrontMatter
  simp only
  cases h1 : fmString p.FrontMatter "title" <;> cases h2 : fmString p.FrontMatter "layout" <;>
    simp only <;>
    cases h3 : fmLookup p.FrontMatter "date" with
    | none =>
      simp only
      repeat' split
      all_goals rfl
    | some v =>
      cases v with
      | time d =>
        simp only
        repeat' split
        all_goals rfl
      | other =>
        simp only
        repeat' split
        all_goals rfl
      | str ds =>
        simp only
        cases timeParse "2006-01-02 15:04:05" ds with
        | some t =>
          simp only
          repeat' split
          all_goals rfl
        | none =>
          simp only
          cases timeParse "2006-01-02" ds with
          | some t =>
            simp only
            repeat' split
            all_goals rfl
          | none =>
            simp only
            repeat' split
            all_goals rfl

theorem extractFromFilename_FrontMatter (timeParse : String → String → Option Time)
    (p : Post) : (p.extractFromFilename timeParse).FrontMatter = p.FrontMatter := by
  unfold Post.extractFromFilename
  dsimp only
  repeat' split
  all_goals rfl

@[simp] theorem generateURL_FrontMatter (p : Post) (cfg : Config) :
    (p.generateURL cfg).FrontMatter = p.FrontMatter := by
  unfold Post.generateURL Post.generateDateURL Post.generatePrettyURL Post.generateNoneURL
  repeat' split
  all_goals rfl

@[simp] theorem generateExcerpt_FrontMatter (p : Post) :
    p.generateExcerpt.FrontMatter = p.FrontMatter := by
  unfold Post.generateExcerpt
  split <;> rfl

theorem parse_err_none (yamlUnmarshal : String → Option FrontMatter) (content : String) :
    (Parse yamlUnmarshal content).err = none := by
  unfold Parse
  simp only
  repeat' split
  all_goals rfl

/-- The post that `NewPost` returns, in stages: the post `p` after `extractFrontMatter` has the
path of the file, no slug, the front matter that `Parse` reads from the file and the date
of that front matter; `extractFromFilename`, `generateURL` and `generateExcerpt` follow. -/
theorem newPost_stages (yamlUnmarshal : String → Option FrontMatter)
    (timeParse : String → String → Option Time) (path content : String) (cfg : Config) :
    ∃ p : Post, p.Path = path ∧ p.Slug = "" ∧
      p.FrontMatter = (Parse yamlUnmarshal content).header ∧
      p.Date =
        (match fmLookup p.FrontMatter "date" with
        | some (FMValue.time date) => date
        | some (FMValue.str dateStr) =>
          match timeParse "2006-01-02 15:04:05" dateStr with
          | some parsed => parsed
          | none =>
            match timeParse "2006-01-02" dateStr with
            | some parsed => parsed
            | none => {}
        | _ => {}) ∧
      NewPost yamlUnmarshal timeParse path (some content) cfg =
        some ((p.extractFromFilename timeParse).generateURL cfg).generateExcerpt := by
  have hfm : (match (Parse yamlUnmarshal content).err with
      | some _ => ([] : FrontMatter)
      | none => (Parse yamlUnmarshal content).header) = (Parse yamlUnmarshal content).header := by
    rw [parse_err_none]
  refine ⟨({ Path := path, Content := (Parse yamlUnmarshal content).body,
             FrontMatter := (Parse yamlUnmarshal content).header,
             ExcerptSeparator := "\n\n" } : Post).extractFrontMatter timeParse,
    ?_, ?_, ?_, ?_, ?_⟩
  · exact (extractFrontMatter_Path timeParse _).1
  · exact (extractFrontMatter_Path timeParse _).2
  · exact extractFrontMatter_FrontMatter timeParse _
  · rw [extractFrontMatter_Date, extractFrontMatter_FrontMatter]
  · unfold NewPost
    simp only
    rw [hfm]

theorem stripDatePrefix_of_groups (y m d rest : List Char) (h : isDateGroups y m d = true) :
    stripDatePrefix (y ++ '-' :: (m ++ '-' :: (d ++ '-' :: rest))) = rest := by
  unfold stripDatePrefix
  rw [matchDatePrefix_of_groups y m d rest h]

theorem matchDatePrefix_none_iff (title : List Char) :
    matchDatePrefix title = none ↔
      ∀ y m d rest : List Char, isDateGroups y m d = true →
        title ≠ y ++ '-' :: (m ++ '-' :: (d ++ '-' :: rest)) := by
  constructor
  · intro hnone y m d rest hg ht
    rw [ht, matchDatePrefix_of_groups y m d rest hg] at hnone
    exact absurd hnone (by simp)
  · intro hall
    cases hm : matchDatePrefix title with
    | none => rfl
    | some g =>
      obtain ⟨y, m, d, rest⟩ := g
      obtain ⟨hg, ht⟩ := matchDatePrefix_shape _ _ _ _ _ hm
      exact absurd ht (hall y m d rest hg)

/-- C11 (amended). For every post that `NewPost` returns:
when the base name of the file is `YYYY-MM-DD-<title>.<ext>` (four, two and two digits, a
non-empty title, a non-empty extension without a dot, no line feed), the slug is `<title>`
without its leading `YYYY-MM-DD-` when `<title>` begins with one, and `<title>` itself, hence
non-empty, when it does not; and the date is non-zero when `time.Parse` reads `YYYY-MM-DD`
as a time other than the zero time. The same holds of the groups that the pattern of
`extractFromFilename` finds in any name that it matches. When the base name is of the form
`YYYY-MM-DD-<title>.<ext>` for no title and extension, the slug is empty and the date is
that of the front matter: zero when the front matter has no `date` or one that is neither a
time nor a string, the `date` when it is a time, and for a string the time that `time.Parse`
reads from it (with the time of day, else the date alone), zero when it reads none. The
front matter of the post is the header that `Parse` reads from the file. -/
theorem newPost_slug_and_date (yamlUnmarshal : String → Option FrontMatter)
    (timeParse : String → String → Option Time) (path : String) (file : Option String)
    (cfg : Config) (post : Post)
    (h : NewPost yamlUnmarshal timeParse path file cfg = some post) :
    (∀ year month day title ext : List Char, isDateGroups year month day = true →
        title ≠ [] → ext ≠ [] → '.' ∉ ext → '\n' ∉ title → '\n' ∉ ext →
        (filepathBase path).data =
          year ++ '-' :: (month ++ '-' :: (day ++ '-' :: (title ++ '.' :: ext))) →
        (∀ y m d rest : List Char, isDateGroups y m d = true →
          title = y ++ '-' :: (m ++ '-' :: (d ++ '-' :: rest)) → post.Slug = String.mk rest) ∧
        ((∀ y m d rest : List Char, isDateGroups y m d = true →
          title ≠ y ++ '-' :: (m ++ '-' :: (d ++ '-' :: rest))) →
          post.Slug = String.mk title ∧ post.Slug ≠ "") ∧
        (∀ t : Time,
          timeParse "2006-01-02" (String.mk (year ++ '-' :: month ++ '-' :: day)) = some t →
          t.IsZero = false → post.Date.IsZero = false)) ∧
    (∀ year month day title ext : List Char,
        filenameRegexMatch (filepathBase path) = some (year, month, day, title, ext) →
        post.Slug = String.mk (stripDatePrefix title) ∧
        (matchDatePrefix title = none → post.Slug = String.mk title ∧ post.Slug ≠ "") ∧
        (∀ t : Time,
          timeParse "2006-01-02" (String.mk (year ++ '-' :: month ++ '-' :: day)) = some t →
          t.IsZero = false → post.Date.IsZero = false)) ∧
    ((∀ year month day title ext : List Char, isDateGroups year month day = true →
        title ≠ [] → ext ≠ [] → '\n' ∉ title → '\n' ∉ ext →
        (filepathBase path).data ≠
          year ++ '-' :: (month ++ '-' :: (day ++ '-' :: (title ++ '.' :: ext)))) →
      post.Slug = "" ∧
      (fmLookup post.FrontMatter "date" = none → post.Date.IsZero = true) ∧
      (fmLookup post.FrontMatter "date" = some FMValue.other → post.Date.IsZero = true) ∧
      (∀ date : Time, fmLookup post.FrontMatter "date" = some (FMValue.time date) →
        post.Date = date) ∧
      (∀ dateStr : String, fmLookup post.FrontMatter "date" = some (FMValue.str dateStr) →
        (∀ t : Time, timeParse "2006-01-02 15:04:05" dateStr = some t → post.Date = t) ∧
        (∀ t : Time, timeParse "2006-01-02 15:04:05" dateStr = none →
          timeParse "2006-01-02" dateStr = some t → post.Date = t) ∧
        (timeParse "2006-01-02 15:04:05" dateStr = none →
          timeParse "2006-01-02" dateStr = none → post.Date.IsZero = true))) ∧
    (filenameRegexMatch (filepathBase path) = none → post.Slug = "") ∧
    (∀ content : String, file = some content →
      post.FrontMatter = (Parse yamlUnmarshal content).header) := by
  cases file with
  | none => exact absurd h (by simp [NewPost])
  | some content =>
    obtain ⟨p, hpath, hslug, hfm, hdate, hnew⟩ :=
      newPost_stages yamlUnmarshal timeParse path content cfg
    rw [hnew] at h
    simp only [Option.some.injEq] at h
    subst h
    simp only [generateExcerpt_Slug, generateURL_Slug, generateExcerpt_Date, generateURL_Date,
      generateExcerpt_FrontMatter, generateURL_FrontMatter, extractFromFilename_FrontMatter]
    have hregex : ∀ year month day title ext : List Char,
        filenameRegexMatch (filepathBase path) = some (year, month, day, title, ext) →
        (p.extractFromFilename timeParse).Slug = String.mk (stripDatePrefix title) ∧
        title ≠ [] ∧
        (∀ t : Time,
          timeParse "2006-01-02" (String.mk (year ++ '-' :: month ++ '-' :: day)) = some t →
          t.IsZero = false → (p.extractFromFilename timeParse).Date.IsZero = false) := by
      intro year month day title ext hmatch
      rw [← hpath] at hmatch
      obtain ⟨hS, hD⟩ := extractFromFilename_match timeParse p year month day title ext hmatch
      obtain ⟨_, _, _, htitle⟩ := filenameRegexMatch_groups _ _ _ _ _ _ hmatch
      refine ⟨hS, htitle, ?_⟩
      intro t ht htz
      rw [hD, ht]
      split
      · exact htz
      · rename_i hz
        simpa using hz
    have hnomatch : filenameRegexMatch (filepathBase path) = none →
        p.extractFromFilename timeParse = p := by
      intro hno
      rw [← hpath] at hno
      exact extractFromFilename_no_match timeParse p hno
    refine ⟨?_, ?_, ?_, ?_, ?_⟩
    · intro year month day title ext hgroups htitle hext hdot hnl1 hnl2 hname
      obtain ⟨hS, _, hD⟩ := hregex year month day title ext
        (filenameRegexMatch_of_name _ year month day title ext hgroups htitle hext hdot hnl1
          hnl2 hname)
      refine ⟨?_, ?_, hD⟩
      · intro y m d rest hg ht
        rw [hS, ht, stripDatePrefix_of_groups y m d rest hg]
      · intro hno
        have hnone := (matchDatePrefix_none_iff title).2 hno
        have hstrip : stripDatePrefix title = title := by
          unfold stripDatePrefix
          rw [hnone]
        rw [hS, hstrip]
        exact ⟨rfl, string_mk_ne_empty htitle⟩
    · intro year month day title ext hmatch
      obtain ⟨hS, htitle, hD⟩ := hregex year month day title ext hmatch
      refine ⟨hS, ?_, hD⟩
      intro hnone
      have hstrip : stripDatePrefix title = title := by
        unfold stripDatePrefix
        rw [hnone]
      rw [hS, hstrip]
      exact ⟨rfl, string_mk_ne_empty htitle⟩
    · intro hno
      rw [hnomatch ((filenameRegexMatch_none_iff _).2 hno)]
      refine ⟨hslug, ?_, ?_, ?_, ?_⟩
      · intro hl
        rw [hdate, hl]
        rfl
      · intro hl
        rw [hdate, hl]
        rfl
      · intro date hl
        rw [hdate, hl]
      · intro dateStr hl
        refine ⟨?_, ?_, ?_⟩
        · intro t h1
          rw [hdate, hl]
          simp only
          rw [h1]
        · intro t h1 h2
          rw [hdate, hl]
          simp only
          rw [h1]
          simp only
          rw [h2]
        · intro h1 h2
          rw [hdate, hl]
          simp only
          rw [h1]
          simp only
          rw [h2]
          rfl
    · intro hno
      rw [hnomatch hno]
      exact hslug
    · intro content' hc
      simp only [Option.some.injEq] at hc
      rw [← hc]
      exact hfm

theorem newPost_slug_and_date_witness :
    NewPost yamlTitleOnly parseDateOnly "_posts/2024-01-15-hello-world.md"
        (some "---\ntitle: hi\n---\nBody text\n\nMore") defaultConfig = some postHelloLoaded ∧
      postHelloLoaded.Slug = "hello-world" ∧ postHelloLoaded.Date.IsZero = false ∧
      postNotes.Slug = "notes" ∧ postUndated.Slug = "" ∧ postUndated.Date.IsZero = true :=
  ⟨by decide,
   ((newPost_slug_and_date yamlTitleOnly parseDateOnly "_posts/2024-01-15-hello-world.md"
      (some "---\ntitle: hi\n---\nBody text\n\nMore") defaultConfig postHelloLoaded
      (by decide)).1 "2024".data "01".data "15".data "hello-world".data "md".data
      (by decide) (by decide) (by decide) (by decide) (by decide) (by decide)
      (by decide)).2.1 ((matchDatePrefix_none_iff "hello-world".data).1 (by decide)) |>.1,
   ((newPost_slug_and_date yamlTitleOnly parseDateOnly "_posts/2024-01-15-hello-world.md"
      (some "---\ntitle: hi\n---\nBody text\n\nMore") defaultConfig postHelloLoaded
      (by decide)).1 "2024".data "01".data "15".data "hello-world".data "md".data
      (by decide) (by decide) (by decide) (by decide) (by decide) (by decide)
      (by decide)).2.2 jan15 (by decide) (by decide),
   ((newPost_slug_and_date yamlTitleOnly parseDateOnly "_posts/2024-01-15-2024-01-16-notes.md"
      (some "Hello\n") defaultConfig postNotes
      (by decide)).1 "2024".data "01".data "15".data "2024-01-16-notes".data "md".data
      (by decide) (by decide) (by decide) (by decide) (by decide) (by decide)
      (by decide)).1 "2024".data "01".data "16".data "notes".data (by decide) (by decide),
   ((newPost_slug_and_date yamlTitleOnly parseDateOnly "_posts/hello.md" (some "Hello\n")
      defaultConfig postUndated (by decide)).2.2.1
      ((filenameRegexMatch_none_iff (filepathBase "_posts/hello.md")).1 (by decide))).1,
   ((newPost_slug_and_date yamlTitleOnly parseDateOnly "_posts/hello.md" (some "Hello\n")
      defaultConfig postUndated (by decide)).2.2.1
      ((filenameRegexMatch_none_iff (filepathBase "_posts/hello.md")).1 (by decide))).2.1
      (by decide)⟩

/-- C11 (as stated) fails for a source file whose name carries no date: `NewPost` returns the
post of `_posts/hello.md` (no front matter) with the zero date and the empty slug. -/
theorem newPost_undated_counterexample :
    (NewPost yamlTitleOnly parseDateOnly "_posts/hello.md" (some "Hello\n") defaultConfig).map
      (fun post => (post.Date.IsZero, post.Slug)) = some (true, "") := by
  decide

/-! ## Markdown preprocessing: claims C17, C18 -/

theorem dead_list_branch (a b c : Bool) (x line : List Char) :
    (if (a || b || c) = true then (if (!a && !b && !c) = true then x else line) else line) =
      line := by
  cases a <;> cases b <;> cases c <;> rfl

/-- The heading step is the only step of the loop body that changes a line. -/
theorem preprocessPlainLine_eq (line : List Char) :
    preprocessPlainLine line =
      if startsWith line "#" = true ∧ containsChars " ".data line = false then
        replaceFirst "#".data "# ".data line
      else line := by
  unfold preprocessPlainLine fixMarkdownLinks
  simp only [ite_self, dead_list_branch]
  by_cases h1 : startsWith line "#" = true
  · by_cases h2 : containsChars " ".data line = true
    · simp [h1, h2]
    · simp [h1, h2]
  · simp [h1]

theorem startsWith_hash (line : List Char) (h : startsWith line "#" = true) :
    ∃ t, line = '#' :: t := by
  cases line with
  | nil => exact absurd h (by decide)
  | cons c t =>
    have h' : List.isPrefixOf ['#'] (c :: t) = true := h
    have hc : ('#' == c) = true := by simpa [List.isPrefixOf] using h'
    exact ⟨t, by rw [← beq_iff_eq.1 hc]⟩

theorem replaceFirst_hash (t : List Char) :
    replaceFirst "#".data "# ".data ('#' :: t) = '#' :: ' ' :: t := by
  have hcut : cutOn "#".data ('#' :: t) = some ([], t) := by
    show cutOn ['#'] ('#' :: t) = some ([], t)
    simp [cutOn, List.isPrefixOf]
  unfold replaceFirst
  rw [hcut]
  rfl

theorem isFence_cons_ne (c : Char) (t : List Char) (h : c ≠ '`') : isFence (c :: t) = false := by
  show List.isPrefixOf ['`', '`', '`'] (c :: t) = false
  simp [List.isPrefixOf, Ne.symm h]

/-- The loop body leaves a line that is no fence a line that is no fence, and puts no line
feed into it. -/
theorem preprocessPlainLine_props (line : List Char) (hfence : isFence line = false) :
    isFence (preprocessPlainLine line) = false ∧
      ('\n' ∉ line → '\n' ∉ preprocessPlainLine line) := by
  rw [preprocessPlainLine_eq]
  split
  · rename_i h
    obtain ⟨t, rfl⟩ := startsWith_hash line h.1
    rw [replaceFirst_hash]
    refine ⟨isFence_cons_ne _ _ (by decide), ?_⟩
    intro hn hmem
    apply hn
    rcases List.mem_cons.1 hmem with h1 | h1
    · exact absurd h1 (by decide)
    · rcases List.mem_cons.1 h1 with h2 | h2
      · exact absurd h2 (by decide)
      · exact List.mem_cons_of_mem _ h2
  · exact ⟨hfence, fun hn => hn⟩

theorem preprocessLoop_cons (line : List Char) (rest : List (List Char)) (inCodeBlock : Bool)
    (processedLines : List (List Char)) :
    preprocessLoop (line :: rest) inCodeBlock processedLines =
      if (startsWith line "```" && !inCodeBlock) = true then
        preprocessLoop rest true (processedLines ++ [line])
      else if (startsWith line "```" && inCodeBlock) = true then
        preprocessLoop rest false (processedLines ++ [line])
      else if inCodeBlock = true then
        preprocessLoop rest inCodeBlock (processedLines ++ [line])
      else
        preprocessLoop rest inCodeBlock (processedLines ++ [preprocessPlainLine line]) := rfl

/-- The loop of `preprocessMarkdown` appends one line for each line read, a fence for a fence
and a line that is no fence for a line that is no fence, and ends inside a code block
exactly when it has changed state an odd number of times. -/
theorem preprocessLoop_spec (lines : List (List Char)) :
    ∀ (inCodeBlock : Bool) (processedLines : List (List Char)),
      ∃ out, (preprocessLoop lines inCodeBlock processedLines).1 = processedLines ++ out ∧
        (preprocessLoop lines inCodeBlock processedLines).2 =
          (inCodeBlock != decide (fenceCount lines % 2 = 1)) ∧
        out.map isFence = lines.map isFence ∧
        ((∀ l ∈ lines, '\n' ∉ l) → ∀ l ∈ out, '\n' ∉ l) := by
  induction lines with
  | nil =>
    intro b acc
    refine ⟨[], by simp [preprocessLoop], ?_, rfl, by simp⟩
    cases b <;> rfl
  | cons line rest ih =>
    intro b acc
    rw [preprocessLoop_cons]
    by_cases hf : isFence line = true
    · have hf' : startsWith line "```" = true := hf
      have hcount : fenceCount (line :: rest) = fenceCount rest + 1 := by
        unfold fenceCount
        rw [List.countP_cons_of_pos _ _ hf]
      cases b with
      | false =>
        obtain ⟨out, h1, h2, h3, h4⟩ := ih true (acc ++ [line])
        simp only [hf', Bool.not_false, Bool.and_self, if_true]
        refine ⟨line :: out, by rw [h1]; simp, ?_, by simp [h3], ?_⟩
        · rw [h2, hcount]
          by_cases hp : fenceCount rest % 2 = 1
          · have : ¬ ((fenceCount rest + 1) % 2 = 1) := by omega
            simp [hp, this]
          · have : (fenceCount rest + 1) % 2 = 1 := by omega
            simp [hp, this]
        · intro hall l hl
          rcases List.mem_cons.1 hl with h | h
          · rw [h]; exact hall line (by simp)
          · exact h4 (fun l' hl' => hall l' (List.mem_cons_of_mem _ hl')) l h
      | true =>
        obtain ⟨out, h1, h2, h3, h4⟩ := ih false (acc ++ [line])
        simp only [hf', Bool.not_true, Bool.and_false, Bool.false_eq_true, if_false,
          Bool.and_self, if_true]
        refine ⟨line :: out, by rw [h1]; simp, ?_, by simp [h3], ?_⟩
        · rw [h2, hcount]
          by_cases hp : fenceCount rest % 2 = 1
          · have : ¬ ((fenceCount rest + 1) % 2 = 1) := by omega
            simp [hp, this]
          · have : (fenceCount rest + 1) % 2 = 1 := by omega
            simp [hp, this]
        · intro hall l hl
          rcases List.mem_cons.1 hl with h | h
          · rw [h]; exact hall line (by simp)
          · exact h4 (fun l' hl' => hall l' (List.mem_cons_of_mem _ hl')) l h
    · have hf0 : isFence line = false := by simpa using hf
      have hf' : startsWith line "```" = false := hf0
      have hcount : fenceCount (line :: rest) = fenceCount rest := by
        unfold fenceCount
        rw [List.countP_cons_of_neg _ _ hf]
      simp only [hf', Bool.false_and, Bool.false_eq_true, if_false]
      cases b with
      | true =>
        obtain ⟨out, h1, h2, h3, h4⟩ := ih true (acc ++ [line])
        simp only [if_true]
        refine ⟨line :: out, by rw [h1]; simp, by rw [h2, hcount], by simp [h3], ?_⟩
        intro hall l hl
        rcases List.mem_cons.1 hl with h | h
        · rw [h]; exact hall line (by simp)
        · exact h4 (fun l' hl' => hall l' (List.mem_cons_of_mem _ hl')) l h
      | false =>
        obtain ⟨out, h1, h2, h3, h4⟩ := ih false (acc ++ [preprocessPlainLine line])
        obtain ⟨hp1, hp2⟩ := preprocessPlainLine_props line hf0
        simp only [Bool.false_eq_true, if_false]
        refine ⟨preprocessPlainLine line :: out, by rw [h1]; simp, by rw [h2, hcount],
          by simp [h3, hp1, hf0], ?_⟩
        intro hall l hl
        rcases List.mem_cons.1 hl with h | h
        · rw [h]; exact hp2 (hall line (by simp))
        · exact h4 (fun l' hl' => hall l' (List.mem_cons_of_mem _ hl')) l h

theorem splitLines_cons (c : Char) (cs : List Char) :
    splitLines (c :: cs) =
      if c = '\n' then [] :: splitLines cs
      else
        match splitLines cs with
        | [] => [[c]]
        | l :: ls => (c :: l) :: ls := rfl

theorem splitLines_ne_nil (s : List Char) : splitLines s ≠ [] := by
  cases s with
  | nil => simp [splitLines]
  | cons c cs =>
    rw [splitLines_cons]
    split
    · simp
    · split <;> simp

theorem splitLines_no_newline (s : List Char) : ∀ l ∈ splitLines s, '\n' ∉ l := by
  induction s with
  | nil => simp [splitLines]
  | cons c cs ih =>
    intro l hl
    rw [splitLines_cons] at hl
    by_cases hc : c = '\n'
    · rw [if_pos hc] at hl
      rcases List.mem_cons.1 hl with h | h
      · rw [h]; simp
      · exact ih l h
    · rw [if_neg hc] at hl
      cases hs : splitLines cs with
      | nil => exact absurd hs (splitLines_ne_nil cs)
      | cons first others =>
        rw [hs] at hl ih
        rcases List.mem_cons.1 hl with h | h
        · rw [h]
          intro hmem
          rcases List.mem_cons.1 hmem with h' | h'
          · exact hc h'.symm
          · exact ih first (by simp) h'
        · exact ih l (List.mem_cons_of_mem _ h)

theorem splitLines_single (l : List Char) (h : '\n' ∉ l) : splitLines l = [l] := by
  induction l with
  | nil => rfl
  | cons c l ih =>
    have hc : c ≠ '\n' := fun hc => h (by rw [hc]; simp)
    rw [splitLines_cons, if_neg hc, ih (fun hm => h (List.mem_cons_of_mem _ hm))]

theorem splitLines_append_newline (l s : List Char) (h : '\n' ∉ l) :
    splitLines (l ++ '\n' :: s) = l :: splitLines s := by
  induction l with
  | nil =>
    rw [List.nil_append, splitLines_cons, if_pos rfl]
  | cons c l ih =>
    have hc : c ≠ '\n' := fun hc => h (by rw [hc]; simp)
    rw [List.cons_append, splitLines_cons, if_neg hc,
      ih (fun hm => h (List.mem_cons_of_mem _ hm))]

/-- Splitting at the line feeds undoes joining with line feeds. -/
theorem splitLines_joinLines (lines : List (List Char)) (hne : lines ≠ [])
    (h : ∀ l ∈ lines, '\n' ∉ l) : splitLines (joinLines lines) = lines := by
  induction lines with
  | nil => exact absurd rfl hne
  | cons l rest ih =>
    cases rest with
    | nil => exact splitLines_single l (h l (by simp))
    | cons m rest =>
      show splitLines (l ++ '\n' :: joinLines (m :: rest)) = _
      rw [splitLines_append_newline _ _ (h l (by simp)),
        ih (by simp) (fun l' hl' => h l' (List.mem_cons_of_mem _ hl'))]

theorem countP_of_map_eq (xs ys : List (List Char)) (h : xs.map isFence = ys.map isFence) :
    fenceCount xs = fenceCount ys := by
  unfold fenceCount
  have hx : xs.countP isFence = (xs.map isFence).countP id := by
    rw [List.countP_map]; rfl
  have hy : ys.countP isFence = (ys.map isFence).countP id := by
    rw [List.countP_map]; rfl
  rw [hx, hy, h]

/-- The lines of the output of `preprocessMarkdown`: one for each line of the input, a fence
for a fence, and one closing fence more when the number of fences of the input is odd. -/
theorem preprocessMarkdown_lines (content : String) :
    ∃ out : List (List Char),
      out.length = (splitLines (normalizeNewlines content).data).length ∧
      out.map isFence = (splitLines (normalizeNewlines content).data).map isFence ∧
      splitLines (preprocessMarkdown content).data =
        out ++ (if fenceCount (splitLines (normalizeNewlines content).data) % 2 = 1 then
          ["```".data] else []) := by
  obtain ⟨out, h1, h2, h3, h4⟩ :=
    preprocessLoop_spec (splitLines (normalizeNewlines content).data) false []
  have hnl : ∀ l ∈ out, '\n' ∉ l := h4 (splitLines_no_newline _)
  have hlen : out.length = (splitLines (normalizeNewlines content).data).length := by
    have := congrArg List.length h3
    simpa using this
  have hout : out ≠ [] := by
    intro h
    rw [h] at hlen
    exact splitLines_ne_nil _ (List.length_eq_zero.1 hlen.symm)
  refine ⟨out, hlen, h3, ?_⟩
  unfold preprocessMarkdown
  simp only
  cases hres : preprocessLoop (splitLines (normalizeNewlines content).data) false [] with
  | mk processed inCode =>
    rw [hres] at h1 h2
    simp only [List.nil_append] at h1
    simp only at h2
    subst h1
    simp only
    by_cases hodd : fenceCount (splitLines (normalizeNewlines content).data) % 2 = 1
    · have hin : inCode = true := by rw [h2]; simp [hodd]
      rw [hin, if_pos hodd]
      simp only [if_true]
      apply splitLines_joinLines
      · simp
      · intro l hl
        rcases List.mem_append.1 hl with h | h
        · exact hnl l h
        · simp only [List.mem_singleton] at h
          rw [h]
          decide
    · have hin : inCode = false := by rw [h2]; simp [hodd]
      rw [hin, if_neg hodd, List.append_nil]
      simp only [Bool.false_eq_true, if_false]
      exact splitLines_joinLines _ hout hnl

/-- C18: the output of `preprocessMarkdown` has an even number of lines beginning with three
backquotes; it has one line for each line of the input (line endings normalised), a fence
for a fence; a closing fence line is appended at the end exactly when the input has an odd
number of fence lines, and no line is added otherwise. -/
theorem preprocess_closes_fences (content : String) :
    Even (fenceCount (splitLines (preprocessMarkdown content).data)) ∧
    ((splitLines (preprocessMarkdown content).data).take
        (splitLines (normalizeNewlines content).data).length).map isFence =
      (splitLines (normalizeNewlines content).data).map isFence ∧
    (fenceCount (splitLines (normalizeNewlines content).data) % 2 = 1 →
      splitLines (preprocessMarkdown content).data =
        (splitLines (preprocessMarkdown content).data).take
          (splitLines (normalizeNewlines content).data).length ++ ["```".data]) ∧
    (fenceCount (splitLines (normalizeNewlines content).data) % 2 = 0 →
      (splitLines (preprocessMarkdown content).data).length =
        (splitLines (normalizeNewlines content).data).length) := by
  obtain ⟨out, hlen, hmap, hout⟩ := preprocessMarkdown_lines content
  have hcount := countP_of_map_eq _ _ hmap
  have htake : (splitLines (preprocessMarkdown content).data).take
      (splitLines (normalizeNewlines content).data).length = out := by
    rw [hout, ← hlen, List.take_left']
    rfl
  rw [htake]
  refine ⟨?_, hmap, ?_, ?_⟩
  · rw [hout]
    unfold fenceCount at *
    rw [List.countP_append, hcount]
    by_cases hodd : (splitLines (normalizeNewlines content).data).countP isFence % 2 = 1
    · rw [if_pos hodd]
      have h1 : List.countP isFence ["```".data] = 1 := by decide
      rw [h1, Nat.even_iff]
      omega
    · rw [if_neg hodd]
      simp only [List.countP_nil, Nat.add_zero]
      rw [Nat.even_iff]
      omega
  · intro hodd
    rw [hout, if_pos hodd]
  · intro heven
    have hodd : ¬ (fenceCount (splitLines (normalizeNewlines content).data) % 2 = 1) := by omega
    rw [hout, if_neg hodd, List.append_nil, hlen]

theorem preprocess_closes_fences_witness :
    fenceCount (splitLines (normalizeNewlines docOpenFence).data) % 2 = 1 ∧
      preprocessMarkdown docOpenFence = "intro\n```go\ncode\n```" ∧
      splitLines (preprocessMarkdown docOpenFence).data =
        (splitLines (preprocessMarkdown docOpenFence).data).take
          (splitLines (normalizeNewlines docOpenFence).data).length ++ ["```".data] :=
  ⟨by decide, by decide, (preprocess_closes_fences docOpenFence).2.2.1 (by decide)⟩

/-- C17 (the code at the failing input): the heading step adds a space only to a line that
holds no space at all, so the line `#Hello world`, outside every code block, comes out as it
went in, its `#` followed by `H`. -/
theorem preprocess_heading_unchanged :
    preprocessMarkdown "#Hello world" = "#Hello world" ∧
      preprocessPlainLine "#Hello world".data = "#Hello world".data ∧
      preprocessMarkdown "#Hello" = "# Hello" := by
  decide

/-! ## HTML post-processing: claims C15, C16 -/

/-- C15 (the code at the failing input): the removal of `javascript:` runs last and joins the
text on its two sides, so `<scrjavascript:ipt>` passes the replacement of `<script`
untouched and comes out as `<script>`. -/
theorem postprocessHTML_script_survives :
    postprocessHTML "<scrjavascript:ipt>alert(1)</script>" =
        "<script>alert(1)&lt;/script&gt;" ∧
      contains (postprocessHTML "<scrjavascript:ipt>alert(1)</script>") "<script" = true := by
  decide

/-- C16 (the code at the failing input): the removal of `javascript:` makes one pass and
joins the text on its two sides, so `javajavascript:script:` comes out as `javascript:`. -/
theorem postprocessHTML_javascript_survives :
    postprocessHTML "<a href=\"javajavascript:script:alert(1)\">x</a>" =
        "<a href=\"javascript:alert(1)\">x</a>" ∧
      contains (postprocessHTML "<a href=\"javajavascript:script:alert(1)\">x</a>")
        "javascript:" = true := by
  decide

/-! ## Validation: claim C19 -/

/-- C19 (the code at the failing input): the heading test looks for a space anywhere in the
line, so the line `#Hello world`, whose `#` is followed by `H`, raises no error and the
document is reported valid. -/
theorem validateMarkdown_heading_missed :
    ValidateMarkdown "#Hello world" = (true, []) := by
  decide

/-- The self-test case `格式错误的标题`: the headings `#标题1` and `##标题2` on lines 5 and 6
are reported. -/
theorem validateMarkdown_selfTest :
    ValidateMarkdown docSelfTestHeadings =
      (false, ["第5行: 标题格式错误，应在#后加空格", "第6行: 标题格式错误，应在#后加空格"]) := by
  decide

/-! ## Tag cloud: claim C20 -/

theorem freqIncrement_keys (freq : List (String × Nat)) (w : String)
    (hfreq : ∀ e ∈ freq, 2 ≤ e.1.data.length) (hw : 2 ≤ w.data.length) :
    ∀ e ∈ freqIncrement freq w, 2 ≤ e.1.data.length := by
  induction freq with
  | nil =>
    intro e he
    simp only [freqIncrement, List.mem_singleton] at he
    rw [he]
    exact hw
  | cons kv rest ih =>
    obtain ⟨k, v⟩ := kv
    intro e he
    unfold freqIncrement at he
    split at he
    · rcases List.mem_cons.1 he with h | h
      · rw [h]
        exact hfreq (k, v) (by simp)
      · exact hfreq e (List.mem_cons_of_mem _ h)
    · rcases List.mem_cons.1 he with h | h
      · rw [h]
        exact hfreq (k, v) (by simp)
      · exact ih (fun e' he' => hfreq e' (List.mem_cons_of_mem _ he')) e h

theorem countWords_keys (words : List String) (freq : List (String × Nat))
    (hfreq : ∀ e ∈ freq, 2 ≤ e.1.data.length) :
    ∀ e ∈ countWords freq words, 2 ≤ e.1.data.length := by
  induction words generalizing freq with
  | nil => exact hfreq
  | cons w rest ih =>
    unfold countWords
    rw [List.foldl_cons]
    apply ih
    split
    · exact hfreq
    · rename_i hw
      exact freqIncrement_keys freq w hfreq (by omega)

theorem countPosts_keys (cutForSearch : String → List String) (posts : List Post)
    (freq : List (String × Nat)) (hfreq : ∀ e ∈ freq, 2 ≤ e.1.data.length) :
    ∀ e ∈ posts.foldl (fun freq post => countWords freq (cutForSearch post.Title)) freq,
      2 ≤ e.1.data.length := by
  induction posts generalizing freq with
  | nil => exact hfreq
  | cons post rest ih =>
    rw [List.foldl_cons]
    exact ih _ (countWords_keys _ freq hfreq)

/-- C20: after `buildJiebaTags`, for every post sequence and every result of the word
segmenter, `JiebaTags` has at least 1 and at most 20 entries and every entry has at least 2
characters (the map `freq` being visited in any order and `sort.Slice` rearranging the
slice). -/
theorem jiebaTags_bounds (cutForSearch : String → List String)
    (rangeOrder : List (String × Nat) → List (String × Nat))
    (sortSlice : (String × Nat → String × Nat → Bool) → List (String × Nat) →
      List (String × Nat))
    (hrange : ∀ m, List.Perm (rangeOrder m) m)
    (hsort : ∀ xs, List.Perm (sortSlice tagLess xs) xs) (s : Site) :
    1 ≤ (s.buildJiebaTags cutForSearch rangeOrder sortSlice).JiebaTags.length ∧
    (s.buildJiebaTags cutForSearch rangeOrder sortSlice).JiebaTags.length ≤ 20 ∧
    (∀ tag ∈ (s.buildJiebaTags cutForSearch rangeOrder sortSlice).JiebaTags,
      2 ≤ tag.data.length) := by
  unfold Site.buildJiebaTags
  simp only
  split
  · rename_i hempty
    refine ⟨by simp, by simp [List.length_eq_zero.1 hempty], ?_⟩
    intro tag htag
    rw [List.length_eq_zero.1 hempty] at htag
    simp only [List.nil_append, List.mem_singleton] at htag
    rw [htag]
    decide
  · rename_i hne
    refine ⟨by omega, ?_, ?_⟩
    · rw [List.length_map]
      exact List.length_take_le _ _
    · intro tag htag
      obtain ⟨e, he, rfl⟩ := List.mem_map.1 htag
      have h1 := List.mem_of_mem_take he
      have h2 := (hsort _).mem_iff.1 h1
      have h3 := (hrange _).mem_iff.1 h2
      exact countPosts_keys cutForSearch s.Posts [] (by simp) e h3

theorem insertLeftTag_perm (less : String × Nat → String × Nat → Bool) (x : String × Nat)
    (ys : List (String × Nat)) : List.Perm (insertLeftTag less x ys) (x :: ys) := by
  induction ys with
  | nil => exact List.Perm.refl _
  | cons y ys ih =>
    unfold insertLeftTag
    split
    · exact (List.Perm.cons y ih).trans (List.Perm.swap x y ys)
    · exact List.Perm.refl _

theorem insertionSortTags_perm (less : String × Nat → String × Nat → Bool)
    (xs : List (String × Nat)) : List.Perm (insertionSortTags less xs) xs := by
  have hfold : ∀ (xs acc : List (String × Nat)),
      List.Perm (xs.foldl (fun sortedRev x => insertLeftTag less x sortedRev) acc)
        (xs.reverse ++ acc) := by
    intro xs
    induction xs with
    | nil => intro acc; exact List.Perm.refl _
    | cons x xs ih =>
      intro acc
      rw [List.foldl_cons, List.reverse_cons, List.append_assoc]
      exact (ih _).trans (List.Perm.append_left _ (insertLeftTag_perm less x acc))
  unfold insertionSortTags
  refine (List.reverse_perm _).trans ((hfold xs []).trans ?_)
  rw [List.append_nil]
  exact List.reverse_perm _

theorem jiebaTags_bounds_witness :
    (Site.buildJiebaTags cutAtSpaces id insertionSortTags
        { Config := defaultConfig, Posts := titledPosts }).JiebaTags = ["go", "hello", "world"] ∧
    (Site.buildJiebaTags cutAtSpaces id insertionSortTags
        { Config := defaultConfig, Posts := [] }).JiebaTags = ["无标签"] ∧
    1 ≤ (Site.buildJiebaTags cutAtSpaces id insertionSortTags
        { Config := defaultConfig, Posts := titledPosts }).JiebaTags.length ∧
    (Site.buildJiebaTags cutAtSpaces id insertionSortTags
        { Config := defaultConfig, Posts := titledPosts }).JiebaTags.length ≤ 20 :=
  ⟨by decide, by decide,
   (jiebaTags_bounds cutAtSpaces id insertionSortTags (fun m => List.Perm.refl m)
      (insertionSortTags_perm tagLess) { Config := defaultConfig, Posts := titledPosts }).1,
   (jiebaTags_bounds cutAtSpaces id insertionSortTags (fun m => List.Perm.refl m)
      (insertionSortTags_perm tagLess) { Config := defaultConfig, Posts := titledPosts }).2.1⟩

/-! ## Splitting and joining lines -/

theorem joinLines_cons_cons (c : Char) (l : List Char) (ls : List (List Char)) :
    joinLines ((c :: l) :: ls) = c :: joinLines (l :: ls) := by
  cases ls <;> rfl

theorem joinLines_nil_cons (l : List Char) (ls : List (List Char)) :
    joinLines ([] :: l :: ls) = '\n' :: joinLines (l :: ls) := rfl

theorem joinLines_splitLines (s : List Char) : joinLines (splitLines s) = s := by
  induction s with
  | nil => rfl
  | cons c cs ih =>
    rw [splitLines_cons]
    cases hsp : splitLines cs with
    | nil => exact absurd hsp (splitLines_ne_nil cs)
    | cons l ls =>
      rw [hsp] at ih
      by_cases hc : c = '\n'
      · rw [if_pos hc, joinLines_nil_cons, ih, hc]
      · rw [if_neg hc]
        show joinLines ((c :: l) :: ls) = c :: cs
        rw [joinLines_cons_cons, ih]

theorem splitLines_append (a s : List Char) :
    splitLines (a ++ '\n' :: s) = splitLines a ++ splitLines s := by
  induction a with
  | nil => rfl
  | cons c a ih =>
    rw [List.cons_append, splitLines_cons, splitLines_cons, ih]
    cases hsp : splitLines a with
    | nil => exact absurd hsp (splitLines_ne_nil a)
    | cons l ls =>
      by_cases hc : c = '\n'
      · rw [if_pos hc, if_pos hc]; rfl
      · rw [if_neg hc, if_neg hc]; rfl

/-! ## Front matter at the top of a file: claim C28 -/

theorem splitLines_fenced (h b : String) :
    splitLines ("---\n" ++ h ++ "\n---\n" ++ b).data =
      [] ++ ['-', '-', '-'] ::
        (splitLines h.data ++ ['-', '-', '-'] :: splitLines b.data) := by
  have hdata : ("---\n" ++ h ++ "\n---\n" ++ b).data =
      ['-', '-', '-'] ++ '\n' :: (h.data ++ '\n' :: (['-', '-', '-'] ++ '\n' :: b.data)) := by
    simp only [String.data_append]
    show (['-', '-', '-', '\n'] ++ h.data ++ ['\n', '-', '-', '-', '\n']) ++ b.data = _
    simp
  rw [hdata, splitLines_append_newline _ _ (by decide), splitLines_append,
    splitLines_append_newline _ _ (by decide)]
  rfl

/-- Claim C28. For every header text `h` none of whose lines trims to `---` and every body
text `b`, `Parse` applied to `"---\n" ++ h ++ "\n---\n" ++ b` returns `b` as the body (and
no error), whatever the YAML library makes of the header. -/
theorem parse_recovers_body (yamlUnmarshal : String → Option FrontMatter) (h b : String)
    (hh : ∀ l ∈ splitLines h.data, isDelimiter l = false) :
    (Parse yamlUnmarshal ("---\n" ++ h ++ "\n---\n" ++ b)).body = b ∧
      (Parse yamlUnmarshal ("---\n" ++ h ++ "\n---\n" ++ b)).err = none := by
  rw [parse_block yamlUnmarshal _ [] (splitLines h.data) (splitLines b.data)
    ['-', '-', '-'] ['-', '-', '-'] (splitLines_fenced h b) (by simp) (by decide) hh
    (by decide)]
  refine ⟨?_, rfl⟩
  show String.mk (joinLines (splitLines b.data)) = b
  rw [joinLines_splitLines]

theorem parse_recovers_body_witness :
    (Parse yamlTitleOnly ("---\n" ++ "title: Hi" ++ "\n---\n" ++ "Body\n---\nmore")).body =
        "Body\n---\nmore" ∧
      (Parse yamlTitleOnly ("---\n" ++ "title: Hi" ++ "\n---\n" ++ "Body\n---\nmore")).err =
        none :=
  parse_recovers_body yamlTitleOnly "title: Hi" "Body\n---\nmore" (by decide)

/-! ## The heading strip of renderPost: claim C30 -/

theorem stripH1Loop_cons (line : List Char) (rest : List (List Char)) (removed : Bool) :
    stripH1Loop (line :: rest) removed =
      if (!removed && isH1Line line) = true then stripH1Loop rest true
      else line :: stripH1Loop rest removed := rfl

theorem stripH1Loop_removed (lines : List (List Char)) : stripH1Loop lines true = lines := by
  induction lines with
  | nil => rfl
  | cons l ls ih => rw [stripH1Loop_cons, if_neg (by simp), ih]

theorem stripH1Loop_none (lines : List (List Char)) (removed : Bool)
    (h : ∀ l ∈ lines, isH1Line l = false) : stripH1Loop lines removed = lines := by
  induction lines with
  | nil => rfl
  | cons l ls ih =>
    rw [stripH1Loop_cons, if_neg (by simp [h l (List.mem_cons_self l ls)]),
      ih (fun x hx => h x (List.mem_cons_of_mem l hx))]

theorem stripH1Loop_first (before after : List (List Char)) (line : List Char)
    (hbefore : ∀ l ∈ before, isH1Line l = false) (hline : isH1Line line = true) :
    stripH1Loop (before ++ line :: after) false = before ++ after := by
  induction before with
  | nil =>
    show stripH1Loop (line :: after) false = after
    rw [stripH1Loop_cons, if_pos (by simp [hline]), stripH1Loop_removed]
  | cons l ls ih =>
    rw [List.cons_append, stripH1Loop_cons,
      if_neg (by simp [hbefore l (List.mem_cons_self l ls)]),
      ih (fun x hx => hbefore x (List.mem_cons_of_mem l hx))]
    rfl

/-- Claim C30. The heading strip of `renderPost` removes exactly the first line whose trimmed
text starts with `# ` or with `#` and a tab: when the lines of the body are `before`, `line`,
`after` with no such line in `before` and `line` such a line, the rendered body is the join
of `before` and `after`, every other line kept in its order; when no line of the body is such
a line, the body is left unchanged. -/
theorem contentNoH1_removes_first_heading (content : String) :
    (∀ (before after : List (List Char)) (line : List Char),
        splitLines content.data = before ++ line :: after →
        (∀ l ∈ before, isH1Line l = false) → isH1Line line = true →
        contentNoH1 content = String.mk (joinLines (before ++ after))) ∧
      ((∀ l ∈ splitLines content.data, isH1Line l = false) → contentNoH1 content = content) := by
  refine ⟨?_, ?_⟩
  · intro before after line hsplit hbefore hline
    unfold contentNoH1
    rw [hsplit, stripH1Loop_first before after line hbefore hline]
  · intro hnone
    unfold contentNoH1
    rw [stripH1Loop_none _ false hnone, joinLines_splitLines]

theorem contentNoH1_removes_first_heading_witness :
    contentNoH1 "intro\n  # Title\ntext\n# Second" = "intro\ntext\n# Second" ∧
      contentNoH1 "#tag\n## Sub" = "#tag\n## Sub" :=
  ⟨(contentNoH1_removes_first_heading "intro\n  # Title\ntext\n# Second").1
      ["intro".data] ["text".data, "# Second".data] "  # Title".data (by decide) (by decide)
      (by decide),
    (contentNoH1_removes_first_heading "#tag\n## Sub").2 (by decide)⟩

/-! ## Idempotence of the markdown preprocessing: claim C29 -/

theorem processedFrom_cons (line : List Char) (rest : List (List Char)) (b : Bool) :
    processedFrom (line :: rest) b =
      if isFence line = true then line :: processedFrom rest (!b)
      else if b = true then line :: processedFrom rest b
      else preprocessPlainLine line :: processedFrom rest b := rfl

theorem inCodeAfter_cons (line : List Char) (rest : List (List Char)) (b : Bool) :
    inCodeAfter (line :: rest) b =
      if isFence line = true then inCodeAfter rest (!b) else inCodeAfter rest b := rfl

/-- The loop of `preprocessMarkdown` in closed form. -/
theorem preprocessLoop_eq (lines : List (List Char)) :
    ∀ (b : Bool) (acc : List (List Char)),
      preprocessLoop lines b acc = (acc ++ processedFrom lines b, inCodeAfter lines b) := by
  induction lines with
  | nil =>
    intro b acc
    simp [preprocessLoop, processedFrom, inCodeAfter]
  | cons line rest ih =>
    intro b acc
    rw [preprocessLoop_cons, processedFrom_cons, inCodeAfter_cons]
    by_cases hf : isFence line = true
    · have hf' : startsWith line "```" = true := hf
      cases b with
      | false =>
        simp only [hf', hf, Bool.not_false, Bool.and_self, if_true]
        rw [ih]
        simp
      | true =>
        simp only [hf', hf, Bool.not_true, Bool.and_false, Bool.false_eq_true, if_false,
          Bool.and_self, if_true]
        rw [ih]
        simp
    · have hf' : startsWith line "```" = false := by
        have : isFence line = false := by simpa using hf
        exact this
      cases b with
      | false =>
        simp only [hf', hf, Bool.false_and, Bool.false_eq_true, if_false]
        rw [ih]
        simp
      | true =>
        simp only [hf', hf, Bool.false_and, Bool.false_eq_true, if_false, if_true]
        rw [ih]
        simp

theorem preprocessMarkdown_eq (content : String) :
    preprocessMarkdown content =
      String.mk (joinLines (closedLines (splitLines (normalizeNewlines content).data))) := by
  unfold preprocessMarkdown closedLines
  simp only
  rw [preprocessLoop_eq]
  simp only [List.nil_append]
  cases inCodeAfter (splitLines (normalizeNewlines content).data) false <;> simp

theorem containsChars_space (t : List Char) :
    containsChars " ".data ('#' :: ' ' :: t) = true := by
  show containsChars [' '] ('#' :: ' ' :: t) = true
  simp [containsChars, List.isPrefixOf]

theorem preprocessPlainLine_idem (line : List Char) :
    preprocessPlainLine (preprocessPlainLine line) = preprocessPlainLine line := by
  rw [preprocessPlainLine_eq line]
  split
  · rename_i h
    obtain ⟨t, rfl⟩ := startsWith_hash line h.1
    rw [replaceFirst_hash, preprocessPlainLine_eq, if_neg]
    rw [containsChars_space]
    simp
  · rw [preprocessPlainLine_eq, if_neg (by assumption)]

theorem not_mem_preprocessPlainLine (line : List Char) (c : Char) (hc : c ≠ ' ')
    (h : c ∉ line) : c ∉ preprocessPlainLine line := by
  rw [preprocessPlainLine_eq]
  split
  · rename_i hcond
    obtain ⟨t, rfl⟩ := startsWith_hash line hcond.1
    rw [replaceFirst_hash]
    intro hmem
    rcases List.mem_cons.1 hmem with h1 | h1
    · exact h (by rw [h1]; exact List.mem_cons_self _ _)
    · rcases List.mem_cons.1 h1 with h2 | h2
      · exact hc h2
      · exact h (List.mem_cons_of_mem _ h2)
  · exact h

theorem not_mem_processedFrom (c : Char) (hc : c ≠ ' ') (lines : List (List Char)) :
    ∀ (b : Bool), (∀ l ∈ lines, c ∉ l) → ∀ l ∈ processedFrom lines b, c ∉ l := by
  induction lines with
  | nil =>
    intro b _ l hl
    simp [processedFrom] at hl
  | cons line rest ih =>
    intro b hall l hl
    have hline := hall line (List.mem_cons_self _ _)
    have hrest : ∀ l ∈ rest, c ∉ l := fun x hx => hall x (List.mem_cons_of_mem _ hx)
    rw [processedFrom_cons] at hl
    split at hl
    · rcases List.mem_cons.1 hl with h | h
      · rw [h]; exact hline
      · exact ih _ hrest l h
    · split at hl
      · rcases List.mem_cons.1 hl with h | h
        · rw [h]; exact hline
        · exact ih _ hrest l h
      · rcases List.mem_cons.1 hl with h | h
        · rw [h]; exact not_mem_preprocessPlainLine line c hc hline
        · exact ih _ hrest l h

theorem processedFrom_ne_nil (lines : List (List Char)) (b : Bool) (h : lines ≠ []) :
    processedFrom lines b ≠ [] := by
  cases lines with
  | nil => exact absurd rfl h
  | cons line rest =>
    rw [processedFrom_cons]
    split
    · simp
    · split <;> simp

/-- A second pass of the loop over its own output changes nothing and ends in the same
state. -/
theorem processedFrom_idem (lines : List (List Char)) :
    ∀ (b : Bool), processedFrom (processedFrom lines b) b = processedFrom lines b ∧
      inCodeAfter (processedFrom lines b) b = inCodeAfter lines b := by
  induction lines with
  | nil =>
    intro b
    exact ⟨rfl, rfl⟩
  | cons line rest ih =>
    intro b
    rw [processedFrom_cons, inCodeAfter_cons]
    by_cases hf : isFence line = true
    · rw [if_pos hf, if_pos hf, processedFrom_cons, inCodeAfter_cons, if_pos hf, if_pos hf,
        (ih (!b)).1, (ih (!b)).2]
      exact ⟨rfl, rfl⟩
    · rw [if_neg hf, if_neg hf]
      cases b with
      | true =>
        rw [if_pos rfl, processedFrom_cons, inCodeAfter_cons, if_neg hf, if_neg hf, if_pos rfl,
          (ih true).1, (ih true).2]
        exact ⟨rfl, rfl⟩
      | false =>
        have hf0 : isFence line = false := by simpa using hf
        have hp : ¬ isFence (preprocessPlainLine line) = true := by
          rw [(preprocessPlainLine_props line hf0).1]
          simp
        rw [if_neg (by simp), processedFrom_cons, inCodeAfter_cons, if_neg hp, if_neg hp,
          if_neg (by simp), preprocessPlainLine_idem, (ih false).1, (ih false).2]
        exact ⟨rfl, rfl⟩

theorem processedFrom_append (xs ys : List (List Char)) :
    ∀ (b : Bool), processedFrom (xs ++ ys) b =
        processedFrom xs b ++ processedFrom ys (inCodeAfter xs b) ∧
      inCodeAfter (xs ++ ys) b = inCodeAfter ys (inCodeAfter xs b) := by
  induction xs with
  | nil =>
    intro b
    exact ⟨rfl, rfl⟩
  | cons line rest ih =>
    intro b
    rw [List.cons_append, processedFrom_cons, processedFrom_cons, inCodeAfter_cons,
      inCodeAfter_cons]
    by_cases hf : isFence line = true
    · rw [if_pos hf, if_pos hf, if_pos hf, if_pos hf, (ih (!b)).1, (ih (!b)).2]
      exact ⟨rfl, rfl⟩
    · rw [if_neg hf, if_neg hf, if_neg hf, if_neg hf, (ih b).1, (ih b).2]
      cases b <;> exact ⟨rfl, rfl⟩

/-- The lines joined by `preprocessMarkdown` are a fixed point of the loop and its closing
step. -/
theorem closedLines_idem (lines : List (List Char)) :
    closedLines (closedLines lines) = closedLines lines := by
  have hidem := processedFrom_idem lines false
  have happ := processedFrom_append (processedFrom lines false)
    (if inCodeAfter lines false = true then ["```".data] else []) false
  unfold closedLines
  rw [happ.1, happ.2, hidem.1, hidem.2]
  cases hin : inCodeAfter lines false with
  | false => simp [processedFrom, inCodeAfter]
  | true =>
    have h1 : processedFrom ["```".data] true = ["```".data] := by decide
    have h2 : inCodeAfter ["```".data] true = false := by decide
    simp only [if_true, h1, h2]
    simp

theorem replaceAllFrom_zero_cons (old new : List Char) (c : Char) (cs : List Char) :
    replaceAllFrom old new 0 (c :: cs) =
      if old.isPrefixOf (c :: cs) = true then new ++ replaceAllFrom old new (old.length - 1) cs
      else c :: replaceAllFrom old new 0 cs := rfl

/-- Replacing a text that begins with a character absent from `s` leaves `s` as it is. -/
theorem replaceAllFrom_absent (c0 : Char) (tl new s : List Char) (h : c0 ∉ s) :
    replaceAllFrom (c0 :: tl) new 0 s = s := by
  induction s with
  | nil => rfl
  | cons c cs ih =>
    have hc : c0 ≠ c := fun e => h (by rw [e]; exact List.mem_cons_self _ _)
    have hpre : List.isPrefixOf (c0 :: tl) (c :: cs) = false := by
      simp [List.isPrefixOf, hc]
    rw [replaceAllFrom_zero_cons, hpre, if_neg (by simp),
      ih (fun hm => h (List.mem_cons_of_mem _ hm))]

theorem replaceAllFrom_cr (s : List Char) : '\r' ∉ replaceAllFrom ['\r'] ['\n'] 0 s := by
  induction s with
  | nil => simp [replaceAllFrom]
  | cons c cs ih =>
    rw [replaceAllFrom_zero_cons]
    by_cases hc : c = '\r'
    · have hpre : List.isPrefixOf ['\r'] (c :: cs) = true := by
        simp [List.isPrefixOf, hc]
      rw [if_pos hpre]
      show '\r' ∉ '\n' :: replaceAllFrom ['\r'] ['\n'] 0 cs
      intro hm
      rcases List.mem_cons.1 hm with h | h
      · exact absurd h (by decide)
      · exact ih h
    · have hpre : List.isPrefixOf ['\r'] (c :: cs) = false := by
        simp [List.isPrefixOf, Ne.symm hc]
      rw [hpre, if_neg (by simp)]
      intro hm
      rcases List.mem_cons.1 hm with h | h
      · exact hc h.symm
      · exact ih h

theorem normalizeNewlines_cr (content : String) : '\r' ∉ (normalizeNewlines content).data :=
  replaceAllFrom_cr _

theorem normalizeNewlines_absent (content : String) (h : '\r' ∉ content.data) :
    normalizeNewlines content = content := by
  unfold normalizeNewlines replaceAll
  show String.mk (replaceAllFrom ['\r'] ['\n'] 0
    (replaceAllFrom ['\r', '\n'] ['\n'] 0 content.data)) = content
  rw [replaceAllFrom_absent '\r' ['\n'] ['\n'] content.data h,
    replaceAllFrom_absent '\r' [] ['\n'] content.data h]

theorem not_mem_joinLines (c : Char) (hc : c ≠ '\n') (lines : List (List Char))
    (h : ∀ l ∈ lines, c ∉ l) : c ∉ joinLines lines := by
  induction lines with
  | nil => simp [joinLines]
  | cons l ls ih =>
    cases ls with
    | nil => exact h l (List.mem_cons_self _ _)
    | cons m rest =>
      show c ∉ l ++ '\n' :: joinLines (m :: rest)
      intro hm
      rcases List.mem_append.1 hm with h1 | h1
      · exact h l (List.mem_cons_self _ _) h1
      · rcases List.mem_cons.1 h1 with h2 | h2
        · exact hc h2
        · exact ih (fun x hx => h x (List.mem_cons_of_mem _ hx)) h2

theorem not_mem_closedLines (c : Char) (hc : c ≠ ' ') (hq : c ≠ '`') (lines : List (List Char))
    (h : ∀ l ∈ lines, c ∉ l) : ∀ l ∈ closedLines lines, c ∉ l := by
  intro l hl
  unfold closedLines at hl
  rcases List.mem_append.1 hl with h1 | h1
  · exact not_mem_processedFrom c hc lines false h l h1
  · split at h1
    · simp only [List.mem_singleton] at h1
      rw [h1]
      intro hm
      have : c = '`' := by
        have hm' : c ∈ ['`', '`', '`'] := hm
        simpa using hm'
      exact hq this
    · simp at h1

/-- Claim C29. `preprocessMarkdown` is idempotent: applied to its own output it returns that
output. -/
theorem preprocessMarkdown_idempotent (content : String) :
    preprocessMarkdown (preprocessMarkdown content) = preprocessMarkdown content := by
  have hlines_nl : ∀ l ∈ splitLines (normalizeNewlines content).data, '\n' ∉ l :=
    splitLines_no_newline _
  have hlines_cr : ∀ l ∈ splitLines (normalizeNewlines content).data, '\r' ∉ l :=
    fun l hl hm => normalizeNewlines_cr content (mem_of_mem_splitLines _ l '\r' hl hm)
  have hne : closedLines (splitLines (normalizeNewlines content).data) ≠ [] := by
    unfold closedLines
    intro h
    exact processedFrom_ne_nil _ false (splitLines_ne_nil _) (List.append_eq_nil.1 h).1
  have hcr : '\r' ∉ (preprocessMarkdown content).data := by
    rw [preprocessMarkdown_eq]
    exact not_mem_joinLines '\r' (by decide) _
      (not_mem_closedLines '\r' (by decide) (by decide) _ hlines_cr)
  rw [preprocessMarkdown_eq (preprocessMarkdown content),
    normalizeNewlines_absent _ hcr]
  rw [preprocessMarkdown_eq content]
  show String.mk (joinLines (closedLines (splitLines (joinLines (closedLines
    (splitLines (normalizeNewlines content).data)))))) = _
  rw [splitLines_joinLines _ hne
    (not_mem_closedLines '\n' (by decide) (by decide) _ hlines_nl), closedLines_idem]

/-! ## File watcher: claim C21 -/

theorem handleFileEvent_unchanged (calculateFileHash : String → Option String) (event : Event)
    (fw : FileWatcher) (digest : String) (hign : isIgnored event = false)
    (hop : event.Op &&& opWrite = opWrite) (hnew : calculateFileHash event.Name = some digest)
    (hold : hashLookup fw.fileHashes event.Name = some digest) :
    fw.handleFileEvent calculateFileHash event = fw := by
  unfold FileWatcher.handleFileEvent FileWatcher.hasFileChanged
  rw [if_neg (by simp [hign]), if_pos hop, hnew]
  simp only
  rw [hold]
  simp

/-- Claim C21. For every watcher state and every write event on a file that is not ignored
and whose current digest equals the digest stored for it, `handleFileEvent` leaves the
watcher as it is: the digest table is unchanged and `debouncedRebuild` is not called (no
timer is created, and the timer held is not replaced). Hence a finite sequence of such
events leaves the watcher as it is too, and since a rebuild token is only ever offered by a
timer that `debouncedRebuild` creates, these events produce no token. -/
theorem unchanged_write_no_rebuild (fw : FileWatcher) :
    (∀ (calculateFileHash : String → Option String) (event : Event) (digest : String),
        isIgnored event = false → event.Op &&& opWrite = opWrite →
        calculateFileHash event.Name = some digest →
        hashLookup fw.fileHashes event.Name = some digest →
        fw.handleFileEvent calculateFileHash event = fw) ∧
      (∀ (steps : List ((String → Option String) × Event)),
        (∀ step ∈ steps, isIgnored step.2 = false ∧ step.2.Op &&& opWrite = opWrite ∧
          ∃ digest, step.1 step.2.Name = some digest ∧
            hashLookup fw.fileHashes step.2.Name = some digest) →
        fw.handleFileEvents steps = fw) := by
  refine ⟨fun hashOf event digest h1 h2 h3 h4 =>
    handleFileEvent_unchanged hashOf event fw digest h1 h2 h3 h4, ?_⟩
  intro steps
  induction steps with
  | nil => intro _; rfl
  | cons step rest ih =>
    intro hall
    obtain ⟨h1, h2, digest, h3, h4⟩ := hall step (List.mem_cons_self _ _)
    unfold FileWatcher.handleFileEvents
    rw [List.foldl_cons, handleFileEvent_unchanged step.1 step.2 fw digest h1 h2 h3 h4]
    exact ih (fun x hx => hall x (List.mem_cons_of_mem _ hx))

theorem unchanged_write_no_rebuild_witness :
    watcherA.handleFileEvent (constantDigest "abc") writeA = watcherA ∧
      watcherA.handleFileEvents
        [(constantDigest "abc", writeA), (constantDigest "abc", writeA)] = watcherA ∧
      watcherA.handleFileEvent (constantDigest "abd") writeA ≠ watcherA :=
  ⟨(unchanged_write_no_rebuild watcherA).1 (constantDigest "abc") writeA "abc" (by decide)
      (by decide) rfl (by decide),
    (unchanged_write_no_rebuild watcherA).2
      [(constantDigest "abc", writeA), (constantDigest "abc", writeA)]
      (by
        intro step hstep
        simp only [List.mem_cons, List.mem_singleton, List.not_mem_nil, or_false,
          or_self] at hstep
        rw [hstep]
        exact ⟨by decide, by decide, "abc", rfl, by decide⟩),
    by decide⟩

/-! ## Rebuilding on the same site: claim C23 -/

theorem loadPosts_cons (yamlUnmarshal : String → Option FrontMatter)
    (timeParse : String → String → Option Time) (f : String × Option String)
    (rest : List (String × Option String)) (s : Site) :
    s.loadPosts yamlUnmarshal timeParse (f :: rest) =
      Site.loadPosts yamlUnmarshal timeParse rest
        (match NewPost yamlUnmarshal timeParse f.1 f.2 s.Config with
          | some p => { s with Posts := s.Posts ++ [p] }
          | none => s) := rfl

/-- `loadPosts` appends to the posts that the site already holds. -/
theorem loadPosts_appends (yamlUnmarshal : String → Option FrontMatter)
    (timeParse : String → String → Option Time) (files : List (String × Option String)) :
    ∀ (s : Site), ∃ loaded, (s.loadPosts yamlUnmarshal timeParse files).Posts =
        s.Posts ++ loaded ∧
      (s.loadPosts yamlUnmarshal timeParse files).Config = s.Config := by
  induction files with
  | nil => intro s; exact ⟨[], by simp [Site.loadPosts], rfl⟩
  | cons f rest ih =>
    intro s
    rw [loadPosts_cons]
    cases hnew : NewPost yamlUnmarshal timeParse f.1 f.2 s.Config with
    | none =>
      simp only
      exact ih s
    | some p =>
      simp only
      obtain ⟨loaded, h1, h2⟩ := ih { s with Posts := s.Posts ++ [p] }
      refine ⟨p :: loaded, ?_, h2⟩
      rw [h1]
      simp

/-- C23 fails in the code: `Build` run a second time on the same site holds every post twice.
The steps of `Build` that write the post sequence are `loadPosts` and `processCollections`;
after one run over the file `_posts/2024-01-15-hello-world.md` the site holds one post, after
a second run over the same file it holds two, and the page of posts built by the pagination
has two entries instead of one. -/
theorem second_build_doubles_posts :
    ((paginatedSite.loadPosts yamlTitleOnly parseDateOnly helloFiles).processCollections
        insertionSort).Posts = [postHelloLoaded] ∧
      ((((paginatedSite.loadPosts yamlTitleOnly parseDateOnly helloFiles).processCollections
        insertionSort).loadPosts yamlTitleOnly parseDateOnly helloFiles).processCollections
        insertionSort).Posts = [postHelloLoaded, postHelloLoaded] ∧
      ((((paginatedSite.loadPosts yamlTitleOnly parseDateOnly helloFiles).processCollections
        insertionSort).loadPosts yamlTitleOnly parseDateOnly helloFiles).processCollections
        insertionSort).PagedPosts = [[postHelloLoaded, postHelloLoaded]] := by
  decide

/-! ## Validation of the configuration: claim C24 -/

theorem hasPrefix_append (a b : String) : hasPrefix (a ++ b) a = true := by
  unfold hasPrefix
  rw [String.data_append]
  exact List.isPrefixOf_iff_prefix.2 (List.prefix_append _ _)

theorem ne_append_slash (a rest : String) : a ≠ a ++ "/" ++ rest := by
  intro h
  have hlen : a.length = (a ++ "/" ++ rest).length := congrArg String.length h
  rw [String.length_append, String.length_append] at hlen
  have h1 : ("/" : String).length = 1 := rfl
  omega

/-- C24 (as stated) fails in both directions: a destination `/a` that is a proper ancestor of
the source `/a/b` and is not named `_site` is accepted, and a destination `/a/out` below the
source `/a` is rejected. -/
theorem validate_ancestor_counterexample :
    ({ Source := "/a/b", Destination := "/a" } : Config).validate allExist
        (absUnder "/work") = none ∧
      ({ Source := "/a", Destination := "/a/out" } : Config).validate allExist
        (absUnder "/work") = some "目标目录不能是源目录的子目录" := by
  decide

/-- Claim C24, amended. `Config.validate` returns an error when the source directory does not
exist; when it exists, it returns an error when the absolute destination lies below the
absolute source (it is the source followed by `/` and more) and its final segment is not
`_site`; and it returns no error when the absolute destination does not begin with the
absolute source, or is equal to it, or has the final segment `_site`. -/
theorem validate_destination_below_source (isNotExist : String → Bool)
    (abs : String → String) (c : Config) :
    (isNotExist c.Source = true →
        c.validate isNotExist abs = some ("源目录不存在: " ++ c.Source)) ∧
      (isNotExist c.Source = false →
        ∀ rest : String, abs c.Destination = abs c.Source ++ "/" ++ rest →
        filepathBase (abs c.Destination) ≠ "_site" →
        c.validate isNotExist abs = some "目标目录不能是源目录的子目录") ∧
      (isNotExist c.Source = false →
        (hasPrefix (abs c.Destination) (abs c.Source) = false ∨
          abs c.Source = abs c.Destination ∨ filepathBase (abs c.Destination) = "_site") →
        c.validate isNotExist abs = none) := by
  refine ⟨?_, ?_, ?_⟩
  · intro h
    unfold Config.validate
    rw [if_pos h]
  · intro h rest hdest hbase
    have hpre : hasPrefix (abs c.Destination) (abs c.Source) = true := by
      rw [hdest, String.append_assoc]
      exact hasPrefix_append _ _
    have hne : abs c.Source ≠ abs c.Destination := by
      rw [hdest]
      exact ne_append_slash _ _
    unfold Config.validate
    rw [if_neg (by simp [h])]
    simp only
    rw [if_pos (by simp [hpre, hne]), if_pos hbase]
  · intro h hcases
    unfold Config.validate
    rw [if_neg (by simp [h])]
    simp only
    rcases hcases with h1 | h1 | h1
    · rw [if_neg (by simp [h1])]
    · rw [if_neg (by simp [h1])]
    · split
      · rw [if_neg (by simp [h1])]
      · rfl

theorem validate_destination_below_source_witness :
    ({ Source := "/gone", Destination := "/a" } : Config).validate (onlyFile "/gone")
        (absUnder "/work") = some ("源目录不存在: " ++ "/gone") ∧
      ({ Source := "src", Destination := "src/out" } : Config).validate allExist
        (absUnder "/work") = some "目标目录不能是源目录的子目录" ∧
      ({ Source := "/a/b", Destination := "/a" } : Config).validate allExist
        (absUnder "/work") = none ∧
      ({ Source := ".", Destination := "./_site" } : Config).validate allExist
        (absUnder "/work") = none :=
  ⟨(validate_destination_below_source (onlyFile "/gone") (absUnder "/work")
      { Source := "/gone", Destination := "/a" }).1 (by decide),
    (validate_destination_below_source allExist (absUnder "/work")
      { Source := "src", Destination := "src/out" }).2.1 (by decide) "out" (by decide)
      (by decide),
    (validate_destination_below_source allExist (absUnder "/work")
      { Source := "/a/b", Destination := "/a" }).2.2 (by decide) (Or.inl (by decide)),
    (validate_destination_below_source allExist (absUnder "/work")
      { Source := ".", Destination := "./_site" }).2.2 (by decide)
      (Or.inr (Or.inr (by decide)))⟩

/-! ## Loading the configuration: claim C25 -/

/-- The configuration returned by `Load` is the one that `yaml.Unmarshal` has written, when a
configuration file is read and the result passes the validation: the values of the command
line are set before the file is read and nothing sets them again. -/
theorem load_returns_unmarshalled (statOK : String → Bool) (join : String → String → String)
    (readFile : String → Option String) (yamlUnmarshal : String → Config → Option Config)
    (isNotExist : String → Bool) (abs : String → String)
    (configPath source destination data : String) (c : Config) (hpath : configPath ≠ "")
    (hfound : findConfigFile statOK join
      (if source ≠ "." then source else ".") [".yml", ".yaml", ".toml"] = "")
    (hread : readFile configPath = some data)
    (hyaml : yamlUnmarshal data
      { Source := if source ≠ "." then source else ".",
        Destination := if destination ≠ "_site" then destination else "_site",
        configPath := configPath } = some c)
    (hvalid : c.validate isNotExist abs = none) :
    Load statOK join readFile yamlUnmarshal isNotExist abs configPath source destination =
      Except.ok c := by
  have hcfg : (if destination ≠ "_site" then
      ({ (if source ≠ "." then ({ Defaults with Source := source } : Config) else Defaults)
        with Destination := destination } : Config)
      else (if source ≠ "." then ({ Defaults with Source := source } : Config) else Defaults)) =
      { Source := if source ≠ "." then source else ".",
        Destination := if destination ≠ "_site" then destination else "_site" } := by
    by_cases h1 : source = "." <;> by_cases h2 : destination = "_site" <;>
      simp [h1, h2, Defaults]
  unfold Load
  simp only
  rw [hcfg, if_pos hpath]
  unfold Config.loadFromFile
  simp only
  rw [hfound, if_neg (by simp [hpath])]
  simp only [if_true]
  rw [hread]
  simp only
  rw [hyaml]
  simp only
  rw [hvalid]

/-- C25 fails in the code: with `--source site --destination out` on the command line and a
configuration file `_config.yml` that sets `destination: public`, `Load` returns a
configuration whose destination is `public`, the value of the file, not `out`. -/
theorem load_config_file_wins :
    (Load (onlyFile "nowhere") joinPath (fileWith "_config.yml" "destination: public")
        yamlDestinationOnly allExist (absUnder "/work") "_config.yml" "site" "out").toOption =
      some { Source := "site", Destination := "public", configPath := "_config.yml" } := by
  decide

/-! ## Includes and layouts: claim C26 -/

theorem layoutLookup_layoutSet (m : List (String × Layout)) (key : String) (value : Layout) :
    layoutLookup (layoutSet m key value) key = some value := by
  induction m with
  | nil => simp [layoutSet, layoutLookup]
  | cons kv rest ih =>
    obtain ⟨k, v⟩ := kv
    by_cases h : k = key
    · simp [layoutSet, layoutLookup, h]
    · simp [layoutSet, layoutLookup, h, ih]

theorem layoutLookup_layoutSet_other (m : List (String × Layout)) (key name : String)
    (value : Layout) (hne : key ≠ name) :
    layoutLookup (layoutSet m key value) name = layoutLookup m name := by
  induction m with
  | nil => simp [layoutSet, layoutLookup, hne]
  | cons kv rest ih =>
    obtain ⟨k, v⟩ := kv
    by_cases h : k = key
    · have hk : k ≠ name := by rw [h]; exact hne
      simp [layoutSet, layoutLookup, h, hne]
    · by_cases hk : k = name
      · subst hk
        simp [layoutSet, layoutLookup, h]
      · simp [layoutSet, layoutLookup, h, hk, ih]

theorem walkIncludes_file (stripStart stripEnd : String → String) (path : String)
    (file : Except String String) (rest : List WalkEntry) (s : Site) :
    walkIncludes stripStart stripEnd (WalkEntry.file path file :: rest) s =
      if filepathExt path ≠ ".html" ∧ filepathExt path ≠ ".htm" then
        walkIncludes stripStart stripEnd rest s
      else
        match file with
        | Except.error err => Except.error ("读取包含文件 " ++ path ++ " 失败: " ++ err)
        | Except.ok content =>
          walkIncludes stripStart stripEnd rest
            { s with
              Layouts :=
                layoutSet s.Layouts (trimSuffix (filepathBase path) (filepathExt path))
                  (NewLayout (trimSuffix (filepathBase path) (filepathExt path))
                    (stripEnd (stripStart content))) } := rfl

theorem html_or_htm (path : String)
    (h : ¬ (filepathExt path ≠ ".html" ∧ filepathExt path ≠ ".htm")) :
    filepathExt path = ".html" ∨ filepathExt path = ".htm" := by
  by_cases h1 : filepathExt path = ".html"
  · exact Or.inl h1
  · by_cases h2 : filepathExt path = ".htm"
    · exact Or.inr h2
    · exact absurd ⟨h1, h2⟩ h

/-- The walk of `loadIncludes` returns no error when every entry can be visited and every
include file can be read, whatever the layouts hold. -/
theorem walkIncludes_readable (stripStart stripEnd : String → String)
    (entries : List WalkEntry) (hread : ∀ e ∈ entries, entryReadable e = true) :
    ∀ (s : Site), ∃ s', walkIncludes stripStart stripEnd entries s = Except.ok s' := by
  induction entries with
  | nil => intro s; exact ⟨s, rfl⟩
  | cons e rest ih =>
    intro s
    have hrest : ∀ e ∈ rest, entryReadable e = true :=
      fun x hx => hread x (List.mem_cons_of_mem _ hx)
    have he := hread e (List.mem_cons_self _ _)
    cases e with
    | failed path err => exact absurd he (by simp [entryReadable])
    | dir path => exact ih hrest s
    | file path file =>
      rw [walkIncludes_file]
      split
      · exact ih hrest s
      · rename_i hext
        cases file with
        | error err =>
          have : filepathExt path ≠ ".html" ∧ filepathExt path ≠ ".htm" := by
            simpa [entryReadable] using he
          exact absurd this hext
        | ok content => exact ih hrest _

/-- After the walk of `loadIncludes` a name maps to the last include registered under it,
and to what it mapped to before when no include has that name. -/
theorem walkIncludes_lookup (stripStart stripEnd : String → String)
    (entries : List WalkEntry) (name : String) :
    ∀ (s s' : Site), walkIncludes stripStart stripEnd entries s = Except.ok s' →
      layoutLookup s'.Layouts name =
        match lastInclude stripStart stripEnd entries name with
        | some l => some l
        | none => layoutLookup s.Layouts name := by
  induction entries with
  | nil =>
    intro s s' h
    have hs : s = s' := by
      have h' : (Except.ok s : Except String Site) = Except.ok s' := h
      injection h'
    rw [hs]
    rfl
  | cons e rest ih =>
    intro s s' h
    cases e with
    | failed path err => exact absurd h (by simp [walkIncludes])
    | dir path =>
      have h' : walkIncludes stripStart stripEnd rest s = Except.ok s' := h
      rw [ih s s' h']
      show _ = match (match lastInclude stripStart stripEnd rest name with
        | some l => some l
        | none => none) with
        | some l => some l
        | none => layoutLookup s.Layouts name
      cases lastInclude stripStart stripEnd rest name <;> rfl
    | file path file =>
      rw [walkIncludes_file] at h
      split at h
      · rename_i hext
        rw [ih s s' h]
        have hinc : includeOf stripStart stripEnd (WalkEntry.file path file) = none := by
          cases file with
          | error err => rfl
          | ok content =>
            show (if filepathExt path = ".html" ∨ filepathExt path = ".htm" then _
              else none) = none
            rw [if_neg (by
              intro hor
              rcases hor with h1 | h1
              · exact hext.1 h1
              · exact hext.2 h1)]
        show _ = match (match lastInclude stripStart stripEnd rest name with
          | some l => some l
          | none =>
            match includeOf stripStart stripEnd (WalkEntry.file path file) with
            | some (n, l) => if n = name then some l else none
            | none => none) with
          | some l => some l
          | none => layoutLookup s.Layouts name
        rw [hinc]
        cases lastInclude stripStart stripEnd rest name <;> rfl
      · rename_i hext
        have hor := html_or_htm path hext
        cases file with
        | error err => exact absurd h (by simp)
        | ok content =>
          simp only at h
          rw [ih _ s' h]
          have hinc : includeOf stripStart stripEnd (WalkEntry.file path (Except.ok content)) =
              some (trimSuffix (filepathBase path) (filepathExt path),
                NewLayout (trimSuffix (filepathBase path) (filepathExt path))
                  (stripEnd (stripStart content))) := by
            show (if filepathExt path = ".html" ∨ filepathExt path = ".htm" then _
              else none) = _
            rw [if_pos hor]
          show _ = match (match lastInclude stripStart stripEnd rest name with
            | some l => some l
            | none =>
              match includeOf stripStart stripEnd
                (WalkEntry.file path (Except.ok content)) with
              | some (n, l) => if n = name then some l else none
              | none => none) with
            | some l => some l
            | none => layoutLookup s.Layouts name
          rw [hinc]
          cases lastInclude stripStart stripEnd rest name with
          | some l => rfl
          | none =>
            simp only
            by_cases hn : trimSuffix (filepathBase path) (filepathExt path) = name
            · rw [if_pos hn, ← hn, layoutLookup_layoutSet]
            · rw [if_neg hn, layoutLookup_layoutSet_other _ _ _ _ hn]

/-- C26 (as stated) fails: `loadLayouts` registers `header` from `_layouts/header.html`, and
`loadIncludes`, which then meets `_includes/header.html`, raises no error and puts the
include in the place of the layout registered under `header`. -/
theorem include_duplicate_counterexample :
    ((Site.loadLayouts joinPath allExist (walkOf layoutEntries) { Config := {} }).toOption.map
        (fun s => layoutLookup s.Layouts "header")) =
        some (some (NewLayout "header" "<header>layout</header>")) ∧
      (((Site.loadLayouts joinPath allExist (walkOf layoutEntries) { Config := {} }).bind
        (Site.loadIncludes joinPath allExist keepText keepText
          (walkOf [WalkEntry.file "_includes/header.html"
            (Except.ok "<p>include</p>")]))).toOption.map
        (fun s => layoutLookup s.Layouts "header")) =
        some (some (NewLayout "header" "<p>include</p>")) := by
  decide

/-- Claim C26, amended. `loadIncludes` makes no test for a name that is already registered.
When the walk of the includes directory can visit every entry and read every file with the
extension `.html` or `.htm`, it returns no error, whatever the layouts hold. Whenever it
returns no error, every name maps, in `Site.Layouts`, to the include registered last under
that name (an include file is registered under its base name without the extension, with
its content after the two replacements), in the place of whatever layout was registered
under that name before; a name under which no include is registered keeps its layout. -/
theorem loadIncludes_replaces (join : String → String → String) (isNotExist : String → Bool)
    (stripStart stripEnd : String → String) (walk : String → List WalkEntry) (s : Site) :
    ((∀ e ∈ walk (join s.Config.Source s.Config.IncludesDir), entryReadable e = true) →
        ∃ s', s.loadIncludes join isNotExist stripStart stripEnd walk = Except.ok s') ∧
      (isNotExist (join s.Config.Source s.Config.IncludesDir) = false →
        ∀ s', s.loadIncludes join isNotExist stripStart stripEnd walk = Except.ok s' →
        ∀ name : String, layoutLookup s'.Layouts name =
          match lastInclude stripStart stripEnd
            (walk (join s.Config.Source s.Config.IncludesDir)) name with
          | some l => some l
          | none => layoutLookup s.Layouts name) := by
  refine ⟨?_, ?_⟩
  · intro hread
    unfold Site.loadIncludes
    simp only
    split
    · exact ⟨s, rfl⟩
    · exact walkIncludes_readable stripStart stripEnd _ hread s
  · intro hdir s' h name
    unfold Site.loadIncludes at h
    simp only at h
    rw [if_neg (by simp [hdir])] at h
    exact walkIncludes_lookup stripStart stripEnd _ name s s' h

theorem loadIncludes_replaces_witness :
    (∃ s', siteWithHeader.loadIncludes joinPath allExist keepText keepText
        (walkOf includeEntries) = Except.ok s') ∧
      ((siteWithHeader.loadIncludes joinPath allExist keepText keepText
          (walkOf includeEntries)).toOption.map
          (fun s => (layoutLookup s.Layouts "header", layoutLookup s.Layouts "footer")) =
        some (some (NewLayout "header" "<p>second</p>"), none)) ∧
      (∀ s', siteWithHeader.loadIncludes joinPath allExist keepText keepText
          (walkOf includeEntries) = Except.ok s' →
        ∀ name : String, layoutLookup s'.Layouts name =
          match lastInclude keepText keepText
            (walkOf includeEntries
              (joinPath siteWithHeader.Config.Source siteWithHeader.Config.IncludesDir))
            name with
          | some l => some l
          | none => layoutLookup siteWithHeader.Layouts name) :=
  ⟨(loadIncludes_replaces joinPath allExist keepText keepText (walkOf includeEntries)
      siteWithHeader).1 (by decide),
    by decide,
    (loadIncludes_replaces joinPath allExist keepText keepText (walkOf includeEntries)
      siteWithHeader).2 (by decide)⟩

/-! ## The template function truncate: claim C27 -/

/-- C27 fails in the code: `truncate` counts and cuts bytes. The text `你好` has two
characters, so for the length 2 it is to be returned unchanged; the code sees six bytes, keeps
the first two of them (a part of the first character, not a valid text) and appends `...`. -/
theorem truncate_cuts_bytes :
    "你好".length = 2 ∧ utf8Bytes "你好" = [228, 189, 160, 229, 165, 189] ∧
      truncate (utf8Bytes "你好") 2 = [228, 189, 46, 46, 46] ∧
      truncate (utf8Bytes "你好") 2 ≠ utf8Bytes "你好" := by
  decide

/-- On a text whose characters are one byte each, such as `hello`, `truncate` does what its
name says. -/
theorem truncate_ascii :
    truncate (utf8Bytes "hello") 5 = utf8Bytes "hello" ∧
      truncate (utf8Bytes "hello") 3 = utf8Bytes "hel..." := by
  decide

end Jacky
